import Mathlib

/-!
# `tz.TimeZone`: a validated time-zone name

A shallow embedding of `time_zone.go`.  A Go `string` and a Go `[]byte` are both
sequences of bytes; the conversions `string(b)` and `[]byte(s)` copy the bytes, so
both are the identity here.  A method with a pointer receiver returns the receiver
after the call together with the error (`none` is Go's `nil` error).

The standard-library functions the file calls (`time.LoadLocation`,
`(*time.Location).String`, `sql.NullString.Scan`, `fmt.Sprintf("%q")`,
`fmt.Sscanf("%q")`) are embedded next to it.  What they read from the host (the zone
database, the name of the local zone) or from generated tables (the wide part of
`strconv.IsPrint`) is the parameter `Env`.
-/

namespace Tz

/-! ## Go strings -/

/-- A Go `byte`. -/
abbrev Byte := Fin 256

/-- A Go `string` (and a `[]byte`): a sequence of bytes. -/
abbrev GoString := List Byte

/-- The conversion `byte(x)` of an integer: the low eight bits. -/
def byte (n : Nat) : Byte := ⟨n % 256, Nat.mod_lt _ (by decide)⟩

/-- The bytes of a string literal of the source (its UTF-8 encoding). -/
def str (s : String) : GoString :=
  (s.data.flatMap String.utf8EncodeChar).map (fun u => u.val)

/-! ## Package `time` -/

namespace Time

/-- A non-nil `*time.Location`.  The file compares such pointers only with the two
package variables `time.UTC` and `time.Local`, which are the first two
constructors; every other location is one that `LoadLocation` built from the zone
data found under `name`, and two of those are identified when they were built for
the same name (the equality of `assert.Equal` in the tests, which compares what the
pointers point to). -/
inductive Location where
  | UTC
  | Local
  | zone (name : GoString)
  deriving DecidableEq, Repr

end Time

deriving instance DecidableEq for Except

/-- An error value, by the place that makes it. -/
inductive Error where
  /-- Returned by `time.LoadLocation`. -/
  | location (msg : GoString)
  /-- The value of `errors.New("invalid TimeZone: Local")`. -/
  | invalidLocal
  /-- The value of `errors.New("converting NULL to TimeZone is unsupported")`. -/
  | nullUnsupported
  /-- Returned by `sql.NullString.Scan`. -/
  | convert (msg : GoString)
  /-- Returned by `fmt.Sscanf`. -/
  | scan (msg : GoString)
  deriving DecidableEq, Repr

/-- The text of an error (`err.Error()`). -/
def Error.message : Error → GoString
  | .location msg => msg
  | .invalidLocal => str "invalid TimeZone: Local"
  | .nullUnsupported => str "converting NULL to TimeZone is unsupported"
  | .convert msg => msg
  | .scan msg => msg

/-- What the embedded library functions take from outside the program. -/
structure Env where
  /-- The outcome of looking the name up in the zone database (`$ZONEINFO`, the
  platform directories, the embedded `tzdata`) and parsing what is found:
  `none` when a location is built, the error text otherwise. -/
  zoneinfo : GoString → Option GoString
  /-- The name `time.Local` reports for itself. -/
  localName : GoString
  /-- The value of `strconv.IsPrint` for runes above `0xFF` (generated tables). -/
  isPrintWide : Nat → Bool

namespace Time

/-- The method `(*Location).String` on a non-nil pointer. -/
def Location.String (env : Env) : Location → GoString
  | .UTC => str "UTC"
  | .Local => env.localName
  | .zone name => name

/-- The method `(*Location).get` on a pointer that may be nil: a nil pointer is read
as `&utcLoc`. -/
def get : Option Location → Location
  | none => .UTC
  | some l => l

/-- The function `containsDotDot` of package `time`. -/
def containsDotDot : GoString → Bool
  | [] => false
  | a :: rest => (a = byte 0x2E && rest.head? = some (byte 0x2E)) || containsDotDot rest

/-- The function `time.LoadLocation`. -/
def LoadLocation (env : Env) (name : GoString) : Except Error Location :=
  if name = [] ∨ name = str "UTC" then .ok .UTC
  else if name = str "Local" then .ok .Local
  else if containsDotDot name || name.head? = some (byte 0x2F)
      || name.head? = some (byte 0x5C) then
    .error (.location (str "time: invalid location name"))
  else
    match env.zoneinfo name with
    | none => .ok (.zone name)
    | some msg => .error (.location msg)

end Time

/-! ## Package `unicode/utf8` -/

namespace Utf8

/-- The constant `utf8.RuneError`. -/
def RuneError : Nat := 0xFFFD

/-- The table `first`: for a first byte, `0xF0` (ASCII), `0xF1` (invalid), or the
index of the accept range in the high four bits and the size in the low three. -/
def first (b : Nat) : Nat :=
  if b < 0x80 then 0xF0
  else if b < 0xC2 then 0xF1
  else if b < 0xE0 then 0x02
  else if b = 0xE0 then 0x13
  else if b < 0xED then 0x03
  else if b = 0xED then 0x23
  else if b < 0xF0 then 0x03
  else if b = 0xF0 then 0x34
  else if b < 0xF4 then 0x04
  else if b = 0xF4 then 0x44
  else 0xF1

/-- The table `acceptRanges`: the bounds of the second byte. -/
def acceptRanges (i : Nat) : Nat × Nat :=
  match i with
  | 0 => (0x80, 0xBF)
  | 1 => (0xA0, 0xBF)
  | 2 => (0x80, 0x9F)
  | 3 => (0x90, 0xBF)
  | 4 => (0x80, 0x8F)
  | _ => (0, 0)

/-- The functions `utf8.DecodeRune` and `utf8.DecodeRuneInString`: the rune and its
width in bytes.  The masks and shifts of the source are written as remainders and
products. -/
def DecodeRune (p : List Byte) : Nat × Nat :=
  match p with
  | [] => (RuneError, 0)
  | p0 :: rest =>
    let x := first p0.val
    if x ≥ 0xF0 then (if x = 0xF0 then p0.val else RuneError, 1)
    else
      let sz := x % 8
      let accept := acceptRanges (x / 16)
      if rest.length + 1 < sz then (RuneError, 1)
      else
        match rest with
        | [] => (RuneError, 1)
        | b1 :: rest =>
          if b1.val < accept.1 ∨ accept.2 < b1.val then (RuneError, 1)
          else if sz ≤ 2 then (p0.val % 32 * 64 + b1.val % 64, 2)
          else
            match rest with
            | [] => (RuneError, 1)
            | b2 :: rest =>
              if b2.val < 0x80 ∨ 0xBF < b2.val then (RuneError, 1)
              else if sz ≤ 3 then
                (p0.val % 16 * 4096 + b1.val % 64 * 64 + b2.val % 64, 3)
              else
                match rest with
                | [] => (RuneError, 1)
                | b3 :: _ =>
                  if b3.val < 0x80 ∨ 0xBF < b3.val then (RuneError, 1)
                  else
                    (p0.val % 8 * 262144 + b1.val % 64 * 4096 + b2.val % 64 * 64
                      + b3.val % 64, 4)

/-- The function `utf8.ValidRune`. -/
def ValidRune (r : Nat) : Bool :=
  r < 0xD800 || (0xDFFF < r && r ≤ 0x10FFFF)

/-- The function `utf8.AppendRune`, to an empty slice. -/
def AppendRune (r : Nat) : List Byte :=
  if r ≤ 0x7F then [byte r]
  else if r ≤ 0x7FF then [byte (0xC0 + r / 64), byte (0x80 + r % 64)]
  else
    let r := if r > 0x10FFFF ∨ (0xD800 ≤ r ∧ r ≤ 0xDFFF) then RuneError else r
    if r ≤ 0xFFFF then
      [byte (0xE0 + r / 4096), byte (0x80 + r / 64 % 64), byte (0x80 + r % 64)]
    else
      [byte (0xF0 + r / 262144), byte (0x80 + r / 4096 % 64),
        byte (0x80 + r / 64 % 64), byte (0x80 + r % 64)]

/-- The function `utf8.ValidString`; `fuel` bounds the loop and the length of the
string plus one is enough. -/
def ValidStringLoop : Nat → GoString → Bool
  | 0, _ => false
  | _ + 1, [] => true
  | fuel + 1, b :: rest =>
    let d := DecodeRune (b :: rest)
    if d.1 = RuneError ∧ d.2 = 1 then false
    else ValidStringLoop fuel ((b :: rest).drop d.2)

/-- The function `utf8.ValidString`. -/
def ValidString (s : GoString) : Bool := ValidStringLoop (s.length + 1) s

/-- The function `utf8.RuneCountInString`, with the loop bounded by `fuel`. -/
def RuneCountLoop : Nat → GoString → Nat
  | 0, _ => 0
  | _ + 1, [] => 0
  | fuel + 1, b :: rest =>
    RuneCountLoop fuel ((b :: rest).drop (DecodeRune (b :: rest)).2) + 1

/-- The function `utf8.RuneCountInString`. -/
def RuneCountInString (s : GoString) : Nat := RuneCountLoop (s.length + 1) s

end Utf8

/-! ## Package `strconv` -/

namespace Strconv

open Utf8

/-- The function `strconv.IsPrint`: Latin-1 by the ranges of the source, the rest
from the tables. -/
def IsPrint (env : Env) (r : Nat) : Bool :=
  if r ≤ 0xFF then
    if 0x20 ≤ r ∧ r ≤ 0x7E then true
    else if 0xA1 ≤ r ∧ r ≤ 0xFF then r ≠ 0xAD
    else false
  else env.isPrintWide r

/-- The digit string `lowerhex`, indexed. -/
def lowerhex (n : Nat) : Byte :=
  if n < 10 then byte (0x30 + n) else byte (0x61 + (n - 10))

/-- The function `appendEscapedRune` for the quote `"` without `ASCIIonly` and
`graphicOnly`. -/
def appendEscapedRune (env : Env) (r : Nat) : List Byte :=
  if r = 0x22 ∨ r = 0x5C then [byte 0x5C, byte r]
  else if IsPrint env r then AppendRune r
  else if r = 7 then [byte 0x5C, byte 0x61]
  else if r = 8 then [byte 0x5C, byte 0x62]
  else if r = 12 then [byte 0x5C, byte 0x66]
  else if r = 10 then [byte 0x5C, byte 0x6E]
  else if r = 13 then [byte 0x5C, byte 0x72]
  else if r = 9 then [byte 0x5C, byte 0x74]
  else if r = 11 then [byte 0x5C, byte 0x76]
  else if r < 0x20 ∨ r = 0x7F then
    [byte 0x5C, byte 0x78, lowerhex (r / 16 % 16), lowerhex (r % 16)]
  else
    let r := if !ValidRune r then 0xFFFD else r
    if r < 0x10000 then
      [byte 0x5C, byte 0x75, lowerhex (r / 4096 % 16), lowerhex (r / 256 % 16),
        lowerhex (r / 16 % 16), lowerhex (r % 16)]
    else
      [byte 0x5C, byte 0x55, lowerhex (r / 268435456 % 16), lowerhex (r / 16777216 % 16),
        lowerhex (r / 1048576 % 16), lowerhex (r / 65536 % 16),
        lowerhex (r / 4096 % 16), lowerhex (r / 256 % 16),
        lowerhex (r / 16 % 16), lowerhex (r % 16)]

/-- The loop of `appendQuotedWith` over the string, bounded by `fuel`. -/
def quoteLoop (env : Env) : Nat → GoString → List Byte
  | 0, _ => []
  | _ + 1, [] => []
  | fuel + 1, b :: rest =>
    let d := if b.val ≥ 0x80 then DecodeRune (b :: rest) else (b.val, 1)
    if d.2 = 1 ∧ d.1 = RuneError then
      [byte 0x5C, byte 0x78, lowerhex (b.val / 16), lowerhex (b.val % 16)]
        ++ quoteLoop env fuel rest
    else
      appendEscapedRune env d.1 ++ quoteLoop env fuel ((b :: rest).drop d.2)

/-- The function `strconv.Quote`. -/
def Quote (env : Env) (s : GoString) : GoString :=
  byte 0x22 :: quoteLoop env (s.length + 1) s ++ [byte 0x22]

/-- The function `unhex`. -/
def unhex (b : Nat) : Option Nat :=
  if 0x30 ≤ b ∧ b ≤ 0x39 then some (b - 0x30)
  else if 0x61 ≤ b ∧ b ≤ 0x66 then some (b - 0x61 + 10)
  else if 0x41 ≤ b ∧ b ≤ 0x46 then some (b - 0x41 + 10)
  else none

/-- The loop `v = v<<4 | x` of `UnquoteChar` over `n` hexadecimal digits: the value
and the rest, `none` for the syntax error. -/
def hexValue : Nat → Nat → GoString → Option (Nat × GoString)
  | 0, v, s => some (v, s)
  | _ + 1, _, [] => none
  | n + 1, v, c :: s =>
    match unhex c.val with
    | none => none
    | some x => hexValue n (v * 16 + x) s

/-- The loop `v = (v << 3) | x` of `UnquoteChar` over `n` octal digits. -/
def octValue : Nat → Nat → GoString → Option (Nat × GoString)
  | 0, v, s => some (v, s)
  | _ + 1, _, [] => none
  | n + 1, v, c :: s =>
    if 0x30 ≤ c.val ∧ c.val ≤ 0x37 then octValue n (v * 8 + (c.val - 0x30)) s
    else none

/-- The function `strconv.UnquoteChar`: the value, `multibyte` and the tail; `none`
is `ErrSyntax`. -/
def UnquoteChar (s : GoString) (quote : Byte) : Option (Nat × Bool × GoString) :=
  match s with
  | [] => none
  | c :: rest =>
    if c = quote ∧ (quote.val = 0x27 ∨ quote.val = 0x22) then none
    else if c.val ≥ 0x80 then
      let d := DecodeRune (c :: rest)
      some (d.1, true, (c :: rest).drop d.2)
    else if c.val ≠ 0x5C then some (c.val, false, rest)
    else
      match rest with
      | [] => none
      | c :: s =>
        if c.val = 0x61 then some (7, false, s)
        else if c.val = 0x62 then some (8, false, s)
        else if c.val = 0x66 then some (12, false, s)
        else if c.val = 0x6E then some (10, false, s)
        else if c.val = 0x72 then some (13, false, s)
        else if c.val = 0x74 then some (9, false, s)
        else if c.val = 0x76 then some (11, false, s)
        else if c.val = 0x78 ∨ c.val = 0x75 ∨ c.val = 0x55 then
          let n := if c.val = 0x78 then 2 else if c.val = 0x75 then 4 else 8
          match hexValue n 0 s with
          | none => none
          | some (v, s) =>
            if c.val = 0x78 then some (v, false, s)
            else if !ValidRune v then none
            else some (v, true, s)
        else if 0x30 ≤ c.val ∧ c.val ≤ 0x37 then
          match octValue 2 (c.val - 0x30) s with
          | none => none
          | some (v, s) => if v > 255 then none else some (v, false, s)
        else if c.val = 0x5C then some (0x5C, false, s)
        else if c.val = 0x27 ∨ c.val = 0x22 then
          if c ≠ quote then none else some (c.val, false, s)
        else none

/-- The loop of `unquote` over a string with escape sequences, bounded by `fuel`:
the bytes appended and the input where the loop stops. -/
def unquoteLoop (quote : Byte) : Nat → GoString → Option (List Byte × GoString)
  | 0, _ => none
  | _ + 1, [] => some ([], [])
  | fuel + 1, c :: rest =>
    if c = quote then some ([], c :: rest)
    else
      match UnquoteChar (c :: rest) quote with
      | none => none
      | some (r, multibyte, rem) =>
        if c.val = 0x0A then none
        else
          let out := if r < 0x80 ∨ !multibyte then [byte r] else AppendRune r
          if quote.val = 0x27 then some (out, rem)
          else
            match unquoteLoop quote fuel rem with
            | none => none
            | some (buf, inp) => some (out ++ buf, inp)

/-- The function `index` of `strconv`: the first position of the byte, `none` for
`-1`. -/
def index : GoString → Byte → Option Nat
  | [], _ => none
  | b :: rest, c => if b = c then some 0 else (index rest c).map (· + 1)

/-- The function `unquote` with `unescape` set: the unquoted string and the rest of
the input; `none` is `ErrSyntax`.  The slice `in[:end]` is `inp.take stop`, and
`in[1:end-1]` is `(inp.drop 1).take (stop - 2)`. -/
def unquote (inp : GoString) : Option (GoString × GoString) :=
  match inp with
  | [] => none
  | [_] => none
  | quote :: tl =>
    match index tl quote with
    | none => none
    | some i =>
      let stop := i + 2
      if quote.val = 0x60 then
        some (((inp.drop 1).take (stop - 2)).filter (fun b => b.val ≠ 0x0D),
          inp.drop stop)
      else if quote.val = 0x22 ∨ quote.val = 0x27 then
        let body := (inp.drop 1).take (stop - 2)
        if (inp.take stop).all (fun b => b.val ≠ 0x5C ∧ b.val ≠ 0x0A)
            ∧ (if quote.val = 0x22 then ValidString body
               else RuneCountInString body = 1) then
          some (body, inp.drop stop)
        else
          match unquoteLoop quote (tl.length + 1) tl with
          | none => none
          | some (buf, rest) =>
            match rest with
            | [] => none
            | c :: rest => if c = quote then some (buf, rest) else none
      else none

/-- The function `strconv.Unquote`. -/
def Unquote (s : GoString) : Option GoString :=
  match unquote s with
  | none => none
  | some (out, rem) => if rem.length > 0 then none else some out

end Strconv

/-! ## Package `fmt` -/

namespace Fmt

open Utf8

/-- The function `isSpace` of the scanner (the table `space`). -/
def isSpace (r : Nat) : Bool :=
  (0x0009 ≤ r && r ≤ 0x000D) || r = 0x0020 || r = 0x0085 || r = 0x00A0
    || r = 0x1680 || (0x2000 ≤ r && r ≤ 0x200A) || (0x2028 ≤ r && r ≤ 0x2029)
    || r = 0x202F || r = 0x205F || r = 0x3000

/-- The method `ss.getRune` on the rest of the input: `none` at the end, otherwise
the rune and what follows it (a byte that starts no valid encoding is read as
`RuneError`, one byte wide). -/
def getRune (inp : GoString) : Option (Nat × GoString) :=
  match inp with
  | [] => none
  | b :: rest =>
    some ((DecodeRune (b :: rest)).1, (b :: rest).drop (DecodeRune (b :: rest)).2)

/-- The method `ss.SkipSpace` for `Sscanf` (a newline is not a space), bounded by
`fuel`: the input from the first rune that is not a space. -/
def SkipSpaceLoop : Nat → GoString → Except Error GoString
  | 0, inp => .ok inp
  | fuel + 1, inp =>
    match getRune inp with
    | none => .ok inp
    | some (r, rest) =>
      if r = 0x0D ∧ (getRune rest).map Prod.fst = some 0x0A then
        SkipSpaceLoop fuel rest
      else if r = 0x0A then .error (.scan (str "unexpected newline"))
      else if !isSpace r then .ok inp
      else SkipSpaceLoop fuel rest

/-- The method `ss.SkipSpace`. -/
def SkipSpace (inp : GoString) : Except Error GoString :=
  SkipSpaceLoop (inp.length + 1) inp

/-- The loop of `ss.quotedString` for a back-quoted string, bounded by `fuel`: the
bytes written to the buffer. -/
def backQuotedLoop : Nat → GoString → Except Error (List Byte)
  | 0, _ => .error (.scan (str "unexpected EOF"))
  | fuel + 1, inp =>
    match getRune inp with
    | none => .error (.scan (str "unexpected EOF"))
    | some (r, rest) =>
      if r = 0x60 then .ok []
      else
        match backQuotedLoop fuel rest with
        | .error err => .error err
        | .ok buf => .ok (AppendRune r ++ buf)

/-- The loop of `ss.quotedString` for a double-quoted string, bounded by `fuel`: the
bytes written to the buffer after the opening quote, the closing quote included. -/
def doubleQuotedLoop : Nat → GoString → Except Error (List Byte)
  | 0, _ => .error (.scan (str "unexpected EOF"))
  | fuel + 1, inp =>
    match getRune inp with
    | none => .error (.scan (str "unexpected EOF"))
    | some (r, rest) =>
      if r = 0x5C then
        match getRune rest with
        | none => .error (.scan (str "unexpected EOF"))
        | some (r2, rest2) =>
          match doubleQuotedLoop fuel rest2 with
          | .error err => .error err
          | .ok buf => .ok (AppendRune r ++ AppendRune r2 ++ buf)
      else if r = 0x22 then .ok (AppendRune r)
      else
        match doubleQuotedLoop fuel rest with
        | .error err => .error err
        | .ok buf => .ok (AppendRune r ++ buf)

/-- The method `ss.quotedString`. -/
def quotedString (inp : GoString) : Except Error GoString :=
  match getRune inp with
  | none => .error (.scan (str "EOF"))
  | some (quote, rest) =>
    if quote = 0x60 then backQuotedLoop (rest.length + 1) rest
    else if quote = 0x22 then
      match doubleQuotedLoop (rest.length + 1) rest with
      | .error err => .error err
      | .ok buf =>
        match Strconv.Unquote (byte 0x22 :: buf) with
        | none => .error (.scan (str "invalid syntax"))
        | some result => .ok result
    else .error (.scan (str "expected quoted string"))

/-- The call `fmt.Sscanf(input, "%q", &s)`: the string stored in `s`, or the error.
The scanner skips leading space before the verb and again before the string, and
does not look at what follows the string.  Its limit of `1 << 30` runes read is left
out. -/
def Sscanf (input : GoString) : Except Error GoString :=
  match SkipSpace input with
  | .error err => .error err
  | .ok inp =>
    match SkipSpace inp with
    | .error err => .error err
    | .ok inp => quotedString inp

/-- The call `fmt.Sprintf("%q", s)` for a string `s`. -/
def Sprintf (env : Env) (s : GoString) : GoString := Strconv.Quote env s

end Fmt

/-! ## Package `database/sql` -/

/-- The `any` handed to `Scan`, by what `convertAssign` does with it for a `*string`
destination. -/
inductive Value where
  /-- The untyped `nil`. -/
  | null
  | string (s : GoString)
  | bytes (b : List Byte)
  /-- A value of any other dynamic type, with what `convertAssign` makes of it: the
  text (numbers, booleans, times) or the error (unsupported types). -/
  | other (conv : Except GoString GoString)

/-- A `sql.NullString`. -/
structure NullString where
  String : GoString
  Valid : Bool
  deriving DecidableEq, Repr

/-- The method `(*NullString).Scan`, on a zero `NullString`. -/
def NullString.Scan (value : Value) : NullString × Option Error :=
  match value with
  | .null => ({ String := [], Valid := false }, none)
  | .string s => ({ String := s, Valid := true }, none)
  | .bytes b => ({ String := b, Valid := true }, none)
  | .other (.ok s) => ({ String := s, Valid := true }, none)
  | .other (.error msg) => ({ String := [], Valid := true }, some (.convert msg))

/-! ## `time_zone.go` -/

/-- The struct `TimeZone`: `loc` is `none` for the nil pointer. -/
structure TimeZone where
  loc : Option Time.Location
  deriving DecidableEq, Repr

/-- The variable `UTCTimeZone = TimeZone{}`. -/
def UTCTimeZone : TimeZone := { loc := none }

/-- The method `TimeZone.Location`: the pointer it returns, `none` for nil. -/
def TimeZone.Location (z : TimeZone) : Option Time.Location :=
  match z.loc with
  | some loc => some loc
  | none => some .UTC

/-- The method `(*TimeZone).loadString`. -/
def TimeZone.loadString (env : Env) (z : TimeZone) (s : GoString) :
    TimeZone × Option Error :=
  match Time.LoadLocation env s with
  | .error err => (z, some err)
  | .ok loc =>
    if loc = .Local then (z, some .invalidLocal)
    else
      let loc := if loc = .UTC then none else some loc
      ({ z with loc := loc }, none)

/-- The function `LoadTimeZone`. -/
def LoadTimeZone (env : Env) (name : GoString) : TimeZone × Option Error :=
  match TimeZone.loadString env { loc := none } name with
  | (_, some err) => ({ loc := none }, some err)
  | (z, none) => (z, none)

/-- The method `TimeZone.String`: `z.Location().String()`, where `String` goes
through `get`. -/
def TimeZone.String (env : Env) (z : TimeZone) : GoString :=
  (Time.get z.Location).String env

/-- The method `(*TimeZone).Scan`. -/
def TimeZone.Scan (env : Env) (z : TimeZone) (value : Value) :
    TimeZone × Option Error :=
  match NullString.Scan value with
  | (_, some err) => (z, some err)
  | (ns, none) =>
    if !ns.Valid then (z, some .nullUnsupported)
    else z.loadString env ns.String

/-- The method `TimeZone.Value`: the driver value (a Go `string`) and the error. -/
def TimeZone.Value (env : Env) (z : TimeZone) : GoString × Option Error :=
  (z.String env, none)

/-- The method `TimeZone.MarshalText`. -/
def TimeZone.MarshalText (env : Env) (z : TimeZone) : List Byte × Option Error :=
  (z.String env, none)

/-- The method `(*TimeZone).UnmarshalText`. -/
def TimeZone.UnmarshalText (env : Env) (z : TimeZone) (text : List Byte) :
    TimeZone × Option Error :=
  z.loadString env text

/-- The method `TimeZone.MarshalJSON`. -/
def TimeZone.MarshalJSON (env : Env) (z : TimeZone) : List Byte × Option Error :=
  (Fmt.Sprintf env (z.String env), none)

/-- The method `(*TimeZone).UnmarshalJSON`. -/
def TimeZone.UnmarshalJSON (env : Env) (z : TimeZone) (data : List Byte) :
    TimeZone × Option Error :=
  if data = str "null" then (z, none)
  else
    match Fmt.Sscanf data with
    | .error err => (z, some err)
    | .ok unquote => z.loadString env unquote

/-! ## The mutating entry points and the values they produce -/

/-- A call of one of the four methods with a pointer receiver. -/
inductive Call where
  | loadString (s : GoString)
  | Scan (value : Value)
  | UnmarshalText (text : List Byte)
  | UnmarshalJSON (data : List Byte)

/-- The receiver after the call and the error the call returns. -/
def Call.run (env : Env) (z : TimeZone) : Call → TimeZone × Option Error
  | .loadString s => z.loadString env s
  | .Scan value => z.Scan env value
  | .UnmarshalText text => z.UnmarshalText env text
  | .UnmarshalJSON data => z.UnmarshalJSON env data

/-- A valid value: the zero value, or what a `loadString` that returns no error
leaves in its receiver. -/
def Valid (env : Env) (v : TimeZone) : Prop :=
  v = { loc := none } ∨ ∃ z s, TimeZone.loadString env z s = (v, none)

/-- A host for the examples: the zone database holds the two zones the tests load,
the local zone calls itself `Local`, and the one wide rune taken as printable is
U+263A. -/
def testEnv : Env where
  zoneinfo := fun name =>
    if name = str "Asia/Tokyo" ∨ name = str "America/New_York" then none
    else some (str "unknown time zone " ++ name)
  localName := str "Local"
  isPrintWide := fun r => r = 0x263A

/-- The value the tests start from: `America/New_York`, loaded. -/
def newYork : TimeZone := { loc := some (.zone (str "America/New_York")) }

/-- The value `Asia/Tokyo`, loaded. -/
def tokyo : TimeZone := { loc := some (.zone (str "Asia/Tokyo")) }

/-! ## The JSON string literal of the specification -/

/-- A hexadecimal digit of a JSON `\\u` escape. -/
def isHexDigit (b : Byte) : Bool :=
  (0x30 ≤ b.val && b.val ≤ 0x39) || (0x41 ≤ b.val && b.val ≤ 0x46)
    || (0x61 ≤ b.val && b.val ≤ 0x66)

/-- What follows the opening quote of a JSON string literal (RFC 8259, section 7):
unescaped bytes from `0x20` up other than the quote and the backslash, the escapes
of JSON, and the closing quote as the last byte.  That the unescaped bytes are
well-formed UTF-8 is not asked. -/
def jsonStringTail : List Byte → Bool
  | [] => false
  | [c] => c.val = 0x22
  | c :: e :: rest =>
    if c.val = 0x22 then false
    else if c.val = 0x5C then
      if e.val = 0x22 ∨ e.val = 0x5C ∨ e.val = 0x2F ∨ e.val = 0x62 ∨ e.val = 0x66
          ∨ e.val = 0x6E ∨ e.val = 0x72 ∨ e.val = 0x74 then jsonStringTail rest
      else if e.val = 0x75 then
        match rest with
        | h1 :: h2 :: h3 :: h4 :: rest =>
          isHexDigit h1 && isHexDigit h2 && isHexDigit h3 && isHexDigit h4
            && jsonStringTail rest
        | _ => false
      else false
    else if c.val < 0x20 then false
    else jsonStringTail (e :: rest)

/-- The "syntactically valid JSON string literal" of the specification. -/
def isJSONString : List Byte → Bool
  | [] => false
  | c :: rest => c.val = 0x22 && jsonStringTail rest

/-! ## Shapes used in the proofs -/

open Utf8 Strconv Fmt

/-- The shapes of a decoded rune. -/
inductive Decoded : List Byte → Nat → Nat → Prop
  | invalid (p) : Decoded p RuneError 1
  | one (p0 : Byte) (t) : p0.val < 0x80 → Decoded (p0 :: t) p0.val 1
  | two (p0 b1 : Byte) (t) : 0xC2 ≤ p0.val → p0.val < 0xE0 → 0x80 ≤ b1.val → b1.val ≤ 0xBF →
      Decoded (p0 :: b1 :: t) (p0.val % 32 * 64 + b1.val % 64) 2
  | three (p0 b1 b2 : Byte) (t) : 0xE0 ≤ p0.val → p0.val ≤ 0xEF →
      0x80 ≤ b1.val → b1.val ≤ 0xBF → (p0.val = 0xE0 → 0xA0 ≤ b1.val) →
      (p0.val = 0xED → b1.val ≤ 0x9F) → 0x80 ≤ b2.val → b2.val ≤ 0xBF →
      Decoded (p0 :: b1 :: b2 :: t) (p0.val % 16 * 4096 + b1.val % 64 * 64 + b2.val % 64) 3
  | four (p0 b1 b2 b3 : Byte) (t) : 0xF0 ≤ p0.val → p0.val ≤ 0xF4 →
      0x80 ≤ b1.val → b1.val ≤ 0xBF → (p0.val = 0xF0 → 0x90 ≤ b1.val) →
      (p0.val = 0xF4 → b1.val ≤ 0x8F) → 0x80 ≤ b2.val → b2.val ≤ 0xBF →
      0x80 ≤ b3.val → b3.val ≤ 0xBF →
      Decoded (p0 :: b1 :: b2 :: b3 :: t)
        (p0.val % 8 * 262144 + b1.val % 64 * 4096 + b2.val % 64 * 64 + b3.val % 64) 4

/-- The tokens that `Quote` writes, with the bytes of the string each stands for. -/
inductive Tok : List Byte → List Byte → Prop
  | raw (r : Nat) : ValidRune r = true → r ≠ 0x22 → r ≠ 0x5C → r ≠ 0x0A →
      Tok (AppendRune r) (AppendRune r)
  | esc (c v : Nat) :
      (c = 0x61 ∧ v = 7) ∨ (c = 0x62 ∧ v = 8) ∨ (c = 0x66 ∧ v = 12)
        ∨ (c = 0x6E ∧ v = 10) ∨ (c = 0x72 ∧ v = 13) ∨ (c = 0x74 ∧ v = 9)
        ∨ (c = 0x76 ∧ v = 11) ∨ (c = 0x5C ∧ v = 0x5C) ∨ (c = 0x22 ∧ v = 0x22) →
      Tok [byte 0x5C, byte c] [byte v]
  | hex2 (b : Byte) :
      Tok [byte 0x5C, byte 0x78, lowerhex (b.val / 16), lowerhex (b.val % 16)] [b]
  | hex4 (r : Nat) : ValidRune r = true → 0x80 ≤ r → r < 0x10000 →
      Tok [byte 0x5C, byte 0x75, lowerhex (r / 4096 % 16), lowerhex (r / 256 % 16),
        lowerhex (r / 16 % 16), lowerhex (r % 16)] (AppendRune r)
  | hex8 (r : Nat) : ValidRune r = true → 0x80 ≤ r →
      Tok [byte 0x5C, byte 0x55, lowerhex (r / 268435456 % 16), lowerhex (r / 16777216 % 16),
        lowerhex (r / 1048576 % 16), lowerhex (r / 65536 % 16),
        lowerhex (r / 4096 % 16), lowerhex (r / 256 % 16),
        lowerhex (r / 16 % 16), lowerhex (r % 16)] (AppendRune r)

/-- What `unquote` appends for a value of `UnquoteChar`. -/
def unquoted (r : Nat) (multibyte : Bool) : List Byte :=
  if r < 0x80 ∨ !multibyte then [byte r] else AppendRune r

/-- A quoted body, token by token, with the string it stands for. -/
inductive Quoted : List Byte → List Byte → Prop
  | nil : Quoted [] []
  | cons (tok src body s : List Byte) : Tok tok src → Quoted body s →
      Quoted (tok ++ body) (src ++ s)

/-- A scan of the rest of a double-quoted string: with fuel above the length of the
input the loop returns `x`. -/
def Scans (t x : List Byte) : Prop :=
  ∀ fuel, t.length < fuel → doubleQuotedLoop fuel t = .ok x

/-! ## Quoted strings in Go syntax and in JSON -/

/-- What `Unquote` makes of the result of the loop of `unquote`: the value, when the
loop has stopped at the last byte of its input (the closing quote, with nothing after
it). -/
def lastQuote : Option (List Byte × GoString) → Option GoString
  | some (out, [_]) => some out
  | _ => none

/-- The value the loop of `unquote` has read when it has stopped at a byte (the
closing quote), whatever follows that byte. -/
def firstQuote : Option (List Byte × GoString) → Option GoString
  | some (out, _ :: _) => some out
  | _ => none

/-- What the scanner makes of the input after the opening quote: the scan up to the
closing quote, then `Unquote` on the buffer. -/
def scanned (x : GoString) : Option GoString :=
  match doubleQuotedLoop (x.length + 1) x with
  | .error _ => none
  | .ok buf => lastQuote (unquoteLoop (byte 0x22) (buf.length + 1) buf)

/-- The value of a double-quoted string literal in Go syntax, from the bytes after
its opening quote: what the loop of `unquote` reads with `UnquoteChar` up to the
closing quote, whatever follows that quote.  The literal holds characters other than
the double quote, the backslash and the newline (a byte that is not well-formed UTF-8
reads as U+FFFD) and the escape sequences of Go.  The result is `none` when the bytes
are no such literal: no closing quote, a raw newline, a bad escape sequence. -/
def literalValue (x : GoString) : Option GoString :=
  firstQuote (unquoteLoop (byte 0x22) (x.length + 1) x)

/-- The input starts with a quoted string in Go syntax: a back quote with a second
back quote somewhere after it, or a double quote followed by the rest of a string
literal.  What follows the quoted string is not looked at. -/
def goQuoted : GoString → Bool
  | [] => false
  | c :: rest =>
    if c.val = 0x60 then rest.any (fun b => b.val = 0x60)
    else if c.val = 0x22 then (literalValue rest).isSome
    else false

/-- The string a JSON string literal stands for, from the bytes after its opening
quote (RFC 8259, section 7): an unescaped byte stands for itself, a two-character
escape for its character, `\uXXXX` for the UTF-8 encoding of the code point.  An
escape that names a surrogate half is given no value: JSON writes a character above
U+FFFF as two of them, and the program writes none. -/
def jsonTailValue : List Byte → Option GoString
  | [] => none
  | [c] => if c.val = 0x22 then some [] else none
  | c :: e :: rest =>
    if c.val = 0x22 then none
    else if c.val = 0x5C then
      if e.val = 0x22 ∨ e.val = 0x5C ∨ e.val = 0x2F then (jsonTailValue rest).map (e :: ·)
      else if e.val = 0x62 then (jsonTailValue rest).map (byte 0x08 :: ·)
      else if e.val = 0x66 then (jsonTailValue rest).map (byte 0x0C :: ·)
      else if e.val = 0x6E then (jsonTailValue rest).map (byte 0x0A :: ·)
      else if e.val = 0x72 then (jsonTailValue rest).map (byte 0x0D :: ·)
      else if e.val = 0x74 then (jsonTailValue rest).map (byte 0x09 :: ·)
      else if e.val = 0x75 then
        match rest with
        | h1 :: h2 :: h3 :: h4 :: rest =>
          match unhex h1.val, unhex h2.val, unhex h3.val, unhex h4.val with
          | some a, some b, some c, some d =>
            let v := a * 4096 + b * 256 + c * 16 + d
            if 0xD800 ≤ v ∧ v ≤ 0xDFFF then none
            else (jsonTailValue rest).map (AppendRune v ++ ·)
          | _, _, _, _ => none
        | _ => none
      else none
    else if c.val < 0x20 then none
    else (jsonTailValue (e :: rest)).map (c :: ·)

/-- The string a JSON string literal stands for. -/
def jsonValue : List Byte → Option GoString
  | [] => none
  | c :: rest => if c.val = 0x22 then jsonTailValue rest else none

/-- A character that `Quote` writes in a form that is JSON's as well: a printable
character (as it is, the quote and the backslash after a backslash), one of the
control characters with the short escapes `\b`, `\t`, `\n`, `\f`, `\r`, or an
unprintable character from U+0080 to U+FFFF (`\uXXXX`).  The others are BEL and VT
(`\a`, `\v`), the remaining control characters below U+0020 and DEL (`\xXX`), and
the unprintable characters above U+FFFF (`\UXXXXXXXX`). -/
def jsonRune (env : Env) (r : Nat) : Bool :=
  IsPrint env r || r = 8 || r = 9 || r = 10 || r = 12 || r = 13
    || (0x80 ≤ r && r < 0x10000)

/-- The loop over the characters of a name, bounded by `fuel`: the name is well-formed
UTF-8 and each of its characters is one that `Quote` writes in a form that is JSON's
as well. -/
def jsonSafeLoop (env : Env) : Nat → GoString → Bool
  | 0, _ => false
  | _ + 1, [] => true
  | fuel + 1, b :: rest =>
    let d := DecodeRune (b :: rest)
    if d.1 = RuneError ∧ d.2 = 1 then false
    else jsonRune env d.1 && jsonSafeLoop env fuel ((b :: rest).drop d.2)

/-- A name that `Quote` writes as a JSON string literal. -/
def jsonSafe (env : Env) (s : GoString) : Bool := jsonSafeLoop env (s.length + 1) s

/-! ## Sequences of calls, plain names and further hosts -/

/-- A step of a program on a `TimeZone` variable `z`: a call of one of the four
methods with a pointer receiver on `z`, or the assignment
`z, _ = LoadTimeZone(name)`. -/
inductive Op where
  | call (c : Call)
  | LoadTimeZone (name : GoString)

/-- The variable after the step. -/
def Op.run (env : Env) (z : TimeZone) : Op → TimeZone
  | .call c => (c.run env z).1
  | .LoadTimeZone name => (Tz.LoadTimeZone env name).1

/-- The variable after a sequence of steps. -/
def runAll (env : Env) (z : TimeZone) (ops : List Op) : TimeZone :=
  ops.foldl (Op.run env) z

/-- What a variable can hold: nothing, or a zone of the database under the name the
resolver gives it for. -/
def Held (env : Env) (z : TimeZone) : Prop :=
  z.loc = none
    ∨ ∃ name, z.loc = some (.zone name) ∧ Time.LoadLocation env name = .ok (.zone name)

/-- A name without characters that need escaping in a JSON string: well-formed UTF-8
with no double quote, no backslash and no control character. -/
def NoEscape (s : GoString) : Prop :=
  ValidString s = true ∧ ∀ b ∈ s, 0x20 ≤ b.val ∧ b.val ≠ 0x22 ∧ b.val ≠ 0x5C

/-- A plain byte: printable ASCII other than the double quote and the backslash. -/
def isPlain (b : Byte) : Bool :=
  0x20 ≤ b.val && b.val ≤ 0x7E && b.val ≠ 0x22 && b.val ≠ 0x5C

/-- A host whose zone database holds one zone, under a name that ends in the control
character BEL (`A\a` in Go syntax). -/
def bellEnv : Env where
  zoneinfo := fun name =>
    if name = [byte 0x41, byte 0x07] then none
    else some (str "unknown time zone " ++ name)
  localName := str "Local"
  isPrintWide := fun _ => false

/-- The zone of `bellEnv`, loaded. -/
def bellZone : TimeZone := { loc := some (.zone [byte 0x41, byte 0x07]) }

/-- A host whose zone database holds one zone, under a name that is the single byte
`0xFF`, which is not well-formed UTF-8. -/
def rawEnv : Env where
  zoneinfo := fun name =>
    if name = [byte 0xFF] then none
    else some (str "unknown time zone " ++ name)
  localName := str "Local"
  isPrintWide := fun _ => false

/-- A host whose zone database holds one zone, under a name with a character above
ASCII, a tab, a double quote, a backslash and a newline (`"Café\t\"A\\B\"\n"` in Go
syntax). -/
def oddEnv : Env where
  zoneinfo := fun name =>
    if name = str "Café\t\"A\\B\"\n" then none
    else some (str "unknown time zone " ++ name)
  localName := str "Local"
  isPrintWide := fun _ => false

/-- The zone of `oddEnv`, loaded. -/
def oddZone : TimeZone := { loc := some (.zone (str "Café\t\"A\\B\"\n")) }

/-! ## Lemmas on `loadString` -/

/-- What `loadString` does, by the outcome of the resolver. -/
theorem loadString_eq (env : Env) (z : TimeZone) (s : GoString) :
    z.loadString env s =
      match Time.LoadLocation env s with
      | .error err => (z, some err)
      | .ok .Local => (z, some .invalidLocal)
      | .ok .UTC => ({ loc := none }, none)
      | .ok (.zone name) => ({ loc := some (.zone name) }, none) := by
  unfold TimeZone.loadString
  cases h : Time.LoadLocation env s with
  | error err => rfl
  | ok loc => cases loc <;> simp

/-- A `loadString` that returns an error leaves the receiver as it was. -/
theorem loadString_error_fst (env : Env) (z : TimeZone) (s : GoString) (err : Error)
    (h : (z.loadString env s).2 = some err) : (z.loadString env s).1 = z := by
  rw [loadString_eq] at h ⊢
  cases hl : Time.LoadLocation env s with
  | error e => rfl
  | ok loc => cases loc <;> simp_all

/-- The resolver names a zone of the database after the name it was asked for. -/
theorem LoadLocation_zone_name (env : Env) (s name : GoString)
    (h : Time.LoadLocation env s = .ok (.zone name)) : name = s := by
  unfold Time.LoadLocation at h
  split at h
  · cases h
  · split at h
    · cases h
    · split at h
      · cases h
      · split at h
        · injection h with h; injection h with h; exact h.symm
        · cases h

/-- The resolver gives the host-local zone for the name `Local` only. -/
theorem LoadLocation_Local (env : Env) (s : GoString)
    (h : Time.LoadLocation env s = .ok .Local) : s = str "Local" := by
  unfold Time.LoadLocation at h
  by_cases h1 : s = [] ∨ s = str "UTC"
  · rw [if_pos h1] at h; cases h
  · rw [if_neg h1] at h
    by_cases h2 : s = str "Local"
    · exact h2
    · rw [if_neg h2] at h
      split at h
      · cases h
      · split at h <;> cases h

/-- The zero value is loaded back from its own name, into any receiver. -/
theorem loadString_UTC (env : Env) (z : TimeZone) :
    z.loadString env (str "UTC") = ({ loc := none }, none) := by
  rw [loadString_eq]
  have h : Time.LoadLocation env (str "UTC") = .ok .UTC := by
    simp [Time.LoadLocation]
  rw [h]

/-- A valid value is loaded back from its own name, into any receiver. -/
theorem loadString_String (env : Env) (v z : TimeZone) (hv : Valid env v) :
    z.loadString env (v.String env) = (v, none) := by
  rcases hv with rfl | ⟨z0, s, hs⟩
  · exact loadString_UTC env z
  · rw [loadString_eq] at hs
    cases hl : Time.LoadLocation env s with
    | error e => rw [hl] at hs; simp at hs
    | ok loc =>
      rw [hl] at hs
      cases loc with
      | UTC =>
        simp at hs
        subst hs
        exact loadString_UTC env z
      | Local => simp at hs
      | zone name =>
        simp at hs
        subst hs
        have hn := LoadLocation_zone_name env s name hl
        subst hn
        rw [loadString_eq]
        simp [TimeZone.String, TimeZone.Location, Time.get, Time.Location.String, hl]

/-! ## Lemmas on UTF-8, quoting and scanning -/

/-- The value of a converted integer. -/
@[simp] theorem byte_val (n : Nat) : (byte n).val = n % 256 := rfl

/-- The values of the table `first`, by the range of the byte. -/
theorem first_cases (n : Nat) :
    (first n = 0xF0 ∧ n < 0x80) ∨ (first n = 0xF1 ∧ (0x80 ≤ n ∧ n < 0xC2 ∨ 0xF4 < n))
      ∨ (first n = 0x02 ∧ 0xC2 ≤ n ∧ n < 0xE0)
      ∨ (first n = 0x13 ∧ n = 0xE0)
      ∨ (first n = 0x03 ∧ 0xE1 ≤ n ∧ n ≤ 0xEF ∧ n ≠ 0xED)
      ∨ (first n = 0x23 ∧ n = 0xED)
      ∨ (first n = 0x34 ∧ n = 0xF0)
      ∨ (first n = 0x04 ∧ 0xF1 ≤ n ∧ n ≤ 0xF3)
      ∨ (first n = 0x44 ∧ n = 0xF4) := by
  generalize hk : first n = k
  unfold first at hk
  split_ifs at hk <;> subst hk <;> simp <;> omega

/-- What `DecodeRune` returns has one of the shapes of `Decoded`. -/
theorem DecodeRune_decoded (p0 : Byte) (rest : List Byte) :
    Decoded (p0 :: rest) (DecodeRune (p0 :: rest)).1 (DecodeRune (p0 :: rest)).2 := by
  rw [DecodeRune]
  rcases first_cases p0.val with h | h | h | h | h | h | h | h | h
  · simp only [h.1]; norm_num; exact .one _ _ h.2
  · simp only [h]; norm_num; exact .invalid _
  · obtain ⟨hx, hr⟩ := h
    simp only [hx, acceptRanges]
    norm_num
    split_ifs
    · exact .invalid _
    · rcases rest with _ | ⟨b1, t⟩ <;> simp only [] <;> (try split_ifs) <;>
        first
        | exact .invalid _
        | exact .two _ _ _ (by omega) (by omega) (by omega) (by omega)
  iterate 3
    obtain ⟨hx, hr⟩ := h
    simp only [hx, acceptRanges]
    norm_num
    split_ifs
    · exact .invalid _
    · rcases rest with _ | ⟨b1, _ | ⟨b2, t⟩⟩ <;> simp only [] <;> (try split_ifs) <;>
        first
        | exact .invalid _
        | exact .three _ _ _ _ (by omega) (by omega) (by omega) (by omega)
            (by intro; omega) (by intro; omega) (by omega) (by omega)
  iterate 3
    obtain ⟨hx, hr⟩ := h
    simp only [hx, acceptRanges]
    norm_num
    split_ifs
    · exact .invalid _
    · rcases rest with _ | ⟨b1, _ | ⟨b2, _ | ⟨b3, t⟩⟩⟩ <;> simp only [] <;> (try split_ifs) <;>
        first
        | exact .invalid _
        | exact .four _ _ _ _ _ (by omega) (by omega) (by omega) (by omega)
            (by intro; omega) (by intro; omega) (by omega) (by omega) (by omega) (by omega)

/-- An ASCII byte decodes to itself. -/
theorem DecodeRune_one (p0 : Byte) (t : List Byte) (h : p0.val < 0x80) :
    DecodeRune (p0 :: t) = (p0.val, 1) := by
  have hx : first p0.val = 0xF0 := by
    rcases first_cases p0.val with h | h | h | h | h | h | h | h | h <;>
      obtain ⟨hx, hr⟩ := h <;> first | exact hx | (exfalso; omega)
  rw [DecodeRune]; simp only [hx]; norm_num

/-- A well-formed two-byte sequence decodes to its rune. -/
theorem DecodeRune_two (p0 b1 : Byte) (t : List Byte) (h0 : 0xC2 ≤ p0.val)
    (h0' : p0.val < 0xE0) (h1 : 0x80 ≤ b1.val) (h1' : b1.val ≤ 0xBF) :
    DecodeRune (p0 :: b1 :: t) = (p0.val % 32 * 64 + b1.val % 64, 2) := by
  have hx : first p0.val = 0x02 := by
    rcases first_cases p0.val with h | h | h | h | h | h | h | h | h <;>
      obtain ⟨hx, hr⟩ := h <;> first | exact hx | (exfalso; omega)
  rw [DecodeRune]; simp only [hx, acceptRanges]; norm_num
  rw [if_neg (by omega), if_neg (by omega)]

/-- A well-formed three-byte sequence decodes to its rune. -/
theorem DecodeRune_three (p0 b1 b2 : Byte) (t : List Byte) (h0 : 0xE0 ≤ p0.val)
    (h0' : p0.val ≤ 0xEF) (h1 : 0x80 ≤ b1.val) (h1' : b1.val ≤ 0xBF)
    (hlo : p0.val = 0xE0 → 0xA0 ≤ b1.val) (hhi : p0.val = 0xED → b1.val ≤ 0x9F)
    (h2 : 0x80 ≤ b2.val) (h2' : b2.val ≤ 0xBF) :
    DecodeRune (p0 :: b1 :: b2 :: t)
      = (p0.val % 16 * 4096 + b1.val % 64 * 64 + b2.val % 64, 3) := by
  rw [DecodeRune]
  rcases first_cases p0.val with h | h | h | h | h | h | h | h | h <;>
    obtain ⟨hx, hr⟩ := h <;> (try (exfalso; omega))
  · have := hlo hr; simp only [hx, acceptRanges]; norm_num
    rw [if_neg (by omega), if_neg (by omega), if_neg (by omega)]
  · simp only [hx, acceptRanges]; norm_num
    rw [if_neg (by omega), if_neg (by omega), if_neg (by omega)]
  · have := hhi hr; simp only [hx, acceptRanges]; norm_num
    rw [if_neg (by omega), if_neg (by omega), if_neg (by omega)]

/-- A well-formed four-byte sequence decodes to its rune. -/
theorem DecodeRune_four (p0 b1 b2 b3 : Byte) (t : List Byte) (h0 : 0xF0 ≤ p0.val)
    (h0' : p0.val ≤ 0xF4) (h1 : 0x80 ≤ b1.val) (h1' : b1.val ≤ 0xBF)
    (hlo : p0.val = 0xF0 → 0x90 ≤ b1.val) (hhi : p0.val = 0xF4 → b1.val ≤ 0x8F)
    (h2 : 0x80 ≤ b2.val) (h2' : b2.val ≤ 0xBF) (h3 : 0x80 ≤ b3.val) (h3' : b3.val ≤ 0xBF) :
    DecodeRune (p0 :: b1 :: b2 :: b3 :: t)
      = (p0.val % 8 * 262144 + b1.val % 64 * 4096 + b2.val % 64 * 64 + b3.val % 64, 4) := by
  rw [DecodeRune]
  rcases first_cases p0.val with h | h | h | h | h | h | h | h | h <;>
    obtain ⟨hx, hr⟩ := h <;> (try (exfalso; omega))
  · have := hlo hr; simp only [hx, acceptRanges]; norm_num
    rw [if_neg (by omega), if_neg (by omega), if_neg (by omega), if_neg (by omega)]
  · simp only [hx, acceptRanges]; norm_num
    rw [if_neg (by omega), if_neg (by omega), if_neg (by omega), if_neg (by omega)]
  · have := hhi hr; simp only [hx, acceptRanges]; norm_num
    rw [if_neg (by omega), if_neg (by omega), if_neg (by omega), if_neg (by omega)]

/-- The encoding of an ASCII rune. -/
theorem AppendRune_one (r : Nat) (h : r ≤ 0x7F) : AppendRune r = [byte r] := by
  rw [AppendRune, if_pos h]

/-- The encoding of a rune of two bytes. -/
theorem AppendRune_two (r : Nat) (h : 0x7F < r) (h' : r ≤ 0x7FF) :
    AppendRune r = [byte (0xC0 + r / 64), byte (0x80 + r % 64)] := by
  rw [AppendRune, if_neg (by omega), if_pos h']

/-- The encoding of a rune of three bytes. -/
theorem AppendRune_three (r : Nat) (h : 0x7FF < r) (h' : r ≤ 0xFFFF)
    (hs : ¬ (0xD800 ≤ r ∧ r ≤ 0xDFFF)) :
    AppendRune r
      = [byte (0xE0 + r / 4096), byte (0x80 + r / 64 % 64), byte (0x80 + r % 64)] := by
  have hc : ¬ (r > 0x10FFFF ∨ (0xD800 ≤ r ∧ r ≤ 0xDFFF)) := by omega
  rw [AppendRune, if_neg (by omega), if_neg (by omega)]
  simp only [if_neg hc, if_pos h']

/-- The encoding of a rune of four bytes. -/
theorem AppendRune_four (r : Nat) (h : 0xFFFF < r) (h' : r ≤ 0x10FFFF) :
    AppendRune r
      = [byte (0xF0 + r / 262144), byte (0x80 + r / 4096 % 64),
          byte (0x80 + r / 64 % 64), byte (0x80 + r % 64)] := by
  have hc : ¬ (r > 0x10FFFF ∨ (0xD800 ≤ r ∧ r ≤ 0xDFFF)) := by omega
  have h4 : ¬ r ≤ 0xFFFF := by omega
  rw [AppendRune, if_neg (by omega), if_neg (by omega)]
  simp only [if_neg hc, if_neg h4]

/-- A byte is the conversion of its own value. -/
theorem byte_eq (b : Byte) (n : Nat) (h : n = b.val) : byte n = b := by
  apply Fin.ext; rw [byte_val, h]; omega

/-- Encoding what was decoded gives the bytes that were read. -/
theorem AppendRune_of_decoded (p : List Byte) (r w : Nat) (h : Decoded p r w)
    (hv : ¬ (w = 1 ∧ r = RuneError)) :
    AppendRune r = p.take w ∧ ValidRune r = true := by
  cases h with
  | invalid => exact absurd ⟨rfl, rfl⟩ hv
  | one p0 t h0 =>
    refine ⟨?_, by simp [ValidRune]; omega⟩
    rw [AppendRune_one _ (by omega), byte_eq p0 _ rfl]; rfl
  | two p0 b1 t h0 h0' h1 h1' =>
    refine ⟨?_, by simp [ValidRune]; omega⟩
    rw [AppendRune_two _ (by omega) (by omega), byte_eq p0 _ (by omega),
      byte_eq b1 _ (by omega)]; rfl
  | three p0 b1 b2 t h0 h0' h1 h1' hlo hhi h2 h2' =>
    have hlo' : p0.val = 0xE0 → 0xA0 ≤ b1.val := hlo
    have hhi' : p0.val = 0xED → b1.val ≤ 0x9F := hhi
    refine ⟨?_, by simp [ValidRune]; omega⟩
    rw [AppendRune_three _ (by omega) (by omega) (by omega), byte_eq p0 _ (by omega),
      byte_eq b1 _ (by omega), byte_eq b2 _ (by omega)]; rfl
  | four p0 b1 b2 b3 t h0 h0' h1 h1' hlo hhi h2 h2' h3 h3' =>
    have hlo' : p0.val = 0xF0 → 0x90 ≤ b1.val := hlo
    have hhi' : p0.val = 0xF4 → b1.val ≤ 0x8F := hhi
    refine ⟨?_, by simp [ValidRune]; omega⟩
    rw [AppendRune_four _ (by omega) (by omega), byte_eq p0 _ (by omega),
      byte_eq b1 _ (by omega), byte_eq b2 _ (by omega), byte_eq b3 _ (by omega)]; rfl

/-- Decoding what was encoded gives the rune back. -/
theorem DecodeRune_AppendRune (r : Nat) (t : List Byte) (hv : ValidRune r = true) :
    DecodeRune (AppendRune r ++ t) = (r, (AppendRune r).length) := by
  simp only [ValidRune, Bool.or_eq_true, Bool.and_eq_true, decide_eq_true_eq] at hv
  by_cases h1 : r ≤ 0x7F
  · rw [AppendRune_one r h1]
    simp only [List.singleton_append, List.length_singleton]
    rw [DecodeRune_one _ _ (by rw [byte_val]; omega), byte_val]
    congr 1; omega
  by_cases h2 : r ≤ 0x7FF
  · rw [AppendRune_two r (by omega) h2]
    simp only [List.cons_append, List.nil_append, List.length_cons, List.length_nil]
    rw [DecodeRune_two _ _ _ (by rw [byte_val]; omega) (by rw [byte_val]; omega)
      (by rw [byte_val]; omega) (by rw [byte_val]; omega)]
    simp only [byte_val]
    congr 1; omega
  by_cases h3 : r ≤ 0xFFFF
  · rw [AppendRune_three r (by omega) h3 (by omega)]
    simp only [List.cons_append, List.nil_append, List.length_cons, List.length_nil]
    rw [DecodeRune_three _ _ _ _ (by rw [byte_val]; omega) (by rw [byte_val]; omega)
      (by rw [byte_val]; omega) (by rw [byte_val]; omega)
      (by rw [byte_val, byte_val]; omega) (by rw [byte_val, byte_val]; omega)
      (by rw [byte_val]; omega) (by rw [byte_val]; omega)]
    simp only [byte_val]
    congr 1; omega
  · rw [AppendRune_four r (by omega) (by omega)]
    simp only [List.cons_append, List.nil_append, List.length_cons, List.length_nil]
    rw [DecodeRune_four _ _ _ _ _ (by rw [byte_val]; omega) (by rw [byte_val]; omega)
      (by rw [byte_val]; omega) (by rw [byte_val]; omega)
      (by rw [byte_val, byte_val]; omega) (by rw [byte_val, byte_val]; omega)
      (by rw [byte_val]; omega) (by rw [byte_val]; omega)
      (by rw [byte_val]; omega) (by rw [byte_val]; omega)]
    simp only [byte_val]
    congr 1; omega

/-- The hexadecimal digits, as bytes. -/
theorem lowerhex_val (n : Nat) (h : n < 16) :
    (lowerhex n).val = if n < 10 then 0x30 + n else 0x57 + n := by
  unfold lowerhex
  split_ifs <;> rw [byte_val] <;> omega

/-- The function `unhex` reads the digits of `lowerhex` back. -/
theorem unhex_lowerhex (n : Nat) (h : n < 16) : unhex (lowerhex n).val = some n := by
  rw [lowerhex_val n h]
  unfold unhex
  split_ifs <;> first | omega | (simp; omega) | simp

/-- A hexadecimal digit is ASCII and is no quote, backslash or newline. -/
theorem lowerhex_ascii (n : Nat) (h : n < 16) :
    (lowerhex n).val < 0x80 ∧ (lowerhex n).val ≠ 0x22 ∧ (lowerhex n).val ≠ 0x5C
      ∧ (lowerhex n).val ≠ 0x0A := by
  rw [lowerhex_val n h]; split_ifs <;> omega

/-- The encoding of a rune above ASCII starts with a byte above ASCII. -/
theorem AppendRune_head (r : Nat) (h : 0x7F < r) :
    ∃ c rest, AppendRune r = c :: rest ∧ c.val ≥ 0x80 := by
  unfold AppendRune
  rw [if_neg (by omega)]
  simp only [RuneError]
  split_ifs <;> refine ⟨_, _, rfl, ?_⟩ <;> rw [byte_val] <;> omega

/-- The function `UnquoteChar` reads one token of `Quote` and gives the bytes it stands for. -/
theorem UnquoteChar_tok (tok src : List Byte) (h : Tok tok src) (t : GoString) :
    ∃ r mb, UnquoteChar (tok ++ t) (byte 0x22) = some (r, mb, t) ∧ unquoted r mb = src := by
  cases h with
  | raw r hv h1 h2 h3 =>
    by_cases hr : r ≤ 0x7F
    · refine ⟨r, false, ?_, by simp [unquoted, AppendRune_one r hr]⟩
      rw [AppendRune_one r hr]
      simp [UnquoteChar, Fin.ext_iff]
      have e : r % 256 = r := by omega
      rw [e]
      simp [h1, h2]
      omega
    · obtain ⟨c, rest, hc, hc80⟩ := AppendRune_head r (by omega)
      refine ⟨r, true, ?_, by simp [unquoted]; omega⟩
      have hd := DecodeRune_AppendRune r t hv
      rw [hc] at hd ⊢
      simp only [List.cons_append] at hd ⊢
      have hq : ¬ (c = byte 0x22 ∧ ((byte 0x22).val = 0x27 ∨ (byte 0x22).val = 0x22)) := by
        rintro ⟨rfl, -⟩
        simp at hc80
      simp only [UnquoteChar, if_neg hq, if_pos hc80, hd]
      rw [← List.cons_append, List.drop_left]
  | esc c v hc =>
    refine ⟨v, false, ?_, by simp [unquoted]⟩
    rcases hc with ⟨rfl, rfl⟩ | ⟨rfl, rfl⟩ | ⟨rfl, rfl⟩ | ⟨rfl, rfl⟩ | ⟨rfl, rfl⟩ | ⟨rfl, rfl⟩ | ⟨rfl, rfl⟩ | ⟨rfl, rfl⟩ | ⟨rfl, rfl⟩ <;>
      simp [UnquoteChar, Fin.ext_iff]
  | hex2 b =>
    refine ⟨b.val, false, ?_, by simp [unquoted, byte_eq b _ rfl]⟩
    have h1 : b.val / 16 < 16 := by omega
    have h2 : b.val % 16 < 16 := by omega
    simp [UnquoteChar, hexValue, unhex_lowerhex, h1, h2, Fin.ext_iff]
    omega
  | hex4 r hv h1 h2 =>
    refine ⟨r, true, ?_, by simp [unquoted]; omega⟩
    have e1 : r / 4096 % 16 < 16 := by omega
    have e2 : r / 256 % 16 < 16 := by omega
    have e3 : r / 16 % 16 < 16 := by omega
    have e4 : r % 16 < 16 := by omega
    have e : ((r / 4096 % 16 * 16 + r / 256 % 16) * 16 + r / 16 % 16) * 16 + r % 16 = r := by
      omega
    simp [UnquoteChar, hexValue, unhex_lowerhex, e1, e2, e3, e4, Fin.ext_iff, e, hv]
  | hex8 r hv h1 =>
    refine ⟨r, true, ?_, by simp [unquoted]; omega⟩
    have hr : r ≤ 0x10FFFF := by
      simp only [ValidRune, Bool.or_eq_true, Bool.and_eq_true, decide_eq_true_eq] at hv
      omega
    have e1 : r / 4096 % 16 < 16 := by omega
    have e2 : r / 256 % 16 < 16 := by omega
    have e3 : r / 16 % 16 < 16 := by omega
    have e4 : r % 16 < 16 := by omega
    have e5 : r / 268435456 % 16 < 16 := by omega
    have e6 : r / 16777216 % 16 < 16 := by omega
    have e7 : r / 1048576 % 16 < 16 := by omega
    have e8 : r / 65536 % 16 < 16 := by omega
    have e : (((((((r / 268435456 % 16) * 16 + r / 16777216 % 16) * 16 + r / 1048576 % 16) * 16
        + r / 65536 % 16) * 16 + r / 4096 % 16) * 16 + r / 256 % 16) * 16 + r / 16 % 16) * 16
        + r % 16 = r := by
      omega
    simp [UnquoteChar, hexValue, unhex_lowerhex, e1, e2, e3, e4, e5, e6, e7, e8, Fin.ext_iff, hv]
    rw [e]; exact ⟨hv, rfl⟩

/-- A byte is the conversion of its own value. -/
theorem byte_val_self (b : Byte) : byte b.val = b := byte_eq b _ rfl

/-- The printable runes of Latin-1. -/
theorem IsPrint_ascii (env : Env) (r : Nat) (h : r ≤ 0xFF) :
    IsPrint env r = true ↔ (0x20 ≤ r ∧ r ≤ 0x7E) ∨ (0xA1 ≤ r ∧ r ≠ 0xAD) := by
  unfold IsPrint
  rw [if_pos h]
  split_ifs <;> simp <;> omega

/-- What `appendEscapedRune` writes for a valid rune is a token for the encoding of the rune. -/
theorem appendEscapedRune_tok (env : Env) (r : Nat) (hv : ValidRune r = true) :
    Tok (appendEscapedRune env r) (AppendRune r) := by
  unfold appendEscapedRune
  by_cases h1 : r = 0x22 ∨ r = 0x5C
  · rw [if_pos h1, AppendRune_one r (by omega)]
    rcases h1 with rfl | rfl
    · exact .esc _ _ (by decide)
    · exact .esc _ _ (by decide)
  rw [if_neg h1]
  by_cases h2 : IsPrint env r = true
  · rw [if_pos h2]
    refine .raw r hv (by omega) (by omega) ?_
    rintro rfl
    rw [IsPrint_ascii env _ (by omega)] at h2
    omega
  rw [if_neg h2]
  have hnp : ¬ (0x20 ≤ r ∧ r ≤ 0x7E) := by
    intro h
    exact h2 ((IsPrint_ascii env r (by omega)).2 (Or.inl h))
  have esc : ∀ c v : Nat, v ≤ 0x7F →
      ((c = 0x61 ∧ v = 7) ∨ (c = 0x62 ∧ v = 8) ∨ (c = 0x66 ∧ v = 12)
        ∨ (c = 0x6E ∧ v = 10) ∨ (c = 0x72 ∧ v = 13) ∨ (c = 0x74 ∧ v = 9)
        ∨ (c = 0x76 ∧ v = 11) ∨ (c = 0x5C ∧ v = 0x5C) ∨ (c = 0x22 ∧ v = 0x22)) →
      Tok [byte 0x5C, byte c] (AppendRune v) := by
    intro c v hv hc
    rw [AppendRune_one v hv]
    exact .esc c v hc
  by_cases h7 : r = 7
  · rw [if_pos h7, h7]; exact esc _ _ (by decide) (by decide)
  rw [if_neg h7]
  by_cases h8 : r = 8
  · rw [if_pos h8, h8]; exact esc _ _ (by decide) (by decide)
  rw [if_neg h8]
  by_cases h12 : r = 12
  · rw [if_pos h12, h12]; exact esc _ _ (by decide) (by decide)
  rw [if_neg h12]
  by_cases h10 : r = 10
  · rw [if_pos h10, h10]; exact esc _ _ (by decide) (by decide)
  rw [if_neg h10]
  by_cases h13 : r = 13
  · rw [if_pos h13, h13]; exact esc _ _ (by decide) (by decide)
  rw [if_neg h13]
  by_cases h9 : r = 9
  · rw [if_pos h9, h9]; exact esc _ _ (by decide) (by decide)
  rw [if_neg h9]
  by_cases h11 : r = 11
  · rw [if_pos h11, h11]; exact esc _ _ (by decide) (by decide)
  rw [if_neg h11]
  by_cases hx : r < 0x20 ∨ r = 0x7F
  · rw [if_pos hx]
    have e := Tok.hex2 (byte r)
    rw [AppendRune_one r (by omega)]
    simp only [byte_val] at e
    have e1 : r % 256 / 16 = r / 16 % 16 := by omega
    have e2 : r % 256 % 16 = r % 16 := by omega
    rw [e1, e2] at e
    exact e
  rw [if_neg hx]
  simp only [hv, Bool.not_true, Bool.false_eq_true, if_false]
  by_cases h16 : r < 0x10000
  · rw [if_pos h16]; exact .hex4 r hv (by omega) h16
  · rw [if_neg h16]; exact .hex8 r hv (by omega)

/-- A rune decoded from a leading byte above ASCII is at least two bytes wide and lies within the input. -/
theorem Decoded_ge (p : List Byte) (r w : Nat) (h : Decoded p r w)
    (hv : ¬ (w = 1 ∧ r = RuneError)) (hp : ∀ b ∈ p.head?, 0x80 ≤ b.val) :
    2 ≤ w ∧ w ≤ p.length := by
  cases h with
  | invalid => exact absurd ⟨rfl, rfl⟩ hv
  | one p0 t h0 => have := hp p0 (by simp); omega
  | two => simp
  | three => simp
  | four => simp

/-- One turn of the loop of `appendQuotedWith`: a token for the first bytes of the string. -/
theorem quoteLoop_cons (env : Env) (fuel : Nat) (b : Byte) (rest : GoString) :
    ∃ tok w, 1 ≤ w ∧ w ≤ rest.length + 1 ∧ Tok tok ((b :: rest).take w)
      ∧ quoteLoop env (fuel + 1) (b :: rest)
          = tok ++ quoteLoop env fuel ((b :: rest).drop w) := by
  rw [quoteLoop]
  by_cases hb : b.val ≥ 0x80
  · simp only [if_pos hb]
    have hd := DecodeRune_decoded b rest
    by_cases hinv : (DecodeRune (b :: rest)).2 = 1 ∧ (DecodeRune (b :: rest)).1 = RuneError
    · rw [if_pos hinv]
      exact ⟨_, 1, le_refl _, by omega, .hex2 b, rfl⟩
    · rw [if_neg hinv]
      have hinv' : ¬ ((DecodeRune (b :: rest)).2 = 1 ∧ (DecodeRune (b :: rest)).1 = RuneError) :=
        hinv
      obtain ⟨he, hv⟩ := AppendRune_of_decoded _ _ _ hd hinv'
      obtain ⟨hw1, hw2⟩ := Decoded_ge _ _ _ hd hinv' (by simpa using hb)
      refine ⟨_, (DecodeRune (b :: rest)).2, by omega, by simpa using hw2, ?_, rfl⟩
      rw [← he]
      exact appendEscapedRune_tok env _ hv
  · simp only [if_neg hb]
    have hne : ¬ (True ∧ b.val = RuneError) := by
      simp only [RuneError]; omega
    rw [if_neg hne]
    refine ⟨_, 1, le_refl _, by omega, ?_, rfl⟩
    have hv : ValidRune b.val = true := by simp [ValidRune]; omega
    have e := appendEscapedRune_tok env b.val hv
    rw [AppendRune_one _ (by omega), byte_val_self] at e
    exact e

/-- The loop of `appendQuotedWith` quotes the whole string, token by token. -/
theorem quoteLoop_quoted (env : Env) (fuel : Nat) :
    ∀ s : GoString, s.length < fuel → Quoted (quoteLoop env fuel s) s := by
  induction fuel with
  | zero => intro s h; omega
  | succ fuel ih =>
    intro s h
    cases s with
    | nil => rw [quoteLoop]; exact .nil
    | cons b rest =>
      obtain ⟨tok, w, hw1, hw2, htok, he⟩ := quoteLoop_cons env fuel b rest
      rw [he]
      have hlen : ((b :: rest).drop w).length < fuel := by
        simp only [List.length_drop, List.length_cons] at h ⊢; omega
      have := Quoted.cons _ _ _ _ htok (ih _ hlen)
      rwa [List.take_append_drop] at this

/-- A token starts with neither a quote nor a newline. -/
theorem Tok_head (tok src : List Byte) (h : Tok tok src) :
    ∃ c tok', tok = c :: tok' ∧ c ≠ byte 0x22 ∧ c.val ≠ 0x0A := by
  have bs : ∀ l : List Byte,
      ∃ c tok', byte 0x5C :: l = c :: tok' ∧ c ≠ byte 0x22 ∧ c.val ≠ 0x0A :=
    fun l => ⟨_, _, rfl, by decide, by decide⟩
  cases h with
  | raw r hv h1 h2 h3 =>
    by_cases hr : r ≤ 0x7F
    · rw [AppendRune_one r hr]
      refine ⟨_, _, rfl, ?_, ?_⟩
      · intro h
        have := congrArg Fin.val h
        simp only [byte_val] at this
        omega
      · rw [byte_val]; omega
    · obtain ⟨c, rest, hc, hc80⟩ := AppendRune_head r (by omega)
      refine ⟨c, rest, hc, ?_, by omega⟩
      rintro rfl
      simp at hc80
  | esc c v hc => exact bs _
  | hex2 b => exact bs _
  | hex4 r hv h1 h2 => exact bs _
  | hex8 r hv h1 => exact bs _

/-- The loop of `unquote` over a quoted body gives the string back and stops at the
closing quote. -/
theorem unquoteLoop_quoted (body s : List Byte) (h : Quoted body s) (rest : GoString) :
    ∀ fuel, (body ++ byte 0x22 :: rest).length < fuel →
      unquoteLoop (byte 0x22) fuel (body ++ byte 0x22 :: rest)
        = some (s, byte 0x22 :: rest) := by
  induction h with
  | nil =>
    intro fuel hf
    cases fuel with
    | zero => simp at hf
    | succ fuel => simp [unquoteLoop]
  | cons tok src body s htok _ ih =>
    intro fuel hf
    obtain ⟨c, tok', rfl, hc1, hc2⟩ := Tok_head tok src htok
    obtain ⟨r, mb, hu, hout⟩ := UnquoteChar_tok _ _ htok (body ++ byte 0x22 :: rest)
    cases fuel with
    | zero => simp at hf
    | succ fuel =>
      have hf' : (body ++ byte 0x22 :: rest).length < fuel := by
        simp only [List.length_append, List.length_cons] at hf ⊢; omega
      simp only [List.cons_append, List.append_assoc] at hu ⊢
      rw [unquoteLoop, if_neg hc1, hu]
      simp only [if_neg hc2]
      rw [ih fuel hf']
      have hq : ¬ ((byte 0x22).val = 0x27) := by decide
      simp only [if_neg hq]
      unfold unquoted at hout
      rw [hout]

/-- An encoding is not empty. -/
theorem AppendRune_ne_nil (r : Nat) : AppendRune r ≠ [] := by
  by_cases h : r ≤ 0x7F
  · rw [AppendRune_one r h]; simp
  · obtain ⟨c, rest, hc, -⟩ := AppendRune_head r (by omega)
    rw [hc]; simp

/-- The scanner reads an encoded rune back. -/
theorem getRune_AppendRune (r : Nat) (t : GoString) (hv : ValidRune r = true) :
    getRune (AppendRune r ++ t) = some (r, t) := by
  have hd := DecodeRune_AppendRune r t hv
  cases hc : AppendRune r with
  | nil => exact absurd hc (AppendRune_ne_nil r)
  | cons c rest =>
    rw [hc] at hd
    simp only [List.cons_append] at hd ⊢
    rw [getRune, hd]
    simp only
    rw [← List.cons_append, List.drop_left]

/-- The scanner reads an ASCII byte as itself. -/
theorem getRune_ascii (c : Byte) (t : GoString) (h : c.val < 0x80) :
    getRune (c :: t) = some (c.val, t) := by
  rw [getRune, DecodeRune_one c t h]
  rfl

/-- The scan stops at the closing quote. -/
theorem Scans_quote (rest : GoString) : Scans (byte 0x22 :: rest) [byte 0x22] := by
  intro fuel hf
  cases fuel with
  | zero => simp at hf
  | succ fuel =>
    rw [doubleQuotedLoop, getRune_ascii _ _ (by decide)]
    simp [AppendRune_one]

/-- The scan copies a rune that is neither a quote nor a backslash. -/
theorem Scans_rune (r : Nat) (t x : List Byte) (hv : ValidRune r = true)
    (h1 : r ≠ 0x22) (h2 : r ≠ 0x5C) (h : Scans t x) :
    Scans (AppendRune r ++ t) (AppendRune r ++ x) := by
  intro fuel hf
  cases fuel with
  | zero => simp at hf
  | succ fuel =>
    have hl : 1 ≤ (AppendRune r).length := by
      have := AppendRune_ne_nil r
      cases h : AppendRune r with
      | nil => exact absurd h this
      | cons _ _ => simp
    have hf' : t.length < fuel := by
      simp only [List.length_append] at hf; omega
    rw [doubleQuotedLoop, getRune_AppendRune r t hv]
    simp only [if_neg h2, if_neg h1, h fuel hf']

/-- The scan copies an ASCII byte that is neither a quote nor a backslash. -/
theorem Scans_byte (c : Byte) (t x : List Byte) (hc : c.val < 0x80)
    (h1 : c.val ≠ 0x22) (h2 : c.val ≠ 0x5C) (h : Scans t x) :
    Scans (c :: t) (c :: x) := by
  have hv : ValidRune c.val = true := by simp [ValidRune]; omega
  have := Scans_rune c.val t x hv h1 h2 h
  rwa [AppendRune_one _ (by omega), byte_val_self] at this

/-- The scan copies a backslash together with the ASCII byte after it. -/
theorem Scans_esc (c : Byte) (t x : List Byte) (hc : c.val < 0x80) (h : Scans t x) :
    Scans (byte 0x5C :: c :: t) (byte 0x5C :: c :: x) := by
  intro fuel hf
  cases fuel with
  | zero => simp at hf
  | succ fuel =>
    have hf' : t.length < fuel := by
      simp only [List.length_cons] at hf; omega
    rw [doubleQuotedLoop, getRune_ascii _ _ (by decide), byte_val]
    simp only [Nat.reduceMod, if_true]
    rw [getRune_ascii _ _ hc]
    simp only [h fuel hf']
    rw [AppendRune_one _ (by omega), AppendRune_one _ (by omega), byte_val_self]
    rfl

/-- The scan copies a hexadecimal digit. -/
theorem Scans_hex (n : Nat) (t x : List Byte) (hn : n < 16) (h : Scans t x) :
    Scans (lowerhex n :: t) (lowerhex n :: x) := by
  obtain ⟨a, b, c, -⟩ := lowerhex_ascii n hn
  exact Scans_byte _ _ _ a b c h

/-- The scan copies a token of `Quote`. -/
theorem Scans_tok (tok src : List Byte) (htok : Tok tok src) (t x : List Byte)
    (h : Scans t x) : Scans (tok ++ t) (tok ++ x) := by
  cases htok with
  | raw r hv h1 h2 h3 => exact Scans_rune r t x hv h1 h2 h
  | esc c v hc =>
    refine Scans_esc _ _ _ ?_ h
    rw [byte_val]; omega
  | hex2 b =>
    exact Scans_esc _ _ _ (by decide)
      (Scans_hex _ _ _ (by omega) (Scans_hex _ _ _ (by omega) h))
  | hex4 r hv h1 h2 =>
    exact Scans_esc _ _ _ (by decide)
      (Scans_hex _ _ _ (by omega) (Scans_hex _ _ _ (by omega)
        (Scans_hex _ _ _ (by omega) (Scans_hex _ _ _ (by omega) h))))
  | hex8 r hv h1 =>
    exact Scans_esc _ _ _ (by decide)
      (Scans_hex _ _ _ (by omega) (Scans_hex _ _ _ (by omega)
        (Scans_hex _ _ _ (by omega) (Scans_hex _ _ _ (by omega)
          (Scans_hex _ _ _ (by omega) (Scans_hex _ _ _ (by omega)
            (Scans_hex _ _ _ (by omega) (Scans_hex _ _ _ (by omega) h))))))))

/-- The scanner reads a quoted body up to the closing quote and writes the same bytes
to its buffer. -/
theorem Scans_quoted (body s : List Byte) (h : Quoted body s) (rest : GoString) :
    Scans (body ++ byte 0x22 :: rest) (body ++ [byte 0x22]) := by
  induction h with
  | nil => exact Scans_quote rest
  | cons tok src body s htok _ ih =>
    rw [List.append_assoc, List.append_assoc]
    exact Scans_tok tok src htok _ _ ih

/-- The function `index` skips a prefix that does not hold the byte. -/
theorem index_skip (pre X : List Byte) (q : Byte) (h : ∀ b ∈ pre, b ≠ q) :
    index (pre ++ X) q = (index X q).map (· + pre.length) := by
  induction pre with
  | nil => simp
  | cons a pre ih =>
    have ha : a ≠ q := h a (by simp)
    have ih' := ih (fun b hb => h b (by simp [hb]))
    rw [List.cons_append, index, if_neg ha, ih', Option.map_map, List.length_cons]
    rfl

/-- The function `index` finds a byte that occurs. -/
theorem index_mem (l : List Byte) (q : Byte) (h : q ∈ l) : ∃ i, index l q = some i := by
  induction l with
  | nil => simp at h
  | cons a l ih =>
    by_cases ha : a = q
    · exact ⟨0, by simp [index, ha]⟩
    · have hq : q ∈ l := by
        rcases List.mem_cons.1 h with h | h
        · exact absurd h.symm ha
        · exact h
      obtain ⟨i, hi⟩ := ih hq
      exact ⟨i + 1, by simp [index, ha, hi]⟩

/-- Every byte of the encoding of a rune above ASCII is above ASCII. -/
theorem AppendRune_bytes_ge (r : Nat) (h : 0x7F < r) : ∀ b ∈ AppendRune r, 0x80 ≤ b.val := by
  unfold AppendRune
  rw [if_neg (by omega)]
  simp only [RuneError]
  intro b hb
  split_ifs at hb <;> simp only [List.mem_cons, List.mem_singleton, List.not_mem_nil, or_false] at hb <;>
    rcases hb with rfl | rfl | rfl | rfl <;> rw [byte_val] <;> omega

/-- The encoding of a rune other than the quote holds no quote. -/
theorem AppendRune_no_quote (r : Nat) (h1 : r ≠ 0x22) : ∀ b ∈ AppendRune r, b ≠ byte 0x22 := by
  intro b hb
  by_cases hr : r ≤ 0x7F
  · rw [AppendRune_one r hr] at hb
    simp only [List.mem_singleton] at hb
    subst hb
    intro h
    have := congrArg Fin.val h
    simp only [byte_val] at this
    omega
  · have := AppendRune_bytes_ge r (by omega) b hb
    rintro rfl
    simp at this

/-- In a quoted body the first quote that no backslash precedes is the closing one,
and a body without a backslash is the string itself. -/
theorem index_quoted (body s : List Byte) (h : Quoted body s) (rest : GoString) :
    ∃ i, index (body ++ byte 0x22 :: rest) (byte 0x22) = some i
      ∧ ((∀ b ∈ (body ++ byte 0x22 :: rest).take (i + 1), b.val ≠ 0x5C) →
          i = body.length ∧ body = s) := by
  induction h with
  | nil => exact ⟨0, by simp [index], fun _ => ⟨rfl, rfl⟩⟩
  | cons tok src body s htok _ ih =>
    obtain ⟨j, hj, hjs⟩ := ih
    have bs : ∀ l : List Byte, tok = byte 0x5C :: l →
        ∃ i, index ((tok ++ body) ++ byte 0x22 :: rest) (byte 0x22) = some i
          ∧ ((∀ b ∈ ((tok ++ body) ++ byte 0x22 :: rest).take (i + 1), b.val ≠ 0x5C) →
              i = (tok ++ body).length ∧ tok ++ body = src ++ s) := by
      intro l hl
      subst hl
      have hne : byte 0x5C ≠ byte 0x22 := by decide
      cases hi : index (byte 0x5C :: l ++ body ++ byte 0x22 :: rest) (byte 0x22) with
      | none =>
        exfalso
        obtain ⟨i, hi'⟩ := index_mem (byte 0x5C :: l ++ body ++ byte 0x22 :: rest) (byte 0x22)
          (by simp)
        rw [hi] at hi'
        cases hi'
      | some i =>
        refine ⟨i, rfl, fun hall => ?_⟩
        exfalso
        exact hall (byte 0x5C) (by simp) (by decide)
    cases htok with
    | raw r hv h1 h2 h3 =>
      refine ⟨j + (AppendRune r).length, ?_, fun hall => ?_⟩
      · rw [List.append_assoc, index_skip _ _ _ (AppendRune_no_quote r h1), hj]
        rfl
      · have e : (AppendRune r ++ body ++ byte 0x22 :: rest).take (j + (AppendRune r).length + 1)
            = AppendRune r ++ (body ++ byte 0x22 :: rest).take (j + 1) := by
          rw [List.append_assoc, List.take_append_eq_append_take]
          rw [List.take_of_length_le (by omega)]
          congr 2
          omega
        rw [e] at hall
        obtain ⟨h1, h2⟩ := hjs (fun b hb => hall b (by simp [hb]))
        subst h2
        exact ⟨by simp [h1]; omega, rfl⟩
    | esc c v hc => exact bs _ rfl
    | hex2 b => exact bs _ rfl
    | hex4 r hv h1 h2 => exact bs _ rfl
    | hex8 r hv h1 => exact bs _ rfl

/-- Unquoting a quoted body between its quotes gives the string back. -/
theorem Unquote_quoted (body s : List Byte) (h : Quoted body s) :
    Unquote (byte 0x22 :: body ++ [byte 0x22]) = some s := by
  obtain ⟨i, hi, his⟩ := index_quoted body s h []
  have hslow := unquoteLoop_quoted body s h [] ((body ++ [byte 0x22]).length + 1) (by omega)
  have hq : ¬ ((byte 0x22).val = 0x60) := by decide
  have hq2 : (byte 0x22).val = 0x22 ∨ (byte 0x22).val = 0x27 := Or.inl (by decide)
  have hq3 : (byte 0x22).val = 0x22 := by decide
  cases htl : body ++ [byte 0x22] with
  | nil => simp at htl
  | cons c tl =>
    rw [htl] at hi hslow his
    rw [List.cons_append, htl, Unquote]
    simp only [unquote, hi, if_neg hq, if_pos hq2, if_pos hq3]
    split_ifs with hfast
    · have hall : ∀ b ∈ (c :: tl).take (i + 1), b.val ≠ 0x5C := by
        intro b hb
        have h1 := hfast.1
        rw [List.all_eq_true] at h1
        have h2 := h1 b (show b ∈ byte 0x22 :: (c :: tl).take (i + 1) from
          List.mem_cons_of_mem _ hb)
        simp only [ne_eq, decide_not, Bool.decide_and, Bool.and_eq_true, Bool.not_eq_eq_eq_not,
          Bool.not_true, decide_eq_false_iff_not] at h2
        exact h2.1
      obtain ⟨h1, h2⟩ := his hall
      subst h2
      have e1 : ((byte 0x22 :: c :: tl).drop 1).take (i + 2 - 2) = body := by
        rw [List.drop_one, List.tail_cons, ← htl, h1]
        simp
      have e2 : (byte 0x22 :: c :: tl).drop (i + 2) = [] := by
        rw [← htl, h1]
        simp
      simp only [e1, e2]
      rfl
    · rw [hslow]
      simp

/-- The method `SkipSpace` stays at a quote. -/
theorem SkipSpace_quote (t : GoString) : SkipSpace (byte 0x22 :: t) = .ok (byte 0x22 :: t) := by
  rw [SkipSpace, List.length_cons, SkipSpaceLoop, getRune_ascii _ _ (by decide)]
  have h1 : ¬ ((byte 0x22).val = 0x0D ∧ (getRune t).map Prod.fst = some 0x0A) := by
    rintro ⟨h, -⟩; revert h; decide
  have h2 : ¬ ((byte 0x22).val = 0x0A) := by decide
  have h3 : (!isSpace (byte 0x22).val) = true := by decide
  simp only [if_neg h1, if_neg h2, if_pos h3]

/-- Scanning with `%q` what `%q` printed gives the string back, for every string. -/
theorem Sscanf_Sprintf (env : Env) (s : GoString) : Sscanf (Sprintf env s) = .ok s := by
  have hq := quoteLoop_quoted env (s.length + 1) s (by omega)
  have hscan := Scans_quoted _ _ hq [] _ (Nat.lt_succ_self _)
  have hun := Unquote_quoted _ _ hq
  rw [Sprintf, Quote, Sscanf]
  simp only [List.cons_append, SkipSpace_quote, quotedString]
  rw [getRune_ascii _ _ (by decide)]
  have h1 : ¬ ((byte 0x22).val = 0x60) := by decide
  have h2 : (byte 0x22).val = 0x22 := by decide
  simp only [if_neg h1, if_pos h2, hscan]
  rw [← List.cons_append, hun]

/-- A quoted string is not the JSON literal `null`. -/
theorem Sprintf_ne_null (env : Env) (s : GoString) : Sprintf env s ≠ str "null" := by
  intro h
  have h1 := congrArg List.head? h
  rw [Sprintf, Quote, List.cons_append, List.head?_cons] at h1
  exact absurd h1 (by decide)


/-- A decoded rune is at least one byte wide. -/
theorem Decoded_width (p : List Byte) (r w : Nat) (h : Decoded p r w) : 1 ≤ w := by
  cases h <;> omega

/-- A decoded ASCII rune is the first byte. -/
theorem Decoded_small (p0 : Byte) (t : List Byte) (r w : Nat) (h : Decoded (p0 :: t) r w)
    (hr : r < 0x80) : r = p0.val := by
  cases h with
  | invalid => simp [RuneError] at hr
  | one _ _ h0 => rfl
  | two _ b1 _ h0 h0' h1 h1' => omega
  | three _ b1 b2 _ h0 h0' h1 h1' hlo hhi h2 h2' => omega
  | four _ b1 b2 b3 _ h0 h0' h1 h1' hlo hhi h2 h2' h3 h3' => omega

/-- The scanner consumes at least one byte for a rune. -/
theorem getRune_length (inp rest : GoString) (r : Nat) (h : getRune inp = some (r, rest)) :
    rest.length < inp.length := by
  cases inp with
  | nil => simp [getRune] at h
  | cons b t =>
    have hw := Decoded_width _ _ _ (DecodeRune_decoded b t)
    simp only [getRune, Option.some.injEq, Prod.mk.injEq] at h
    rw [← h.2]
    simp only [List.length_drop, List.length_cons]
    omega

/-- A rune read as ASCII is the first byte. -/
theorem getRune_small (b : Byte) (t rest : GoString) (r : Nat)
    (h : getRune (b :: t) = some (r, rest)) (hr : r < 0x80) : r = b.val := by
  simp only [getRune, Option.some.injEq, Prod.mk.injEq] at h
  have hd := DecodeRune_decoded b t
  rw [h.1] at hd
  exact Decoded_small b t r _ hd hr

/-- Where `SkipSpace` stops, a second `SkipSpace` stays. -/
theorem SkipSpaceLoop_stable (fuel : Nat) :
    ∀ inp out : GoString, inp.length < fuel → SkipSpaceLoop fuel inp = .ok out →
      ∀ fuel', 0 < fuel' → SkipSpaceLoop fuel' out = .ok out := by
  induction fuel with
  | zero => intro inp out h; omega
  | succ fuel ih =>
    intro inp out hlen h fuel' hf'
    obtain ⟨f, rfl⟩ : ∃ f, fuel' = f + 1 := ⟨fuel' - 1, by omega⟩
    rw [SkipSpaceLoop] at h
    cases hg : getRune inp with
    | none =>
      rw [hg] at h
      simp only [Except.ok.injEq] at h
      subst h
      rw [SkipSpaceLoop, hg]
    | some p =>
      obtain ⟨r, rest⟩ := p
      rw [hg] at h
      have hrest := getRune_length _ _ _ hg
      simp only at h
      split_ifs at h with h1 h2 h3
      · exact ih rest out (by omega) h _ hf'
      · simp only [Except.ok.injEq] at h
        subst h
        rw [SkipSpaceLoop, hg]
        simp only [if_neg h1, if_neg h2, if_pos h3]
      · exact ih rest out (by omega) h _ hf'

/-- Where `SkipSpace` stops, a second `SkipSpace` stays. -/
theorem SkipSpace_stable (inp out : GoString) (h : SkipSpace inp = .ok out) :
    SkipSpace out = .ok out :=
  SkipSpaceLoop_stable _ inp out (Nat.lt_succ_self _) h _ (Nat.succ_pos _)

/-- The scanner rejects what does not start with a quote. -/
theorem quotedString_unquoted (inp : GoString)
    (h : inp.head? ≠ some (byte 0x22) ∧ inp.head? ≠ some (byte 0x60)) :
    ∃ err, quotedString inp = .error err := by
  rw [quotedString]
  cases hg : getRune inp with
  | none => exact ⟨_, rfl⟩
  | some p =>
    obtain ⟨r, rest⟩ := p
    cases inp with
    | nil => simp [getRune] at hg
    | cons b t =>
      simp only [List.head?_cons, ne_eq, Option.some.injEq] at h
      have h1 : ¬ r = 0x60 := by
        intro hr
        have := getRune_small b t rest r hg (by omega)
        exact h.2 (byte_eq b 0x60 (by omega)).symm
      have h2 : ¬ r = 0x22 := by
        intro hr
        have := getRune_small b t rest r hg (by omega)
        exact h.1 (byte_eq b 0x22 (by omega)).symm
      simp only [if_neg h1, if_neg h2]
      exact ⟨_, rfl⟩

/-- The call `Sscanf` fails on input that, past the leading space, starts with no quote. -/
theorem Sscanf_unquoted (data : GoString)
    (h : ∀ inp, SkipSpace data = .ok inp →
      inp.head? ≠ some (byte 0x22) ∧ inp.head? ≠ some (byte 0x60)) :
    ∃ err, Sscanf data = .error err := by
  rw [Sscanf]
  cases hs : SkipSpace data with
  | error e => exact ⟨e, rfl⟩
  | ok inp =>
    simp only [SkipSpace_stable data inp hs]
    exact quotedString_unquoted inp (h inp hs)

/-! ## The bounded loops do not run out of fuel -/

/-- The loop of `SkipSpace` does not depend on fuel above the length of the input. -/
theorem SkipSpaceLoop_fuel (f : Nat) :
    ∀ (f' : Nat) (inp : GoString), inp.length < f → inp.length < f' →
      SkipSpaceLoop f inp = SkipSpaceLoop f' inp := by
  induction f with
  | zero => intro f' inp h; omega
  | succ f ih =>
    intro f' inp h h'
    obtain ⟨g, rfl⟩ : ∃ g, f' = g + 1 := ⟨f' - 1, by omega⟩
    rw [SkipSpaceLoop, SkipSpaceLoop]
    cases hg : getRune inp with
    | none => rfl
    | some p =>
      obtain ⟨r, rest⟩ := p
      have hl := getRune_length _ _ _ hg
      simp only
      rw [ih g rest (by omega) (by omega)]

/-- The loop over a double-quoted string does not depend on fuel above the length of
the input. -/
theorem doubleQuotedLoop_fuel (f : Nat) :
    ∀ (f' : Nat) (inp : GoString), inp.length < f → inp.length < f' →
      doubleQuotedLoop f inp = doubleQuotedLoop f' inp := by
  induction f with
  | zero => intro f' inp h; omega
  | succ f ih =>
    intro f' inp h h'
    obtain ⟨g, rfl⟩ : ∃ g, f' = g + 1 := ⟨f' - 1, by omega⟩
    rw [doubleQuotedLoop, doubleQuotedLoop]
    cases hg : getRune inp with
    | none => rfl
    | some p =>
      obtain ⟨r, rest⟩ := p
      have hl := getRune_length _ _ _ hg
      simp only
      rw [ih g rest (by omega) (by omega)]
      cases hg2 : getRune rest with
      | none => rfl
      | some p2 =>
        obtain ⟨r2, rest2⟩ := p2
        have hl2 := getRune_length _ _ _ hg2
        simp only
        rw [ih g rest2 (by omega) (by omega)]

/-- The loop over a back-quoted string does not depend on fuel above the length of
the input. -/
theorem backQuotedLoop_fuel (f : Nat) :
    ∀ (f' : Nat) (inp : GoString), inp.length < f → inp.length < f' →
      backQuotedLoop f inp = backQuotedLoop f' inp := by
  induction f with
  | zero => intro f' inp h; omega
  | succ f ih =>
    intro f' inp h h'
    obtain ⟨g, rfl⟩ : ∃ g, f' = g + 1 := ⟨f' - 1, by omega⟩
    rw [backQuotedLoop, backQuotedLoop]
    cases hg : getRune inp with
    | none => rfl
    | some p =>
      obtain ⟨r, rest⟩ := p
      have hl := getRune_length _ _ _ hg
      simp only
      rw [ih g rest (by omega) (by omega)]

/-- The loop of `appendQuotedWith` does not depend on fuel above the length of the
string. -/
theorem quoteLoop_fuel (env : Env) (f : Nat) :
    ∀ (f' : Nat) (s : GoString), s.length < f → s.length < f' →
      quoteLoop env f s = quoteLoop env f' s := by
  induction f with
  | zero => intro f' s h; omega
  | succ f ih =>
    intro f' s h h'
    obtain ⟨g, rfl⟩ : ∃ g, f' = g + 1 := ⟨f' - 1, by omega⟩
    cases s with
    | nil => rw [quoteLoop, quoteLoop]
    | cons b rest =>
      have hw : 1 ≤ (if b.val ≥ 0x80 then DecodeRune (b :: rest) else (b.val, 1)).2 := by
        split_ifs
        · exact Decoded_width _ _ _ (DecodeRune_decoded b rest)
        · exact le_refl _
      rw [quoteLoop, quoteLoop]
      simp only [List.length_cons] at h h'
      rw [ih g rest (by omega) (by omega),
        ih g ((b :: rest).drop _) (by simp only [List.length_drop, List.length_cons]; omega)
          (by simp only [List.length_drop, List.length_cons]; omega)]

/-- The loop of `hexValue` consumes its digits. -/
theorem hexValue_length (n : Nat) :
    ∀ (v : Nat) (s : GoString) (v' : Nat) (s' : GoString),
      hexValue n v s = some (v', s') → s'.length ≤ s.length := by
  induction n with
  | zero =>
    intro v s v' s' h
    simp only [hexValue, Option.some.injEq, Prod.mk.injEq] at h
    rw [h.2]
  | succ n ih =>
    intro v s v' s' h
    cases s with
    | nil => simp [hexValue] at h
    | cons c s =>
      rw [hexValue] at h
      cases hu : unhex c.val with
      | none => rw [hu] at h; simp at h
      | some x =>
        rw [hu] at h
        have := ih _ _ _ _ h
        simp only [List.length_cons]
        omega

/-- The loop of `octValue` consumes its digits. -/
theorem octValue_length (n : Nat) :
    ∀ (v : Nat) (s : GoString) (v' : Nat) (s' : GoString),
      octValue n v s = some (v', s') → s'.length ≤ s.length := by
  induction n with
  | zero =>
    intro v s v' s' h
    simp only [octValue, Option.some.injEq, Prod.mk.injEq] at h
    rw [h.2]
  | succ n ih =>
    intro v s v' s' h
    cases s with
    | nil => simp [octValue] at h
    | cons c s =>
      rw [octValue] at h
      split_ifs at h
      have := ih _ _ _ _ h
      simp only [List.length_cons]
      omega

/-- The function `UnquoteChar` consumes at least one byte. -/
theorem UnquoteChar_length (s : GoString) (quote : Byte) (r : Nat) (mb : Bool)
    (rem : GoString) (h : UnquoteChar s quote = some (r, mb, rem)) :
    rem.length < s.length := by
  cases s with
  | nil => simp [UnquoteChar] at h
  | cons c rest =>
    by_cases h1 : c = quote ∧ (quote.val = 0x27 ∨ quote.val = 0x22)
    · simp [UnquoteChar, h1] at h
    by_cases h2 : c.val ≥ 0x80
    · have hw := Decoded_width _ _ _ (DecodeRune_decoded c rest)
      simp only [UnquoteChar, if_neg h1, if_pos h2, Option.some.injEq, Prod.mk.injEq] at h
      rw [← h.2.2]
      simp only [List.length_drop, List.length_cons]
      omega
    by_cases h3 : c.val ≠ 0x5C
    · simp only [UnquoteChar, if_neg h1, if_neg h2, if_pos h3, Option.some.injEq,
        Prod.mk.injEq] at h
      rw [← h.2.2]
      simp
    cases rest with
    | nil => simp [UnquoteChar, h1, h2, h3] at h
    | cons e s =>
      simp only [UnquoteChar, if_neg h1, if_neg h2, if_neg h3] at h
      have fin : ∀ (k : Nat) (b : Bool) (s' : GoString), s'.length ≤ s.length →
          some (k, b, s') = some (r, mb, rem) → rem.length < (c :: e :: s).length := by
        intro k b s' hs hk
        simp only [Option.some.injEq, Prod.mk.injEq] at hk
        rw [← hk.2.2]
        simp only [List.length_cons]
        omega
      by_cases hk : e.val = 0x61
      · rw [if_pos hk] at h; exact fin _ _ _ (le_refl _) h
      rw [if_neg hk] at h
      clear hk
      by_cases hk : e.val = 0x62
      · rw [if_pos hk] at h; exact fin _ _ _ (le_refl _) h
      rw [if_neg hk] at h
      clear hk
      by_cases hk : e.val = 0x66
      · rw [if_pos hk] at h; exact fin _ _ _ (le_refl _) h
      rw [if_neg hk] at h
      clear hk
      by_cases hk : e.val = 0x6E
      · rw [if_pos hk] at h; exact fin _ _ _ (le_refl _) h
      rw [if_neg hk] at h
      clear hk
      by_cases hk : e.val = 0x72
      · rw [if_pos hk] at h; exact fin _ _ _ (le_refl _) h
      rw [if_neg hk] at h
      clear hk
      by_cases hk : e.val = 0x74
      · rw [if_pos hk] at h; exact fin _ _ _ (le_refl _) h
      rw [if_neg hk] at h
      clear hk
      by_cases hk : e.val = 0x76
      · rw [if_pos hk] at h; exact fin _ _ _ (le_refl _) h
      rw [if_neg hk] at h
      clear hk
      by_cases hx : e.val = 0x78 ∨ e.val = 0x75 ∨ e.val = 0x55
      · rw [if_pos hx] at h
        cases hh : hexValue (if e.val = 0x78 then 2 else if e.val = 0x75 then 4 else 8) 0 s with
        | none => rw [hh] at h; simp at h
        | some p =>
          obtain ⟨v, s'⟩ := p
          have hl := hexValue_length _ _ _ _ _ hh
          rw [hh] at h
          simp only at h
          split_ifs at h
          · exact fin _ _ _ hl h
          · exact fin _ _ _ hl h
      rw [if_neg hx] at h
      by_cases ho : 0x30 ≤ e.val ∧ e.val ≤ 0x37
      · rw [if_pos ho] at h
        cases hh : octValue 2 (e.val - 0x30) s with
        | none => rw [hh] at h; simp at h
        | some p =>
          obtain ⟨v, s'⟩ := p
          have hl := octValue_length _ _ _ _ _ hh
          rw [hh] at h
          simp only at h
          split_ifs at h
          exact fin _ _ _ hl h
      rw [if_neg ho] at h
      split_ifs at h
      · exact fin _ _ _ (le_refl _) h
      · exact fin _ _ _ (le_refl _) h

/-- The loop of `unquote` does not depend on fuel above the length of the input. -/
theorem unquoteLoop_fuel (quote : Byte) (f : Nat) :
    ∀ (f' : Nat) (inp : GoString), inp.length < f → inp.length < f' →
      unquoteLoop quote f inp = unquoteLoop quote f' inp := by
  induction f with
  | zero => intro f' inp h; omega
  | succ f ih =>
    intro f' inp h h'
    obtain ⟨g, rfl⟩ : ∃ g, f' = g + 1 := ⟨f' - 1, by omega⟩
    cases inp with
    | nil => rw [unquoteLoop, unquoteLoop]
    | cons c rest =>
      rw [unquoteLoop, unquoteLoop]
      cases hu : UnquoteChar (c :: rest) quote with
      | none => rfl
      | some p =>
        obtain ⟨r, mb, rem⟩ := p
        have hl := UnquoteChar_length _ _ _ _ _ hu
        simp only
        rw [ih g rem (by omega) (by omega)]

/-- The loop of `ValidString` does not depend on fuel above the length of the
string. -/
theorem ValidStringLoop_fuel (f : Nat) :
    ∀ (f' : Nat) (s : GoString), s.length < f → s.length < f' →
      ValidStringLoop f s = ValidStringLoop f' s := by
  induction f with
  | zero => intro f' s h; omega
  | succ f ih =>
    intro f' s h h'
    obtain ⟨g, rfl⟩ : ∃ g, f' = g + 1 := ⟨f' - 1, by omega⟩
    cases s with
    | nil => rw [ValidStringLoop, ValidStringLoop]
    | cons b rest =>
      have hw := Decoded_width _ _ _ (DecodeRune_decoded b rest)
      rw [ValidStringLoop, ValidStringLoop]
      simp only [List.length_cons] at h h'
      rw [ih g ((b :: rest).drop _) (by simp only [List.length_drop, List.length_cons]; omega)
        (by simp only [List.length_drop, List.length_cons]; omega)]

/-! ## Lemmas on what a variable holds and on names without escapes -/

/-- The receiver after `loadString` holds nothing or a zone of the database, when it
did before. -/
theorem loadString_held (env : Env) (z : TimeZone) (s : GoString) (h : Held env z) :
    Held env (z.loadString env s).1 := by
  rw [loadString_eq]
  cases hl : Time.LoadLocation env s with
  | error e => exact h
  | ok loc =>
    cases loc with
    | UTC => exact Or.inl rfl
    | Local => exact h
    | zone name =>
      have hn := LoadLocation_zone_name env s name hl
      subst hn
      exact Or.inr ⟨_, rfl, hl⟩

/-- Each of the four methods keeps `Held`. -/
theorem Call_run_held (env : Env) (z : TimeZone) (c : Call) (h : Held env z) :
    Held env (c.run env z).1 := by
  cases c with
  | loadString s => exact loadString_held env z s h
  | UnmarshalText text => exact loadString_held env z text h
  | Scan value =>
    simp only [Call.run, TimeZone.Scan]
    cases hns : NullString.Scan value with
    | mk ns e =>
      cases e with
      | some e => exact h
      | none =>
        simp only
        split
        · exact h
        · exact loadString_held env z _ h
  | UnmarshalJSON data =>
    simp only [Call.run, TimeZone.UnmarshalJSON]
    split
    · exact h
    · cases hs : Fmt.Sscanf data with
      | error e => exact h
      | ok unquote => exact loadString_held env z _ h

/-- The result of `LoadTimeZone` holds nothing or a zone of the database. -/
theorem LoadTimeZone_held (env : Env) (name : GoString) :
    Held env (LoadTimeZone env name).1 := by
  have h := loadString_held env { loc := none } name (Or.inl rfl)
  unfold LoadTimeZone
  cases hr : TimeZone.loadString env { loc := none } name with
  | mk z e =>
    rw [hr] at h
    cases e with
    | some e => exact Or.inl rfl
    | none => exact h

/-- Every sequence of steps keeps `Held`. -/
theorem runAll_held (env : Env) (ops : List Op) :
    ∀ z, Held env z → Held env (runAll env z ops) := by
  induction ops with
  | nil => intro z h; exact h
  | cons op ops ih =>
    intro z h
    refine ih _ ?_
    cases op with
    | call c => exact Call_run_held env z c h
    | LoadTimeZone name => exact LoadTimeZone_held env name

/-- Well-formed UTF-8 without quote, backslash and newline is its own quoted body. -/
theorem Quoted_self (fuel : Nat) :
    ∀ s : GoString, s.length < fuel → ValidStringLoop fuel s = true →
      (∀ b ∈ s, b.val ≠ 0x22 ∧ b.val ≠ 0x5C ∧ b.val ≠ 0x0A) → Quoted s s := by
  induction fuel with
  | zero => intro s h; omega
  | succ fuel ih =>
    intro s hlen hv hb
    cases s with
    | nil => exact .nil
    | cons b rest =>
      rw [ValidStringLoop] at hv
      have hd := DecodeRune_decoded b rest
      by_cases hinv : (DecodeRune (b :: rest)).1 = RuneError ∧ (DecodeRune (b :: rest)).2 = 1
      · simp only [hinv, and_self, if_true] at hv
        exact absurd hv (by decide)
      · simp only [if_neg hinv] at hv
        have hinv' : ¬ ((DecodeRune (b :: rest)).2 = 1 ∧ (DecodeRune (b :: rest)).1 = RuneError) :=
          fun h => hinv ⟨h.2, h.1⟩
        obtain ⟨he, hvr⟩ := AppendRune_of_decoded _ _ _ hd hinv'
        have hw := Decoded_width _ _ _ hd
        have hsmall : (DecodeRune (b :: rest)).1 < 0x80 →
            (DecodeRune (b :: rest)).1 = b.val := Decoded_small b rest _ _ hd
        have hb0 := hb b (List.mem_cons_self _ _)
        have htok : Tok (AppendRune (DecodeRune (b :: rest)).1)
            (AppendRune (DecodeRune (b :: rest)).1) :=
          .raw _ hvr (fun h => hb0.1 (by rw [← hsmall (by omega)]; exact h))
            (fun h => hb0.2.1 (by rw [← hsmall (by omega)]; exact h))
            (fun h => hb0.2.2 (by rw [← hsmall (by omega)]; exact h))
        have hrest := ih ((b :: rest).drop (DecodeRune (b :: rest)).2)
          (by simp only [List.length_drop, List.length_cons] at hlen ⊢; omega) hv
          (fun c hc => hb c (List.mem_of_mem_drop hc))
        have := Quoted.cons _ _ _ _ htok hrest
        rwa [he, List.take_append_drop] at this

/-- Scanning a quoted body between its quotes gives the string it stands for. -/
theorem Sscanf_quoted (body s : List Byte) (hq : Quoted body s) :
    Sscanf (byte 0x22 :: body ++ [byte 0x22]) = .ok s := by
  have hscan := Scans_quoted _ _ hq [] _ (Nat.lt_succ_self _)
  have hun := Unquote_quoted _ _ hq
  rw [Sscanf]
  simp only [List.cons_append, SkipSpace_quote, quotedString]
  rw [getRune_ascii _ _ (by decide)]
  have h1 : ¬ ((byte 0x22).val = 0x60) := by decide
  have h2 : (byte 0x22).val = 0x22 := by decide
  simp only [if_neg h1, if_pos h2, hscan]
  rw [← List.cons_append, hun]

/-- Scanning a name without characters that need escaping, enclosed in quotes. -/
theorem Sscanf_NoEscape (s : GoString) (h : NoEscape s) :
    Sscanf (byte 0x22 :: s ++ [byte 0x22]) = .ok s :=
  Sscanf_quoted s s (Quoted_self _ s (Nat.lt_succ_self _) h.1
    (fun b hb => ⟨(h.2 b hb).2.1, (h.2 b hb).2.2, by have := (h.2 b hb).1; omega⟩))

/-- The loop of `appendQuotedWith` copies plain bytes. -/
theorem quoteLoop_plain (env : Env) (fuel : Nat) :
    ∀ s : GoString, s.length < fuel → (∀ b ∈ s, isPlain b = true) →
      quoteLoop env fuel s = s := by
  induction fuel with
  | zero => intro s h; omega
  | succ fuel ih =>
    intro s hlen hp
    cases s with
    | nil => rw [quoteLoop]
    | cons b rest =>
      have hb := hp b (List.mem_cons_self _ _)
      simp only [isPlain, Bool.and_eq_true, decide_eq_true_eq, ne_eq, decide_not,
        Bool.not_eq_true', decide_eq_false_iff_not] at hb
      obtain ⟨⟨⟨h1, h2⟩, h3⟩, h4⟩ := hb
      have hge : ¬ b.val ≥ 0x80 := by omega
      have hne : ¬ ((b.val, 1).2 = 1 ∧ (b.val, 1).1 = RuneError) := by
        simp only [RuneError]; omega
      have hq : ¬ (b.val = 0x22 ∨ b.val = 0x5C) := by omega
      have hpr : IsPrint env b.val = true :=
        (IsPrint_ascii env _ (by omega)).2 (Or.inl ⟨h1, h2⟩)
      rw [quoteLoop]
      simp only [if_neg hge, if_neg hne, appendEscapedRune, if_neg hq, hpr, if_true]
      rw [AppendRune_one _ (by omega), byte_val_self, List.drop_one, List.tail_cons,
        ih rest (by simp only [List.length_cons] at hlen; omega)
          (fun c hc => hp c (List.mem_cons_of_mem _ hc))]
      have hne' : ¬ (True ∧ b.val = RuneError) := by
        simp only [RuneError]; omega
      rw [if_neg hne']
      rfl

/-- A plain name between quotes is a JSON string literal. -/
theorem jsonStringTail_plain (s : GoString) (hp : ∀ b ∈ s, isPlain b = true) :
    jsonStringTail (s ++ [byte 0x22]) = true := by
  induction s with
  | nil => decide
  | cons c s ih =>
    have hb := hp c (List.mem_cons_self _ _)
    simp only [isPlain, Bool.and_eq_true, decide_eq_true_eq, ne_eq, decide_not,
      Bool.not_eq_true', decide_eq_false_iff_not] at hb
    obtain ⟨⟨⟨h1, h2⟩, h3⟩, h4⟩ := hb
    have ih' := ih (fun c hc => hp c (List.mem_cons_of_mem _ hc))
    cases hs : s ++ [byte 0x22] with
    | nil => simp at hs
    | cons e rest =>
      rw [hs] at ih'
      have h5 : ¬ c.val < 0x20 := by omega
      rw [List.cons_append, hs, jsonStringTail.eq_def]
      simp only [if_neg h3, if_neg h4, if_neg h5, ih']

/-- The resolver returns errors of its own kind only. -/
theorem LoadLocation_error (env : Env) (s : GoString) (e : Error)
    (h : Time.LoadLocation env s = .error e) : ∃ msg, e = .location msg := by
  unfold Time.LoadLocation at h
  split at h
  · cases h
  · split at h
    · cases h
    · split at h
      · injection h with h; exact ⟨_, h.symm⟩
      · split at h
        · cases h
        · injection h with h; exact ⟨_, h.symm⟩

/-! ## The scanner and `unquote` read the same string literals -/

/-- One round of the loop of `unquote`. -/
theorem unquoteLoop_step (f : Nat) (c : Byte) (t : GoString) (hc : c ≠ byte 0x22) :
    unquoteLoop (byte 0x22) (f + 1) (c :: t) =
      match UnquoteChar (c :: t) (byte 0x22) with
      | none => none
      | some (r, mb, rem) =>
        if c.val = 0x0A then none
        else (unquoteLoop (byte 0x22) f rem).map (fun p => (unquoted r mb ++ p.1, p.2)) := by
  rw [unquoteLoop, if_neg hc]
  cases hu : UnquoteChar (c :: t) (byte 0x22) with
  | none => rfl
  | some p =>
    obtain ⟨r, mb, rem⟩ := p
    simp only
    by_cases hn : c.val = 0x0A
    · rw [if_pos hn, if_pos hn]
    · rw [if_neg hn, if_neg hn]
      have hq : ¬ ((byte 0x22).val = 0x27) := by decide
      rw [if_neg hq]
      cases unquoteLoop (byte 0x22) f rem with
      | none => rfl
      | some p => rfl

/-- The closing quote as the last byte, after one more token. -/
theorem lastQuote_map (o : Option (List Byte × GoString)) (out : List Byte) :
    lastQuote (o.map (fun p => (out ++ p.1, p.2))) = (lastQuote o).map (out ++ ·) := by
  cases o with
  | none => rfl
  | some p =>
    obtain ⟨b, rem⟩ := p
    cases rem with
    | nil => rfl
    | cons c rem =>
      cases rem with
      | nil => rfl
      | cons _ _ => rfl

/-- The closing quote, after one more token. -/
theorem firstQuote_map (o : Option (List Byte × GoString)) (out : List Byte) :
    firstQuote (o.map (fun p => (out ++ p.1, p.2))) = (firstQuote o).map (out ++ ·) := by
  cases o with
  | none => rfl
  | some p =>
    obtain ⟨b, rem⟩ := p
    cases rem with
    | nil => rfl
    | cons c rem => rfl

/-- The scan of a double-quoted string ends its buffer with the closing quote. -/
theorem doubleQuotedLoop_mem (f : Nat) :
    ∀ (x buf : GoString), doubleQuotedLoop f x = .ok buf → byte 0x22 ∈ buf := by
  induction f with
  | zero => intro x buf h; simp [doubleQuotedLoop] at h
  | succ f ih =>
    intro x buf h
    rw [doubleQuotedLoop] at h
    cases hg : getRune x with
    | none => rw [hg] at h; cases h
    | some p =>
      obtain ⟨r, rest⟩ := p
      rw [hg] at h
      simp only at h
      by_cases h1 : r = 0x5C
      · rw [if_pos h1] at h
        cases hg2 : getRune rest with
        | none => rw [hg2] at h; cases h
        | some p2 =>
          obtain ⟨r2, rest2⟩ := p2
          rw [hg2] at h
          simp only at h
          cases hd : doubleQuotedLoop f rest2 with
          | error e => rw [hd] at h; cases h
          | ok b =>
            rw [hd] at h
            simp only [Except.ok.injEq] at h
            rw [← h]
            exact List.mem_append_right _ (ih _ _ hd)
      · rw [if_neg h1] at h
        by_cases h2 : r = 0x22
        · rw [if_pos h2] at h
          simp only [Except.ok.injEq] at h
          rw [← h, h2, AppendRune_one _ (by omega)]
          simp
        · rw [if_neg h2] at h
          cases hd : doubleQuotedLoop f rest with
          | error e => rw [hd] at h; cases h
          | ok b =>
            rw [hd] at h
            simp only [Except.ok.injEq] at h
            rw [← h]
            exact List.mem_append_right _ (ih _ _ hd)

/-- The loop of `unquote` stops at the end of the input or at a quote. -/
theorem unquoteLoop_stop (f : Nat) :
    ∀ (x out : List Byte) (c : Byte) (t : GoString),
      unquoteLoop (byte 0x22) f x = some (out, c :: t) → c = byte 0x22 := by
  induction f with
  | zero => intro x out c t h; simp [unquoteLoop] at h
  | succ f ih =>
    intro x out c t h
    cases x with
    | nil => simp [unquoteLoop] at h
    | cons a x =>
      by_cases ha : a = byte 0x22
      · rw [unquoteLoop, if_pos ha] at h
        simp only [Option.some.injEq, Prod.mk.injEq, List.cons.injEq] at h
        rw [← h.2.1, ha]
      · rw [unquoteLoop_step f a x ha] at h
        cases hu : UnquoteChar (a :: x) (byte 0x22) with
        | none => rw [hu] at h; cases h
        | some p =>
          obtain ⟨r, mb, rem⟩ := p
          rw [hu] at h
          simp only at h
          split_ifs at h
          cases hl : unquoteLoop (byte 0x22) f rem with
          | none => rw [hl] at h; cases h
          | some p =>
            obtain ⟨o, rr⟩ := p
            rw [hl] at h
            simp only [Option.map_some', Option.some.injEq, Prod.mk.injEq] at h
            rw [h.2] at hl
            exact ih _ _ _ _ hl

/-- Where `index` finds the byte. -/
theorem index_split (l : List Byte) (q : Byte) :
    ∀ i, index l q = some i →
      ∃ pre post, l = pre ++ q :: post ∧ pre.length = i ∧ ∀ b ∈ pre, b ≠ q := by
  induction l with
  | nil => intro i h; simp [index] at h
  | cons a l ih =>
    intro i h
    rw [index] at h
    by_cases ha : a = q
    · rw [if_pos ha] at h
      simp only [Option.some.injEq] at h
      exact ⟨[], l, by simp [ha], by simp [h], by simp⟩
    · rw [if_neg ha] at h
      cases hi : index l q with
      | none => rw [hi] at h; simp at h
      | some j =>
        rw [hi] at h
        simp only [Option.map_some', Option.some.injEq] at h
        obtain ⟨pre, post, e, hl, hp⟩ := ih j hi
        refine ⟨a :: pre, post, by simp [e], by simp [hl, h], ?_⟩
        intro b hb
        rcases List.mem_cons.1 hb with rfl | hb
        · exact ha
        · exact hp b hb

/-- On a buffer that holds a quote, `Unquote` returns what its loop reads, when the
loop stops at the last byte. -/
theorem Unquote_slow (buf : GoString) (hq : byte 0x22 ∈ buf) :
    Unquote (byte 0x22 :: buf)
      = lastQuote (unquoteLoop (byte 0x22) (buf.length + 1) buf) := by
  obtain ⟨i, hi⟩ := index_mem buf (byte 0x22) hq
  obtain ⟨pre, post, e, hl, hp⟩ := index_split buf (byte 0x22) i hi
  have hq1 : ¬ ((byte 0x22).val = 0x60) := by decide
  have hq2 : (byte 0x22).val = 0x22 ∨ (byte 0x22).val = 0x27 := Or.inl (by decide)
  have hq3 : (byte 0x22).val = 0x22 := by decide
  cases hb : buf with
  | nil => rw [hb] at hq; simp at hq
  | cons c tl =>
    rw [Unquote]
    rw [hb] at hi
    simp only [unquote, hi, if_neg hq1, if_pos hq2, if_pos hq3]
    rw [← hb]
    split_ifs with hfast
    · have e1 : ((byte 0x22 :: buf).drop 1).take (i + 2 - 2) = pre := by
        rw [List.drop_one, List.tail_cons, e, ← hl]
        simp
      have e2 : (byte 0x22 :: buf).drop (i + 2) = post := by
        rw [e, ← hl]
        simp
      have e3 : (byte 0x22 :: buf).take (i + 2) = byte 0x22 :: pre ++ [byte 0x22] := by
        rw [e, ← hl]
        simp [List.take_append_eq_append_take]
      rw [e1, e3] at hfast
      obtain ⟨hall, hvalid⟩ := hfast
      rw [List.all_eq_true] at hall
      have hpre : ∀ b ∈ pre, b.val ≠ 0x22 ∧ b.val ≠ 0x5C ∧ b.val ≠ 0x0A := by
        intro b hb
        have h2 := hall b (by simp [hb])
        simp only [ne_eq, decide_not, Bool.decide_and, Bool.and_eq_true, Bool.not_eq_eq_eq_not,
          Bool.not_true, decide_eq_false_iff_not] at h2
        refine ⟨fun h => hp b hb (byte_eq b 0x22 h.symm).symm, h2.1, h2.2⟩
      have hQ := Quoted_self _ pre (Nat.lt_succ_self _) hvalid hpre
      have hslow := unquoteLoop_quoted pre pre hQ post (buf.length + 1) (by rw [e]; omega)
      rw [← e] at hslow
      rw [hslow, e1, e2]
      cases post with
      | nil => rfl
      | cons a post => simp [lastQuote]
    · cases hu : unquoteLoop (byte 0x22) (buf.length + 1) buf with
      | none => rfl
      | some p =>
        obtain ⟨out, rem⟩ := p
        cases rem with
        | nil => rfl
        | cons a rem =>
          have ha := unquoteLoop_stop _ _ _ _ _ hu
          subst ha
          cases rem with
          | nil => simp [lastQuote]
          | cons a' rem => simp [lastQuote]

/-- A rune decoded from a byte above ASCII is above ASCII and valid. -/
theorem DecodeRune_high (c : Byte) (t : GoString) (hc : 0x80 ≤ c.val) :
    0x80 ≤ (DecodeRune (c :: t)).1 ∧ ValidRune (DecodeRune (c :: t)).1 = true := by
  have hd := DecodeRune_decoded c t
  by_cases hinv : (DecodeRune (c :: t)).2 = 1 ∧ (DecodeRune (c :: t)).1 = RuneError
  · rw [hinv.2]
    exact ⟨by decide, by decide⟩
  · obtain ⟨-, hv⟩ := AppendRune_of_decoded _ _ _ hd hinv
    refine ⟨?_, hv⟩
    by_contra hlt
    have := Decoded_small c t _ _ hd (by omega)
    omega

/-- The scan at the end of the input. -/
theorem doubleQuotedLoop_nil (f : Nat) : ∃ e, doubleQuotedLoop f [] = .error e := by
  cases f with
  | zero => exact ⟨_, rfl⟩
  | succ f => exact ⟨_, rfl⟩

/-- The scan at the closing quote. -/
theorem doubleQuotedLoop_quote (f : Nat) (t : GoString) :
    doubleQuotedLoop (f + 1) (byte 0x22 :: t) = .ok [byte 0x22] := by
  rw [doubleQuotedLoop, getRune_ascii _ _ (by decide)]
  simp [AppendRune_one]

/-- The scan at an ASCII byte that is neither a quote nor a backslash. -/
theorem doubleQuotedLoop_ascii (f : Nat) (c : Byte) (t : GoString) (hc : c.val < 0x80)
    (h1 : c.val ≠ 0x22) (h2 : c.val ≠ 0x5C) :
    doubleQuotedLoop (f + 1) (c :: t) = (doubleQuotedLoop f t).map (c :: ·) := by
  rw [doubleQuotedLoop, getRune_ascii _ _ hc]
  simp only [if_neg h2, if_neg h1]
  rw [AppendRune_one _ (by omega), byte_val_self]
  cases doubleQuotedLoop f t with
  | error e => rfl
  | ok b => rfl

/-- The scan at a byte above ASCII. -/
theorem doubleQuotedLoop_high (f : Nat) (c : Byte) (t : GoString) (hc : 0x80 ≤ c.val) :
    doubleQuotedLoop (f + 1) (c :: t)
      = (doubleQuotedLoop f ((c :: t).drop (DecodeRune (c :: t)).2)).map
          (AppendRune (DecodeRune (c :: t)).1 ++ ·) := by
  have hr := (DecodeRune_high c t hc).1
  have h1 : ¬ (DecodeRune (c :: t)).1 = 0x5C := by omega
  have h2 : ¬ (DecodeRune (c :: t)).1 = 0x22 := by omega
  rw [doubleQuotedLoop, getRune]
  simp only [if_neg h1, if_neg h2]
  cases doubleQuotedLoop f ((c :: t).drop (DecodeRune (c :: t)).2) with
  | error e => rfl
  | ok b => rfl

/-- The scan at a backslash that ends the input. -/
theorem doubleQuotedLoop_backslash_nil (f : Nat) :
    ∃ e, doubleQuotedLoop f [byte 0x5C] = .error e := by
  cases f with
  | zero => exact ⟨_, rfl⟩
  | succ f =>
    rw [doubleQuotedLoop, getRune_ascii _ _ (by decide)]
    exact ⟨_, rfl⟩

/-- The scan at a backslash before an ASCII byte. -/
theorem doubleQuotedLoop_backslash (f : Nat) (e : Byte) (t : GoString) (he : e.val < 0x80) :
    doubleQuotedLoop (f + 1) (byte 0x5C :: e :: t)
      = (doubleQuotedLoop f t).map (fun b => byte 0x5C :: e :: b) := by
  rw [doubleQuotedLoop, getRune_ascii _ _ (by decide), byte_val]
  simp only [Nat.reduceMod, if_true]
  rw [getRune_ascii _ _ he]
  simp only
  rw [AppendRune_one _ (by omega), AppendRune_one _ (by omega), byte_val_self]
  cases doubleQuotedLoop f t with
  | error e => rfl
  | ok b => rfl

/-- The scan at a backslash before a byte above ASCII. -/
theorem doubleQuotedLoop_backslash_high (f : Nat) (e : Byte) (t : GoString) :
    doubleQuotedLoop (f + 1) (byte 0x5C :: e :: t)
      = (doubleQuotedLoop f ((e :: t).drop (DecodeRune (e :: t)).2)).map
          (fun b => byte 0x5C :: (AppendRune (DecodeRune (e :: t)).1 ++ b)) := by
  rw [doubleQuotedLoop, getRune_ascii _ _ (by decide), byte_val]
  simp only [Nat.reduceMod, if_true]
  rw [getRune]
  simp only
  rw [AppendRune_one _ (by omega)]
  cases doubleQuotedLoop f ((e :: t).drop (DecodeRune (e :: t)).2) with
  | error e => rfl
  | ok b => rfl

/-- The scan copies ASCII bytes that are neither quotes nor backslashes. -/
theorem doubleQuotedLoop_plain (digits : List Byte)
    (hd : ∀ d ∈ digits, d.val < 0x80 ∧ d.val ≠ 0x22 ∧ d.val ≠ 0x5C) (s : GoString) :
    ∀ f f', (digits ++ s).length < f → s.length < f' →
      doubleQuotedLoop f (digits ++ s) = (doubleQuotedLoop f' s).map (digits ++ ·) := by
  induction digits with
  | nil =>
    intro f f' h h'
    rw [List.nil_append, doubleQuotedLoop_fuel f f' s (by simpa using h) h']
    cases doubleQuotedLoop f' s with
    | error e => rfl
    | ok b => rfl
  | cons d digits ih =>
    intro f f' h h'
    obtain ⟨g, rfl⟩ : ∃ g, f = g + 1 := ⟨f - 1, by simp at h; omega⟩
    obtain ⟨a, b, c⟩ := hd d (List.mem_cons_self _ _)
    rw [List.cons_append, doubleQuotedLoop_ascii g d _ a b c,
      ih (fun x hx => hd x (List.mem_cons_of_mem _ hx)) g f' (by simp at h ⊢; omega) h']
    cases doubleQuotedLoop f' s with
    | error e => rfl
    | ok b => rfl

/-- A hexadecimal digit is an ASCII byte, no quote and no backslash. -/
theorem unhex_plain (n x : Nat) (h : unhex n = some x) :
    n < 0x80 ∧ n ≠ 0x22 ∧ n ≠ 0x5C := by
  unfold unhex at h
  split_ifs at h <;> omega

/-- The digits `hexValue` reads. -/
theorem hexValue_split (n : Nat) :
    ∀ (v : Nat) (t : GoString) (v' : Nat) (s : GoString), hexValue n v t = some (v', s) →
      ∃ digits, t = digits ++ s
        ∧ (∀ d ∈ digits, d.val < 0x80 ∧ d.val ≠ 0x22 ∧ d.val ≠ 0x5C)
        ∧ ∀ t2, hexValue n v (digits ++ t2) = some (v', t2) := by
  induction n with
  | zero =>
    intro v t v' s h
    simp only [hexValue, Option.some.injEq, Prod.mk.injEq] at h
    exact ⟨[], by simp [h.2], by simp, fun t2 => by simp [hexValue, h.1]⟩
  | succ n ih =>
    intro v t v' s h
    cases t with
    | nil => simp [hexValue] at h
    | cons c t =>
      rw [hexValue] at h
      cases hu : unhex c.val with
      | none => rw [hu] at h; cases h
      | some x =>
        rw [hu] at h
        obtain ⟨digits, e, hd, hh⟩ := ih _ _ _ _ h
        refine ⟨c :: digits, by simp [e], ?_, fun t2 => ?_⟩
        · intro d hd'
          rcases List.mem_cons.1 hd' with rfl | hd'
          · exact unhex_plain _ _ hu
          · exact hd d hd'
        · rw [List.cons_append, hexValue, hu]
          exact hh t2

/-- The digits `octValue` reads. -/
theorem octValue_split (n : Nat) :
    ∀ (v : Nat) (t : GoString) (v' : Nat) (s : GoString), octValue n v t = some (v', s) →
      ∃ digits, t = digits ++ s
        ∧ (∀ d ∈ digits, d.val < 0x80 ∧ d.val ≠ 0x22 ∧ d.val ≠ 0x5C)
        ∧ ∀ t2, octValue n v (digits ++ t2) = some (v', t2) := by
  induction n with
  | zero =>
    intro v t v' s h
    simp only [octValue, Option.some.injEq, Prod.mk.injEq] at h
    exact ⟨[], by simp [h.2], by simp, fun t2 => by simp [octValue, h.1]⟩
  | succ n ih =>
    intro v t v' s h
    cases t with
    | nil => simp [octValue] at h
    | cons c t =>
      rw [octValue] at h
      by_cases hc : 0x30 ≤ c.val ∧ c.val ≤ 0x37
      · rw [if_pos hc] at h
        obtain ⟨digits, e, hd, hh⟩ := ih _ _ _ _ h
        refine ⟨c :: digits, by simp [e], ?_, fun t2 => ?_⟩
        · intro d hd'
          rcases List.mem_cons.1 hd' with rfl | hd'
          · omega
          · exact hd d hd'
        · rw [List.cons_append, octValue, if_pos hc]
          exact hh t2
      · rw [if_neg hc] at h
        cases h

/-- The first byte the scan writes: the byte read when it is ASCII, a byte above ASCII
otherwise; after an ASCII byte that is neither a quote nor a backslash the rest of
the buffer is the scan of the rest of the input. -/
theorem doubleQuotedLoop_head (f : Nat) (d : Byte) (t buf : GoString)
    (h : doubleQuotedLoop f (d :: t) = .ok buf) :
    ∃ d' b, buf = d' :: b ∧ (d.val < 0x80 → d' = d) ∧ (0x80 ≤ d.val → 0x80 ≤ d'.val)
      ∧ (d.val < 0x80 → d.val ≠ 0x22 → d.val ≠ 0x5C → doubleQuotedLoop (f - 1) t = .ok b) := by
  cases f with
  | zero => simp [doubleQuotedLoop] at h
  | succ f =>
    by_cases hd : 0x80 ≤ d.val
    · rw [doubleQuotedLoop_high f d t hd] at h
      cases hs : doubleQuotedLoop f ((d :: t).drop (DecodeRune (d :: t)).2) with
      | error e => rw [hs] at h; cases h
      | ok b =>
        rw [hs] at h
        obtain ⟨c, rest, hc, hc80⟩ := AppendRune_head (DecodeRune (d :: t)).1
          (by have := (DecodeRune_high d t hd).1; omega)
        simp only [Except.map, Except.ok.injEq] at h
        rw [hc] at h
        exact ⟨c, rest ++ b, by rw [← h]; rfl, fun h' => by omega, fun _ => hc80,
          fun h' => by omega⟩
    by_cases hq : d.val = 0x22
    · have e : d = byte 0x22 := (byte_eq d 0x22 hq.symm).symm
      rw [e, doubleQuotedLoop_quote] at h
      simp only [Except.ok.injEq] at h
      exact ⟨byte 0x22, [], h.symm, fun _ => e.symm, fun h' => by omega,
        fun _ h' => absurd hq h'⟩
    by_cases hb : d.val = 0x5C
    · have e : d = byte 0x5C := (byte_eq d 0x5C hb.symm).symm
      subst e
      cases t with
      | nil =>
        obtain ⟨e, he⟩ := doubleQuotedLoop_backslash_nil (f + 1)
        rw [he] at h
        cases h
      | cons e t =>
        by_cases he : e.val < 0x80
        · rw [doubleQuotedLoop_backslash f e t he] at h
          cases hs : doubleQuotedLoop f t with
          | error e => rw [hs] at h; cases h
          | ok b =>
            rw [hs] at h
            simp only [Except.map, Except.ok.injEq] at h
            exact ⟨byte 0x5C, e :: b, h.symm, fun _ => rfl, fun h' => by omega,
              fun _ _ h' => absurd hb h'⟩
        · rw [doubleQuotedLoop_backslash_high f e t] at h
          cases hs : doubleQuotedLoop f ((e :: t).drop (DecodeRune (e :: t)).2) with
          | error e => rw [hs] at h; cases h
          | ok b =>
            rw [hs] at h
            simp only [Except.map, Except.ok.injEq] at h
            exact ⟨byte 0x5C, _, h.symm, fun _ => rfl, fun h' => by omega,
              fun _ _ h' => absurd hb h'⟩
    · rw [doubleQuotedLoop_ascii f d t (by omega) hq hb] at h
      cases hs : doubleQuotedLoop f t with
      | error e => rw [hs] at h; cases h
      | ok b =>
        rw [hs] at h
        simp only [Except.map, Except.ok.injEq] at h
        exact ⟨d, b, h.symm, fun _ => rfl, fun h' => by omega, fun _ _ _ => hs⟩

/-- No byte above ASCII is a hexadecimal digit. -/
theorem unhex_high (n : Nat) (h : 0x80 ≤ n) : unhex n = none := by
  unfold unhex
  rw [if_neg (by omega), if_neg (by omega), if_neg (by omega)]

/-- Digits that `hexValue` rejects in the input it rejects in the scanned buffer. -/
theorem hexValue_none_scan (n : Nat) :
    ∀ (v : Nat) (t : GoString) (f : Nat) (buf : GoString), hexValue n v t = none →
      doubleQuotedLoop f t = .ok buf → hexValue n v buf = none := by
  induction n with
  | zero => intro v t f buf h; simp [hexValue] at h
  | succ n ih =>
    intro v t f buf h hs
    cases t with
    | nil =>
      obtain ⟨e, he⟩ := doubleQuotedLoop_nil f
      rw [he] at hs
      cases hs
    | cons d t =>
      obtain ⟨d', b, rfl, h1, h2, h3⟩ := doubleQuotedLoop_head f d t buf hs
      rw [hexValue] at h ⊢
      by_cases hd : 0x80 ≤ d.val
      · rw [unhex_high _ (h2 hd)]
      · have e := h1 (by omega)
        subst e
        cases hu : unhex d'.val with
        | none => rfl
        | some x =>
          rw [hu] at h
          obtain ⟨a, b', c⟩ := unhex_plain _ _ hu
          exact ih _ t _ b h (h3 a b' c)

/-- Digits that `octValue` rejects in the input it rejects in the scanned buffer. -/
theorem octValue_none_scan (n : Nat) :
    ∀ (v : Nat) (t : GoString) (f : Nat) (buf : GoString), octValue n v t = none →
      doubleQuotedLoop f t = .ok buf → octValue n v buf = none := by
  induction n with
  | zero => intro v t f buf h; simp [octValue] at h
  | succ n ih =>
    intro v t f buf h hs
    cases t with
    | nil =>
      obtain ⟨e, he⟩ := doubleQuotedLoop_nil f
      rw [he] at hs
      cases hs
    | cons d t =>
      obtain ⟨d', b, rfl, h1, h2, h3⟩ := doubleQuotedLoop_head f d t buf hs
      rw [octValue] at h ⊢
      by_cases hd : 0x80 ≤ d.val
      · have := h2 hd
        rw [if_neg (by omega)]
      · have e := h1 (by omega)
        subst e
        by_cases ho : 0x30 ≤ d'.val ∧ d'.val ≤ 0x37
        · rw [if_pos ho] at h ⊢
          exact ih _ t _ b h (h3 (by omega) (by omega) (by omega))
        · rw [if_neg ho]

/-- The function `UnquoteChar` at a backslash. -/
theorem UnquoteChar_backslash (c : Byte) (s : GoString) :
    UnquoteChar (byte 0x5C :: c :: s) (byte 0x22) =
        if c.val = 0x61 then some (7, false, s)
        else if c.val = 0x62 then some (8, false, s)
        else if c.val = 0x66 then some (12, false, s)
        else if c.val = 0x6E then some (10, false, s)
        else if c.val = 0x72 then some (13, false, s)
        else if c.val = 0x74 then some (9, false, s)
        else if c.val = 0x76 then some (11, false, s)
        else if c.val = 0x78 ∨ c.val = 0x75 ∨ c.val = 0x55 then
          match hexValue (if c.val = 0x78 then 2 else if c.val = 0x75 then 4 else 8) 0 s with
          | none => none
          | some (v, s) =>
            if c.val = 0x78 then some (v, false, s)
            else if !ValidRune v then none
            else some (v, true, s)
        else if 0x30 ≤ c.val ∧ c.val ≤ 0x37 then
          match octValue 2 (c.val - 0x30) s with
          | none => none
          | some (v, s) => if v > 255 then none else some (v, false, s)
        else if c.val = 0x5C then some (0x5C, false, s)
        else if c.val = 0x27 ∨ c.val = 0x22 then
          if c ≠ byte 0x22 then none else some (c.val, false, s)
        else none := by
  have h1 : ¬ (byte 0x5C = byte 0x22 ∧ ((byte 0x22).val = 0x27 ∨ (byte 0x22).val = 0x22)) := by
    decide
  have h2 : ¬ ((byte 0x5C).val ≥ 0x80) := by decide
  have h3 : ¬ ((byte 0x5C).val ≠ 0x5C) := by decide
  rw [UnquoteChar]
  simp only [if_neg h1, if_neg h2, if_neg h3]

/-- An escape sequence in the input and in the scanned buffer: `UnquoteChar` rejects
both, or it reads the same ASCII digits after the two bytes in both. -/
theorem UnquoteChar_escape (e : Byte) (t : GoString) :
    (UnquoteChar (byte 0x5C :: e :: t) (byte 0x22) = none
        ∧ ∀ f buf, t.length < f → doubleQuotedLoop f t = .ok buf →
            UnquoteChar (byte 0x5C :: e :: buf) (byte 0x22) = none)
      ∨ ∃ r mb digits rem, t = digits ++ rem
          ∧ (∀ d ∈ digits, d.val < 0x80 ∧ d.val ≠ 0x22 ∧ d.val ≠ 0x5C)
          ∧ ∀ t2, UnquoteChar (byte 0x5C :: e :: (digits ++ t2)) (byte 0x22)
              = some (r, mb, t2) := by
  have simple : ∀ (r : Nat),
      (∀ t2, UnquoteChar (byte 0x5C :: e :: t2) (byte 0x22) = some (r, false, t2)) →
      ∃ r mb digits rem, t = digits ++ rem
          ∧ (∀ d ∈ digits, d.val < 0x80 ∧ d.val ≠ 0x22 ∧ d.val ≠ 0x5C)
          ∧ ∀ t2, UnquoteChar (byte 0x5C :: e :: (digits ++ t2)) (byte 0x22)
              = some (r, mb, t2) :=
    fun r h => ⟨r, false, [], t, rfl, by simp, fun t2 => h t2⟩
  by_cases k1 : e.val = 0x61
  · exact Or.inr (simple 7 (fun t2 => by rw [UnquoteChar_backslash, if_pos k1]))
  by_cases k2 : e.val = 0x62
  · exact Or.inr (simple 8 (fun t2 => by rw [UnquoteChar_backslash, if_neg k1, if_pos k2]))
  by_cases k3 : e.val = 0x66
  · exact Or.inr (simple 12 (fun t2 => by
      rw [UnquoteChar_backslash, if_neg k1, if_neg k2, if_pos k3]))
  by_cases k4 : e.val = 0x6E
  · exact Or.inr (simple 10 (fun t2 => by
      rw [UnquoteChar_backslash, if_neg k1, if_neg k2, if_neg k3, if_pos k4]))
  by_cases k5 : e.val = 0x72
  · exact Or.inr (simple 13 (fun t2 => by
      rw [UnquoteChar_backslash, if_neg k1, if_neg k2, if_neg k3, if_neg k4, if_pos k5]))
  by_cases k6 : e.val = 0x74
  · exact Or.inr (simple 9 (fun t2 => by
      rw [UnquoteChar_backslash, if_neg k1, if_neg k2, if_neg k3, if_neg k4, if_neg k5,
        if_pos k6]))
  by_cases k7 : e.val = 0x76
  · exact Or.inr (simple 11 (fun t2 => by
      rw [UnquoteChar_backslash, if_neg k1, if_neg k2, if_neg k3, if_neg k4, if_neg k5,
        if_neg k6, if_pos k7]))
  have chain : ∀ t2, UnquoteChar (byte 0x5C :: e :: t2) (byte 0x22) =
      if e.val = 0x78 ∨ e.val = 0x75 ∨ e.val = 0x55 then
          match hexValue (if e.val = 0x78 then 2 else if e.val = 0x75 then 4 else 8) 0 t2 with
          | none => none
          | some (v, s) =>
            if e.val = 0x78 then some (v, false, s)
            else if !ValidRune v then none
            else some (v, true, s)
        else if 0x30 ≤ e.val ∧ e.val ≤ 0x37 then
          match octValue 2 (e.val - 0x30) t2 with
          | none => none
          | some (v, s) => if v > 255 then none else some (v, false, s)
        else if e.val = 0x5C then some (0x5C, false, t2)
        else if e.val = 0x27 ∨ e.val = 0x22 then
          if e ≠ byte 0x22 then none else some (e.val, false, t2)
        else none := fun t2 => by
    rw [UnquoteChar_backslash, if_neg k1, if_neg k2, if_neg k3, if_neg k4, if_neg k5,
      if_neg k6, if_neg k7]
  by_cases kx : e.val = 0x78 ∨ e.val = 0x75 ∨ e.val = 0x55
  · cases hh : hexValue (if e.val = 0x78 then 2 else if e.val = 0x75 then 4 else 8) 0 t with
    | none =>
      refine Or.inl ⟨by rw [chain, if_pos kx, hh], fun f buf _ hs => ?_⟩
      rw [chain, if_pos kx, hexValue_none_scan _ _ _ _ _ hh hs]
    | some p =>
      obtain ⟨v, s⟩ := p
      obtain ⟨digits, et, hd, hall⟩ := hexValue_split _ _ _ _ _ hh
      by_cases hok : e.val = 0x78 ∨ ValidRune v = true
      · refine Or.inr ⟨v, if e.val = 0x78 then false else true, digits, s, et, hd, fun t2 => ?_⟩
        rw [chain, if_pos kx, hall t2]
        simp only
        by_cases h78 : e.val = 0x78
        · rw [if_pos h78, if_pos h78]
        · have hv : ValidRune v = true := hok.resolve_left h78
          rw [if_neg h78, if_neg h78, hv]
          rfl
      · have h78 : ¬ e.val = 0x78 := fun h => hok (Or.inl h)
        have hv : ValidRune v = false := by
          cases hvv : ValidRune v with
          | true => exact absurd (Or.inr hvv) hok
          | false => rfl
        have bad : ∀ t2, UnquoteChar (byte 0x5C :: e :: (digits ++ t2)) (byte 0x22) = none := by
          intro t2
          rw [chain, if_pos kx, hall t2]
          simp only [if_neg h78, hv]
          rfl
        refine Or.inl ⟨by rw [et]; exact bad s, fun f buf hf hs => ?_⟩
        rw [et] at hs hf
        rw [doubleQuotedLoop_plain digits hd s f (s.length + 1) hf (Nat.lt_succ_self _)] at hs
        cases hs' : doubleQuotedLoop (s.length + 1) s with
        | error err => rw [hs'] at hs; cases hs
        | ok b =>
          rw [hs'] at hs
          simp only [Except.map, Except.ok.injEq] at hs
          rw [← hs]
          exact bad b
  by_cases ko : 0x30 ≤ e.val ∧ e.val ≤ 0x37
  · cases hh : octValue 2 (e.val - 0x30) t with
    | none =>
      refine Or.inl ⟨by rw [chain, if_neg kx, if_pos ko, hh], fun f buf _ hs => ?_⟩
      rw [chain, if_neg kx, if_pos ko, octValue_none_scan _ _ _ _ _ hh hs]
    | some p =>
      obtain ⟨v, s⟩ := p
      obtain ⟨digits, et, hd, hall⟩ := octValue_split _ _ _ _ _ hh
      by_cases hv : v > 255
      · have bad : ∀ t2, UnquoteChar (byte 0x5C :: e :: (digits ++ t2)) (byte 0x22) = none := by
          intro t2
          rw [chain, if_neg kx, if_pos ko, hall t2]
          simp only [if_pos hv]
        refine Or.inl ⟨by rw [et]; exact bad s, fun f buf hf hs => ?_⟩
        rw [et] at hs hf
        rw [doubleQuotedLoop_plain digits hd s f (s.length + 1) hf (Nat.lt_succ_self _)] at hs
        cases hs' : doubleQuotedLoop (s.length + 1) s with
        | error err => rw [hs'] at hs; cases hs
        | ok b =>
          rw [hs'] at hs
          simp only [Except.map, Except.ok.injEq] at hs
          rw [← hs]
          exact bad b
      · refine Or.inr ⟨v, false, digits, s, et, hd, fun t2 => ?_⟩
        rw [chain, if_neg kx, if_pos ko, hall t2]
        simp only [if_neg hv]
  by_cases kb : e.val = 0x5C
  · exact Or.inr (simple 0x5C (fun t2 => by rw [chain, if_neg kx, if_neg ko, if_pos kb]))
  by_cases kq : e.val = 0x27 ∨ e.val = 0x22
  · by_cases heq : e = byte 0x22
    · refine Or.inr (simple e.val (fun t2 => ?_))
      rw [chain, if_neg kx, if_neg ko, if_neg kb, if_pos kq, if_neg (not_not.2 heq)]
    · refine Or.inl ⟨?_, fun f buf _ _ => ?_⟩ <;>
        rw [chain, if_neg kx, if_neg ko, if_neg kb, if_pos kq, if_pos heq]
  · refine Or.inl ⟨?_, fun f buf _ _ => ?_⟩ <;>
      rw [chain, if_neg kx, if_neg ko, if_neg kb, if_neg kq]

/-- One round of the loop of `unquote` over a token that `UnquoteChar` reads. -/
theorem unquoteLoop_token (c : Byte) (tl rem : GoString) (r : Nat) (mb : Bool)
    (hc : c ≠ byte 0x22) (hn : c.val ≠ 0x0A)
    (hu : UnquoteChar (c :: tl) (byte 0x22) = some (r, mb, rem)) :
    ∀ f f', (c :: tl).length < f → rem.length < f' →
      unquoteLoop (byte 0x22) f (c :: tl)
        = (unquoteLoop (byte 0x22) f' rem).map (fun p => (unquoted r mb ++ p.1, p.2)) := by
  intro f f' hf hf'
  obtain ⟨g, rfl⟩ : ∃ g, f = g + 1 := ⟨f - 1, by simp at hf; omega⟩
  have hl := UnquoteChar_length _ _ _ _ _ hu
  rw [unquoteLoop_step g c tl hc, hu]
  simp only [if_neg hn]
  rw [unquoteLoop_fuel (byte 0x22) g f' rem (by simp at hf hl; omega) hf']

/-- One round of the loop of `unquote` over a token that `UnquoteChar` rejects. -/
theorem unquoteLoop_reject (c : Byte) (tl : GoString) (f : Nat) (hc : c ≠ byte 0x22)
    (hu : UnquoteChar (c :: tl) (byte 0x22) = none) :
    unquoteLoop (byte 0x22) f (c :: tl) = none := by
  cases f with
  | zero => rfl
  | succ f => rw [unquoteLoop_step f c tl hc, hu]

/-- A token that the scanner copies as `tb` and that `UnquoteChar` reads as `out`, in
the scan. -/
theorem scanned_token (x rest tb out : List Byte)
    (hs : doubleQuotedLoop (x.length + 1) x
      = (doubleQuotedLoop (rest.length + 1) rest).map (tb ++ ·))
    (hu : ∀ b2, unquoteLoop (byte 0x22) ((tb ++ b2).length + 1) (tb ++ b2)
      = (unquoteLoop (byte 0x22) (b2.length + 1) b2).map (fun p => (out ++ p.1, p.2))) :
    scanned x = (scanned rest).map (out ++ ·) := by
  rw [scanned, scanned, hs]
  cases doubleQuotedLoop (rest.length + 1) rest with
  | error e => rfl
  | ok b2 =>
    simp only [Except.map]
    rw [hu b2, lastQuote_map]

/-- A token that `UnquoteChar` reads as `out`, in the literal. -/
theorem literalValue_token (x rest out : List Byte)
    (hu : unquoteLoop (byte 0x22) (x.length + 1) x
      = (unquoteLoop (byte 0x22) (rest.length + 1) rest).map (fun p => (out ++ p.1, p.2))) :
    literalValue x = (literalValue rest).map (out ++ ·) := by
  rw [literalValue, literalValue, hu, firstQuote_map]

/-- A token that the scanner copies as `tb` and that `UnquoteChar` rejects there. -/
theorem scanned_reject (x rest tb : List Byte) (c : Byte)
    (hs : doubleQuotedLoop (x.length + 1) x
      = (doubleQuotedLoop (rest.length + 1) rest).map (tb ++ ·))
    (hc : c ≠ byte 0x22)
    (hu : ∀ b2, doubleQuotedLoop (rest.length + 1) rest = .ok b2 →
      ∃ tl, tb ++ b2 = c :: tl ∧ (UnquoteChar (c :: tl) (byte 0x22) = none ∨ c.val = 0x0A)) :
    scanned x = none := by
  rw [scanned, hs]
  cases hd : doubleQuotedLoop (rest.length + 1) rest with
  | error e => rfl
  | ok b2 =>
    simp only [Except.map]
    obtain ⟨tl, e, h⟩ := hu b2 hd
    rw [e, List.length_cons, unquoteLoop_step _ c tl hc]
    cases h with
    | inl h => rw [h]; rfl
    | inr h =>
      cases hu : UnquoteChar (c :: tl) (byte 0x22) with
      | none => rfl
      | some p => simp only [if_pos h]; rfl

/-- The function `UnquoteChar` rejects a backslash that ends the input. -/
theorem UnquoteChar_backslash_nil : UnquoteChar [byte 0x5C] (byte 0x22) = none := by
  decide

/-- The function `UnquoteChar` rejects a backslash before a byte above ASCII. -/
theorem UnquoteChar_backslash_high (e : Byte) (s : GoString) (he : 0x80 ≤ e.val) :
    UnquoteChar (byte 0x5C :: e :: s) (byte 0x22) = none := by
  rw [UnquoteChar_backslash]
  rw [if_neg (by omega), if_neg (by omega), if_neg (by omega), if_neg (by omega),
    if_neg (by omega), if_neg (by omega), if_neg (by omega), if_neg (by omega),
    if_neg (by omega), if_neg (by omega), if_neg (by omega)]

/-- The scanner and the loop of `unquote` on the input itself read the same value:
the scan up to the closing quote followed by `Unquote` on the buffer is one pass of
`UnquoteChar` over the input up to the first quote that no escape sequence holds. -/
theorem scanned_literalValue (n : Nat) :
    ∀ x : GoString, x.length < n → scanned x = literalValue x := by
  induction n with
  | zero => intro x h; omega
  | succ n ih =>
    intro x hlen
    cases x with
    | nil => rfl
    | cons c t =>
      simp only [List.length_cons] at hlen
      by_cases hq : c = byte 0x22
      · subst hq
        rw [scanned, literalValue, List.length_cons, doubleQuotedLoop_quote]
        rfl
      have hqv : c.val ≠ 0x22 := fun h => hq (byte_eq c 0x22 h.symm).symm
      by_cases hhi : 0x80 ≤ c.val
      · -- a rune above ASCII
        obtain ⟨hr, hv⟩ := DecodeRune_high c t hhi
        have hw := Decoded_width _ _ _ (DecodeRune_decoded c t)
        have hrest : ((c :: t).drop (DecodeRune (c :: t)).2).length < n := by
          simp only [List.length_drop, List.length_cons]; omega
        have hu : UnquoteChar (c :: t) (byte 0x22)
            = some ((DecodeRune (c :: t)).1, true, (c :: t).drop (DecodeRune (c :: t)).2) := by
          have h1 : ¬ (c = byte 0x22 ∧ ((byte 0x22).val = 0x27 ∨ (byte 0x22).val = 0x22)) :=
            fun h => hq h.1
          simp only [UnquoteChar, if_neg h1, ge_iff_le, if_pos hhi]
        have hout : unquoted (DecodeRune (c :: t)).1 true
            = AppendRune (DecodeRune (c :: t)).1 := by
          rw [unquoted, if_neg (by simp; omega)]
        have htok : Tok (AppendRune (DecodeRune (c :: t)).1)
            (AppendRune (DecodeRune (c :: t)).1) :=
          .raw _ hv (by omega) (by omega) (by omega)
        rw [scanned_token (c :: t) _ (AppendRune (DecodeRune (c :: t)).1)
            (AppendRune (DecodeRune (c :: t)).1) ?_ ?_,
          literalValue_token (c :: t) _ (AppendRune (DecodeRune (c :: t)).1) ?_,
          ih _ hrest]
        · rw [← hout]
          exact unquoteLoop_token c t _ _ _ hq (by omega) hu _ _ (Nat.lt_succ_self _)
            (Nat.lt_succ_self _)
        · rw [List.length_cons, doubleQuotedLoop_high _ c t hhi]
          rw [doubleQuotedLoop_fuel (t.length + 1) _ _ (by
            simp only [List.length_drop, List.length_cons]; omega) (Nat.lt_succ_self _)]
        · intro b2
          obtain ⟨r', mb', hu', hout'⟩ := UnquoteChar_tok _ _ htok b2
          obtain ⟨c', tl', hc', hc80⟩ := AppendRune_head (DecodeRune (c :: t)).1 (by omega)
          have e : AppendRune (DecodeRune (c :: t)).1 ++ b2 = c' :: (tl' ++ b2) := by
            rw [hc']; rfl
          rw [e] at hu' ⊢
          have key := unquoteLoop_token c' (tl' ++ b2) b2 r' mb'
            (by rintro rfl; simp at hc80) (by omega) hu' _ _
            (Nat.lt_succ_self _) (Nat.lt_succ_self _)
          rw [hout'] at key
          exact key
      by_cases hbs : c.val = 0x5C
      · -- an escape sequence
        have e : c = byte 0x5C := (byte_eq c 0x5C hbs.symm).symm
        subst e
        cases t with
        | nil =>
          obtain ⟨err, herr⟩ := doubleQuotedLoop_backslash_nil ([byte 0x5C].length + 1)
          rw [scanned, herr, literalValue,
            unquoteLoop_reject _ _ _ hq UnquoteChar_backslash_nil]
          rfl
        | cons e t =>
          by_cases he : 0x80 ≤ e.val
          · rw [literalValue, unquoteLoop_reject _ _ _ hq (UnquoteChar_backslash_high e t he)]
            have hr := (DecodeRune_high e t he).1
            obtain ⟨c', tl', hc', hc80⟩ := AppendRune_head (DecodeRune (e :: t)).1 (by omega)
            refine scanned_reject _ ((e :: t).drop (DecodeRune (e :: t)).2)
              (byte 0x5C :: AppendRune (DecodeRune (e :: t)).1) (byte 0x5C) ?_ hq
              (fun b2 _ => ⟨_, rfl, Or.inl ?_⟩)
            · rw [List.length_cons, doubleQuotedLoop_backslash_high]
              have hw := Decoded_width _ _ _ (DecodeRune_decoded e t)
              rw [doubleQuotedLoop_fuel _ _ _ (by
                simp only [List.length_drop, List.length_cons]; omega) (Nat.lt_succ_self _)]
              rfl
            · rw [hc']
              exact UnquoteChar_backslash_high c' _ hc80
          · have hscan : doubleQuotedLoop ((byte 0x5C :: e :: t).length + 1) (byte 0x5C :: e :: t)
                = (doubleQuotedLoop (t.length + 1) t).map ([byte 0x5C, e] ++ ·) := by
              rw [List.length_cons, doubleQuotedLoop_backslash _ e t (by omega)]
              rw [doubleQuotedLoop_fuel _ (t.length + 1) t (by
                simp only [List.length_cons]; omega) (Nat.lt_succ_self _)]
              rfl
            rcases UnquoteChar_escape e t with ⟨hnone, hbuf⟩ | ⟨r, mb, digits, rem, et, hd, hall⟩
            · rw [literalValue, unquoteLoop_reject _ _ _ hq hnone]
              exact scanned_reject _ t [byte 0x5C, e] (byte 0x5C) hscan hq
                (fun b2 hb2 => ⟨_, rfl, Or.inl (hbuf _ b2 (Nat.lt_succ_self _) hb2)⟩)
            · subst et
              have hrem : rem.length < n := by
                simp only [List.length_cons, List.length_append] at hlen; omega
              rw [scanned_token (byte 0x5C :: e :: (digits ++ rem)) rem
                  (byte 0x5C :: e :: digits) (unquoted r mb) ?_ ?_,
                literalValue_token (byte 0x5C :: e :: (digits ++ rem)) rem (unquoted r mb) ?_,
                ih _ hrem]
              · exact unquoteLoop_token _ _ _ _ _ hq (by decide) (hall rem) _ _
                  (Nat.lt_succ_self _) (Nat.lt_succ_self _)
              · rw [hscan, doubleQuotedLoop_plain digits hd rem _ (rem.length + 1)
                  (Nat.lt_succ_self _) (Nat.lt_succ_self _)]
                cases doubleQuotedLoop (rem.length + 1) rem with
                | error e => rfl
                | ok b => simp [Except.map]
              · intro b2
                have := unquoteLoop_token (byte 0x5C) (e :: (digits ++ b2)) b2 r mb hq
                  (by decide) (hall b2) ((byte 0x5C :: e :: digits ++ b2).length + 1)
                  (b2.length + 1) (by simp) (Nat.lt_succ_self _)
                simpa using this
      · -- an ASCII byte
        have hscan : doubleQuotedLoop ((c :: t).length + 1) (c :: t)
            = (doubleQuotedLoop (t.length + 1) t).map ([c] ++ ·) := by
          rw [List.length_cons, doubleQuotedLoop_ascii _ c t (by omega) hqv hbs]
          rfl
        have hu : ∀ t2, UnquoteChar (c :: t2) (byte 0x22) = some (c.val, false, t2) := by
          intro t2
          have h1 : ¬ (c = byte 0x22 ∧ ((byte 0x22).val = 0x27 ∨ (byte 0x22).val = 0x22)) :=
            fun h => hq h.1
          simp only [UnquoteChar, if_neg h1, ge_iff_le, if_neg hhi, ne_eq, hbs,
            not_false_eq_true, if_true]
        by_cases hn : c.val = 0x0A
        · rw [literalValue, List.length_cons, unquoteLoop_step _ c t hq, hu t]
          simp only [if_pos hn]
          exact scanned_reject _ t [c] c hscan hq (fun b2 _ => ⟨_, rfl, Or.inr hn⟩)
        · have hout : unquoted c.val false = [c] := by
            simp [unquoted, byte_val_self]
          rw [scanned_token (c :: t) t [c] [c] hscan ?_,
            literalValue_token (c :: t) t [c] ?_, ih _ (by omega)]
          · have key := unquoteLoop_token c t t _ _ hq hn (hu t) _ _
              (Nat.lt_succ_self _) (Nat.lt_succ_self _)
            rw [hout] at key
            exact key
          · intro b2
            have key := unquoteLoop_token c b2 b2 _ _ hq hn (hu b2) _ _
              (Nat.lt_succ_self _) (Nat.lt_succ_self _)
            rw [hout] at key
            exact key

/-- The method `quotedString` at a double quote: the value of the string literal that
starts there, an error when there is none. -/
theorem quotedString_double (rest : GoString) :
    quotedString (byte 0x22 :: rest) =
      match literalValue rest with
      | some v => .ok v
      | none =>
        match doubleQuotedLoop (rest.length + 1) rest with
        | .error err => .error err
        | .ok _ => .error (.scan (str "invalid syntax")) := by
  have h1 : ¬ ((byte 0x22).val = 0x60) := by decide
  have h2 : (byte 0x22).val = 0x22 := by decide
  rw [quotedString, getRune_ascii _ _ (by decide)]
  simp only [if_neg h1, if_pos h2]
  rw [← scanned_literalValue _ rest (Nat.lt_succ_self _), scanned]
  cases hd : doubleQuotedLoop (rest.length + 1) rest with
  | error e => rfl
  | ok buf =>
    simp only
    rw [Unquote_slow buf (doubleQuotedLoop_mem _ _ _ hd)]
    cases lastQuote (unquoteLoop (byte 0x22) (buf.length + 1) buf) with
    | none => rfl
    | some v => rfl

/-- A rune is skipped together with its bytes: an ASCII byte other than the first
occurs in the input as it does after the rune. -/
theorem mem_drop_DecodeRune (a b : Byte) (t : GoString) (ha : a.val < 0x80) (hab : a ≠ b) :
    a ∈ (b :: t).drop (DecodeRune (b :: t)).2 ↔ a ∈ b :: t := by
  refine ⟨List.mem_of_mem_drop, fun h => ?_⟩
  have hd := DecodeRune_decoded b t
  have hm : a ∈ t := by
    rcases List.mem_cons.1 h with h | h
    · exact absurd h hab
    · exact h
  generalize (DecodeRune (b :: t)).1 = r at hd
  generalize (DecodeRune (b :: t)).2 = w at hd
  cases hd with
  | invalid => simpa using hm
  | one _ _ h0 => simpa using hm
  | two _ b1 t h0 h0' h1 h1' =>
    simp only [List.drop_succ_cons, List.drop_zero]
    rcases List.mem_cons.1 hm with rfl | hm
    · omega
    · exact hm
  | three _ b1 b2 t h0 h0' h1 h1' hlo hhi h2 h2' =>
    simp only [List.drop_succ_cons, List.drop_zero]
    rcases List.mem_cons.1 hm with rfl | hm
    · omega
    rcases List.mem_cons.1 hm with rfl | hm
    · omega
    · exact hm
  | four _ b1 b2 b3 t h0 h0' h1 h1' hlo hhi h2 h2' h3 h3' =>
    simp only [List.drop_succ_cons, List.drop_zero]
    rcases List.mem_cons.1 hm with rfl | hm
    · omega
    rcases List.mem_cons.1 hm with rfl | hm
    · omega
    rcases List.mem_cons.1 hm with rfl | hm
    · omega
    · exact hm

/-- The scan of a back-quoted string succeeds exactly when a back quote follows. -/
theorem backQuotedLoop_ok (n : Nat) :
    ∀ rest : GoString, rest.length < n →
      ((∃ buf, backQuotedLoop n rest = .ok buf) ↔ byte 0x60 ∈ rest) := by
  induction n with
  | zero => intro rest h; omega
  | succ n ih =>
    intro rest hlen
    cases rest with
    | nil => simp [backQuotedLoop, getRune]
    | cons b t =>
      rw [backQuotedLoop]
      have hd := DecodeRune_decoded b t
      have hw := Decoded_width _ _ _ hd
      simp only [getRune]
      by_cases hb : b = byte 0x60
      · subst hb
        rw [DecodeRune_one _ _ (by decide)]
        simp
      · have hr : ¬ (DecodeRune (b :: t)).1 = 0x60 := by
          intro h
          have := Decoded_small b t _ _ hd (by omega)
          exact hb (byte_eq b 0x60 (by omega)).symm
        rw [if_neg hr]
        have hrest := ih ((b :: t).drop (DecodeRune (b :: t)).2)
          (by simp only [List.length_drop, List.length_cons] at hlen ⊢; omega)
        rw [← mem_drop_DecodeRune (byte 0x60) b t (by decide) (Ne.symm hb), ← hrest]
        cases backQuotedLoop n ((b :: t).drop (DecodeRune (b :: t)).2) with
        | error e => simp
        | ok buf => simp

/-- The scan of a back-quoted string of well-formed UTF-8 returns the bytes up to the
closing back quote. -/
theorem backQuotedLoop_valid (n : Nat) :
    ∀ (s rest : GoString), s.length < n → ValidStringLoop n s = true →
      (∀ b ∈ s, b ≠ byte 0x60) → ∀ f, (s ++ byte 0x60 :: rest).length < f →
      backQuotedLoop f (s ++ byte 0x60 :: rest) = .ok s := by
  induction n with
  | zero => intro s rest h; omega
  | succ n ih =>
    intro s rest hlen hv hb f hf
    obtain ⟨g, rfl⟩ : ∃ g, f = g + 1 := ⟨f - 1, by omega⟩
    cases s with
    | nil =>
      rw [List.nil_append, backQuotedLoop, getRune_ascii _ _ (by decide)]
      simp
    | cons b t =>
      rw [ValidStringLoop] at hv
      have hd := DecodeRune_decoded b t
      by_cases hinv : (DecodeRune (b :: t)).1 = RuneError ∧ (DecodeRune (b :: t)).2 = 1
      · simp only [hinv, and_self, if_true] at hv
        exact absurd hv (by decide)
      · simp only [if_neg hinv] at hv
        have hinv' : ¬ ((DecodeRune (b :: t)).2 = 1 ∧ (DecodeRune (b :: t)).1 = RuneError) :=
          fun h => hinv ⟨h.2, h.1⟩
        obtain ⟨he, hvr⟩ := AppendRune_of_decoded _ _ _ hd hinv'
        have hw := Decoded_width _ _ _ hd
        have hb0 := hb b (List.mem_cons_self _ _)
        have hr : ¬ (DecodeRune (b :: t)).1 = 0x60 := by
          intro h
          have := Decoded_small b t _ _ hd (by omega)
          exact hb0 (byte_eq b 0x60 (by omega)).symm
        have hsplit : (b :: t) ++ byte 0x60 :: rest
            = AppendRune (DecodeRune (b :: t)).1
                ++ ((b :: t).drop (DecodeRune (b :: t)).2 ++ byte 0x60 :: rest) := by
          rw [he, ← List.append_assoc, List.take_append_drop]
        have hrest := ih ((b :: t).drop (DecodeRune (b :: t)).2) rest
          (by simp only [List.length_drop, List.length_cons] at hlen ⊢; omega) hv
          (fun c hc => hb c (List.mem_of_mem_drop hc)) g (by
            have := congrArg List.length hsplit
            have hl : 1 ≤ (AppendRune (DecodeRune (b :: t)).1).length := by
              rw [he]; simp; omega
            simp only [List.length_append] at this hf ⊢
            omega)
        rw [hsplit, backQuotedLoop, getRune_AppendRune _ _ hvr]
        simp only [if_neg hr, hrest]
        rw [he, List.take_append_drop]

/-- The method `quotedString` at a back quote. -/
theorem quotedString_back (rest : GoString) :
    quotedString (byte 0x60 :: rest) = backQuotedLoop (rest.length + 1) rest := by
  rw [quotedString, getRune_ascii _ _ (by decide)]
  simp

/-- The call `Sscanf` past the leading space. -/
theorem Sscanf_SkipSpace (data inp : GoString) (h : SkipSpace data = .ok inp) :
    Sscanf data = quotedString inp := by
  rw [Sscanf, h]
  simp only [SkipSpace_stable data inp h]

/-- The scanner accepts exactly the input that starts with a quoted string in Go
syntax. -/
theorem quotedString_goQuoted (inp : GoString) :
    (goQuoted inp = true → ∃ name, quotedString inp = .ok name)
      ∧ (goQuoted inp = false → ∃ err, quotedString inp = .error err) := by
  cases inp with
  | nil => exact ⟨fun h => by simp [goQuoted] at h, fun _ => ⟨_, rfl⟩⟩
  | cons c rest =>
    by_cases hb : c.val = 0x60
    · have e : c = byte 0x60 := (byte_eq c 0x60 hb.symm).symm
      subst e
      have hiff := backQuotedLoop_ok _ rest (Nat.lt_succ_self _)
      have hany : (rest.any (fun b => decide (b.val = 0x60))) = true ↔ byte 0x60 ∈ rest := by
        rw [List.any_eq_true]
        constructor
        · rintro ⟨x, hx, h⟩
          have hv : x.val = 0x60 := by simpa using h
          have hx' : x = byte 0x60 := (byte_eq x 0x60 hv.symm).symm
          rwa [← hx']
        · intro h
          exact ⟨_, h, by decide⟩
      rw [quotedString_back]
      simp only [goQuoted, if_pos hb]
      constructor
      · intro h
        exact hiff.2 (hany.1 h)
      · intro h
        cases hq : backQuotedLoop (rest.length + 1) rest with
        | error e => exact ⟨e, rfl⟩
        | ok buf =>
          have := hany.2 (hiff.1 ⟨buf, hq⟩)
          rw [this] at h
          cases h
    by_cases hq : c.val = 0x22
    · have e : c = byte 0x22 := (byte_eq c 0x22 hq.symm).symm
      subst e
      rw [quotedString_double]
      simp only [goQuoted, if_neg hb, if_pos hq]
      cases hl : literalValue rest with
      | none =>
        refine ⟨fun h => by simp at h, fun _ => ?_⟩
        simp only
        cases doubleQuotedLoop (rest.length + 1) rest with
        | error e => exact ⟨e, rfl⟩
        | ok _ => exact ⟨_, rfl⟩
      | some v => exact ⟨fun _ => ⟨v, rfl⟩, fun h => by simp at h⟩
    · simp only [goQuoted, if_neg hb, if_neg hq]
      refine ⟨fun h => by simp at h, fun _ => ?_⟩
      refine quotedString_unquoted _ ⟨?_, ?_⟩
      · simp only [List.head?_cons, ne_eq, Option.some.injEq]
        rintro rfl
        exact hq (by decide)
      · simp only [List.head?_cons, ne_eq, Option.some.injEq]
        rintro rfl
        exact hb (by decide)

/-- What `UnquoteChar` leaves is the end of its input. -/
theorem UnquoteChar_suffix (s : GoString) (r : Nat) (mb : Bool) (rem : GoString)
    (h : UnquoteChar s (byte 0x22) = some (r, mb, rem)) : ∃ pre, s = pre ++ rem := by
  cases s with
  | nil => simp [UnquoteChar] at h
  | cons c t =>
    by_cases h1 : c = byte 0x22 ∧ ((byte 0x22).val = 0x27 ∨ (byte 0x22).val = 0x22)
    · simp [UnquoteChar, h1] at h
    by_cases h2 : c.val ≥ 0x80
    · simp only [UnquoteChar, if_neg h1, if_pos h2, Option.some.injEq, Prod.mk.injEq] at h
      exact ⟨(c :: t).take (DecodeRune (c :: t)).2, by rw [← h.2.2, List.take_append_drop]⟩
    by_cases h3 : c.val ≠ 0x5C
    · simp only [UnquoteChar, if_neg h1, if_neg h2, if_pos h3, Option.some.injEq,
        Prod.mk.injEq] at h
      exact ⟨[c], by rw [← h.2.2]; rfl⟩
    have e : c = byte 0x5C := (byte_eq c 0x5C (by omega)).symm
    subst e
    cases t with
    | nil => rw [UnquoteChar_backslash_nil] at h; cases h
    | cons e t =>
      rcases UnquoteChar_escape e t with ⟨hnone, -⟩ | ⟨r', mb', digits, rem', et, -, hall⟩
      · rw [hnone] at h; cases h
      · subst et
        rw [hall rem'] at h
        simp only [Option.some.injEq, Prod.mk.injEq] at h
        exact ⟨byte 0x5C :: e :: digits, by rw [← h.2.2]; simp⟩

/-- Where the loop of `unquote` stops is the end of its input. -/
theorem unquoteLoop_suffix (f : Nat) :
    ∀ (x out rem : List Byte), unquoteLoop (byte 0x22) f x = some (out, rem) →
      ∃ pre, x = pre ++ rem := by
  induction f with
  | zero => intro x out rem h; simp [unquoteLoop] at h
  | succ f ih =>
    intro x out rem h
    cases x with
    | nil =>
      simp only [unquoteLoop, Option.some.injEq, Prod.mk.injEq] at h
      exact ⟨[], by rw [← h.2]; rfl⟩
    | cons a x =>
      by_cases ha : a = byte 0x22
      · rw [unquoteLoop, if_pos ha] at h
        simp only [Option.some.injEq, Prod.mk.injEq] at h
        exact ⟨[], by rw [← h.2]; rfl⟩
      · rw [unquoteLoop_step f a x ha] at h
        cases hu : UnquoteChar (a :: x) (byte 0x22) with
        | none => rw [hu] at h; cases h
        | some p =>
          obtain ⟨r, mb, rem'⟩ := p
          rw [hu] at h
          simp only at h
          split_ifs at h
          cases hl : unquoteLoop (byte 0x22) f rem' with
          | none => rw [hl] at h; cases h
          | some p =>
            obtain ⟨o, rr⟩ := p
            rw [hl] at h
            simp only [Option.map_some', Option.some.injEq, Prod.mk.injEq] at h
            rw [h.2] at hl
            obtain ⟨pre1, e1⟩ := UnquoteChar_suffix _ _ _ _ hu
            obtain ⟨pre2, e2⟩ := ih _ _ _ hl
            exact ⟨pre1 ++ pre2, by rw [e1, e2, List.append_assoc]⟩

/-- Without a closing quote there is no string literal. -/
theorem literalValue_unterminated (x : GoString) (h : byte 0x22 ∉ x) :
    literalValue x = none := by
  rw [literalValue]
  cases hu : unquoteLoop (byte 0x22) (x.length + 1) x with
  | none => rfl
  | some p =>
    obtain ⟨out, rem⟩ := p
    cases rem with
    | nil => rfl
    | cons c t =>
      exfalso
      have hc := unquoteLoop_stop _ _ _ _ _ hu
      obtain ⟨pre, e⟩ := unquoteLoop_suffix _ _ _ _ hu
      apply h
      rw [e, hc]
      simp

/-- A quoted body up to its closing quote is a string literal, whatever follows. -/
theorem literalValue_quoted (body s : List Byte) (h : Quoted body s) (rest : GoString) :
    literalValue (body ++ byte 0x22 :: rest) = some s := by
  rw [literalValue, unquoteLoop_quoted body s h rest _ (Nat.lt_succ_self _)]
  rfl

/-! ## What `Quote` writes and what JSON reads -/

/-- An unescaped byte of a JSON string literal. -/
theorem jsonTail_byte (c e : Byte) (rest : List Byte) (h1 : 0x20 ≤ c.val)
    (h2 : c.val ≠ 0x22) (h3 : c.val ≠ 0x5C) :
    jsonStringTail (c :: e :: rest) = jsonStringTail (e :: rest)
      ∧ jsonTailValue (c :: e :: rest) = (jsonTailValue (e :: rest)).map (c :: ·) := by
  have h4 : ¬ c.val < 0x20 := by omega
  constructor
  · rw [jsonStringTail.eq_def]
    simp only [if_neg h2, if_neg h3, if_neg h4]
  · rw [jsonTailValue.eq_def]
    simp only [if_neg h2, if_neg h3, if_neg h4]

/-- Unescaped bytes of a JSON string literal. -/
theorem jsonTail_bytes (l : List Byte)
    (hl : ∀ b ∈ l, 0x20 ≤ b.val ∧ b.val ≠ 0x22 ∧ b.val ≠ 0x5C) (X : List Byte) (hX : X ≠ []) :
    jsonStringTail (l ++ X) = jsonStringTail X
      ∧ jsonTailValue (l ++ X) = (jsonTailValue X).map (l ++ ·) := by
  induction l with
  | nil => simp
  | cons c l ih =>
    obtain ⟨h1, h2, h3⟩ := hl c (List.mem_cons_self _ _)
    obtain ⟨ih1, ih2⟩ := ih (fun b hb => hl b (List.mem_cons_of_mem _ hb))
    cases hs : l ++ X with
    | nil =>
      exfalso
      cases l with
      | nil => exact hX hs
      | cons _ _ => simp at hs
    | cons e rest =>
      rw [hs] at ih1 ih2
      obtain ⟨j1, j2⟩ := jsonTail_byte c e rest h1 h2 h3
      rw [List.cons_append, hs, j1, j2, ih1, ih2]
      refine ⟨rfl, ?_⟩
      cases jsonTailValue X with
      | none => rfl
      | some v => rfl

/-- A short escape of JSON. -/
theorem jsonTail_escape (e v : Byte) (X : List Byte)
    (h : (e.val = 0x22 ∧ v = e) ∨ (e.val = 0x5C ∧ v = e) ∨ (e.val = 0x62 ∧ v = byte 0x08)
      ∨ (e.val = 0x66 ∧ v = byte 0x0C) ∨ (e.val = 0x6E ∧ v = byte 0x0A)
      ∨ (e.val = 0x72 ∧ v = byte 0x0D) ∨ (e.val = 0x74 ∧ v = byte 0x09)) :
    jsonStringTail (byte 0x5C :: e :: X) = jsonStringTail X
      ∧ jsonTailValue (byte 0x5C :: e :: X) = (jsonTailValue X).map (v :: ·) := by
  have h1 : ¬ (byte 0x5C).val = 0x22 := by decide
  have h2 : (byte 0x5C).val = 0x5C := by decide
  constructor
  · have hs : e.val = 0x22 ∨ e.val = 0x5C ∨ e.val = 0x2F ∨ e.val = 0x62 ∨ e.val = 0x66
        ∨ e.val = 0x6E ∨ e.val = 0x72 ∨ e.val = 0x74 := by omega
    rw [jsonStringTail.eq_def]
    simp only [if_neg h1, if_pos h2, if_pos hs]
  · rw [jsonTailValue.eq_def]
    simp only [if_neg h1, if_pos h2]
    rcases h with ⟨he, rfl⟩ | ⟨he, rfl⟩ | ⟨he, rfl⟩ | ⟨he, rfl⟩ | ⟨he, rfl⟩ | ⟨he, rfl⟩ | ⟨he, rfl⟩
    · rw [if_pos (Or.inl he)]
    · rw [if_pos (Or.inr (Or.inl he))]
    · rw [if_neg (by omega), if_pos he]
    · rw [if_neg (by omega), if_neg (by omega), if_pos he]
    · rw [if_neg (by omega), if_neg (by omega), if_neg (by omega), if_pos he]
    · rw [if_neg (by omega), if_neg (by omega), if_neg (by omega), if_neg (by omega), if_pos he]
    · rw [if_neg (by omega), if_neg (by omega), if_neg (by omega), if_neg (by omega),
        if_neg (by omega), if_pos he]

/-- The digits of `lowerhex` are hexadecimal digits of JSON. -/
theorem isHexDigit_lowerhex (n : Nat) (h : n < 16) : isHexDigit (lowerhex n) = true := by
  have := lowerhex_val n h
  unfold isHexDigit
  by_cases h10 : n < 10
  · simp only [if_pos h10] at this
    simp [this]
    omega
  · simp only [if_neg h10] at this
    simp [this]
    omega

/-- The escape `\uXXXX` of a code point that is no surrogate half. -/
theorem jsonTail_u (r : Nat) (hv : ValidRune r = true) (hr : r < 0x10000) (X : List Byte) :
    jsonStringTail (byte 0x5C :: byte 0x75 :: lowerhex (r / 4096 % 16)
        :: lowerhex (r / 256 % 16) :: lowerhex (r / 16 % 16) :: lowerhex (r % 16) :: X)
      = jsonStringTail X
    ∧ jsonTailValue (byte 0x5C :: byte 0x75 :: lowerhex (r / 4096 % 16)
        :: lowerhex (r / 256 % 16) :: lowerhex (r / 16 % 16) :: lowerhex (r % 16) :: X)
      = (jsonTailValue X).map (AppendRune r ++ ·) := by
  have h1 : ¬ (byte 0x5C).val = 0x22 := by decide
  have h2 : (byte 0x5C).val = 0x5C := by decide
  have h3 : ¬ ((byte 0x75).val = 0x22 ∨ (byte 0x75).val = 0x5C ∨ (byte 0x75).val = 0x2F
      ∨ (byte 0x75).val = 0x62 ∨ (byte 0x75).val = 0x66 ∨ (byte 0x75).val = 0x6E
      ∨ (byte 0x75).val = 0x72 ∨ (byte 0x75).val = 0x74) := by decide
  have h4 : (byte 0x75).val = 0x75 := by decide
  have h5 : ¬ ((byte 0x75).val = 0x22 ∨ (byte 0x75).val = 0x5C ∨ (byte 0x75).val = 0x2F) := by
    decide
  have h6 : ¬ (byte 0x75).val = 0x62 := by decide
  have h7 : ¬ (byte 0x75).val = 0x66 := by decide
  have h8 : ¬ (byte 0x75).val = 0x6E := by decide
  have h9 : ¬ (byte 0x75).val = 0x72 := by decide
  have h10 : ¬ (byte 0x75).val = 0x74 := by decide
  have e : r / 4096 % 16 * 4096 + r / 256 % 16 * 256 + r / 16 % 16 * 16 + r % 16 = r := by
    omega
  have hs : ¬ (0xD800 ≤ r ∧ r ≤ 0xDFFF) := by
    simp only [ValidRune, Bool.or_eq_true, Bool.and_eq_true, decide_eq_true_eq] at hv
    omega
  constructor
  · rw [jsonStringTail.eq_def]
    simp only [if_neg h1, if_pos h2, if_neg h3, if_pos h4,
      isHexDigit_lowerhex _ (Nat.mod_lt _ (by decide)), Bool.true_and]
  · rw [jsonTailValue.eq_def]
    simp only [if_neg h1, if_pos h2, if_neg h5, if_neg h6, if_neg h7, if_neg h8, if_neg h9,
      if_neg h10, if_pos h4, unhex_lowerhex _ (Nat.mod_lt _ (by decide)), e, if_neg hs]

/-- An escape that is not JSON's. -/
theorem jsonTail_bad (e : Byte) (X : List Byte)
    (h : e.val = 0x61 ∨ e.val = 0x76 ∨ e.val = 0x78 ∨ e.val = 0x55) :
    jsonStringTail (byte 0x5C :: e :: X) = false := by
  have h1 : ¬ (byte 0x5C).val = 0x22 := by decide
  have h2 : (byte 0x5C).val = 0x5C := by decide
  have h3 : ¬ (e.val = 0x22 ∨ e.val = 0x5C ∨ e.val = 0x2F ∨ e.val = 0x62 ∨ e.val = 0x66
      ∨ e.val = 0x6E ∨ e.val = 0x72 ∨ e.val = 0x74) := by omega
  have h4 : ¬ e.val = 0x75 := by omega
  rw [jsonStringTail.eq_def]
  simp only [if_neg h1, if_pos h2, if_neg h3, if_neg h4]

/-- What `appendEscapedRune` writes for a character that JSON reads the same way. -/
theorem appendEscapedRune_json (env : Env) (r : Nat) (hv : ValidRune r = true)
    (hj : jsonRune env r = true) (X : List Byte) (hX : X ≠ []) :
    jsonStringTail (appendEscapedRune env r ++ X) = jsonStringTail X
      ∧ jsonTailValue (appendEscapedRune env r ++ X)
          = (jsonTailValue X).map (AppendRune r ++ ·) := by
  unfold appendEscapedRune
  by_cases h1 : r = 0x22 ∨ r = 0x5C
  · rw [if_pos h1, AppendRune_one r (by omega)]
    refine jsonTail_escape (byte r) (byte r) X ?_
    rw [byte_val]
    rcases h1 with rfl | rfl
    · exact Or.inl ⟨by decide, rfl⟩
    · exact Or.inr (Or.inl ⟨by decide, rfl⟩)
  rw [if_neg h1]
  by_cases h2 : IsPrint env r = true
  · rw [if_pos h2]
    refine jsonTail_bytes _ ?_ X hX
    by_cases hr : r ≤ 0x7F
    · rw [AppendRune_one r hr]
      intro b hb
      simp only [List.mem_singleton] at hb
      subst hb
      rw [byte_val]
      have := (IsPrint_ascii env r (by omega)).1 h2
      omega
    · intro b hb
      have := AppendRune_bytes_ge r (by omega) b hb
      omega
  rw [if_neg h2]
  have hnp : ¬ (0x20 ≤ r ∧ r ≤ 0x7E) := by
    intro h
    exact h2 ((IsPrint_ascii env r (by omega)).2 (Or.inl h))
  have hj' : r = 8 ∨ r = 9 ∨ r = 10 ∨ r = 12 ∨ r = 13 ∨ (0x80 ≤ r ∧ r < 0x10000) := by
    simp only [jsonRune, Bool.or_eq_true, Bool.and_eq_true, decide_eq_true_eq] at hj
    rcases hj with ((((((h | h) | h) | h) | h) | h) | h)
    · exact absurd h h2
    all_goals omega
  have esc : ∀ c v : Nat, r = v → v ≤ 0x7F →
      ((c = 0x62 ∧ v = 8) ∨ (c = 0x66 ∧ v = 12) ∨ (c = 0x6E ∧ v = 10) ∨ (c = 0x72 ∧ v = 13)
        ∨ (c = 0x74 ∧ v = 9)) →
      jsonStringTail ([byte 0x5C, byte c] ++ X) = jsonStringTail X
        ∧ jsonTailValue ([byte 0x5C, byte c] ++ X)
            = (jsonTailValue X).map (AppendRune r ++ ·) := by
    intro c v hrv hv hc
    rw [hrv, AppendRune_one v hv]
    refine jsonTail_escape (byte c) (byte v) X ?_
    rw [byte_val]
    rcases hc with ⟨rfl, rfl⟩ | ⟨rfl, rfl⟩ | ⟨rfl, rfl⟩ | ⟨rfl, rfl⟩ | ⟨rfl, rfl⟩
    · exact Or.inr (Or.inr (Or.inl ⟨by decide, rfl⟩))
    · exact Or.inr (Or.inr (Or.inr (Or.inl ⟨by decide, rfl⟩)))
    · exact Or.inr (Or.inr (Or.inr (Or.inr (Or.inl ⟨by decide, rfl⟩))))
    · exact Or.inr (Or.inr (Or.inr (Or.inr (Or.inr (Or.inl ⟨by decide, rfl⟩)))))
    · exact Or.inr (Or.inr (Or.inr (Or.inr (Or.inr (Or.inr ⟨by decide, rfl⟩)))))
  have h7 : ¬ r = 7 := by omega
  rw [if_neg h7]
  by_cases h8 : r = 8
  · rw [if_pos h8]; exact esc _ _ h8 (by decide) (by decide)
  rw [if_neg h8]
  by_cases h12 : r = 12
  · rw [if_pos h12]; exact esc _ _ h12 (by decide) (by decide)
  rw [if_neg h12]
  by_cases h10 : r = 10
  · rw [if_pos h10]; exact esc _ _ h10 (by decide) (by decide)
  rw [if_neg h10]
  by_cases h13 : r = 13
  · rw [if_pos h13]; exact esc _ _ h13 (by decide) (by decide)
  rw [if_neg h13]
  by_cases h9 : r = 9
  · rw [if_pos h9]; exact esc _ _ h9 (by decide) (by decide)
  rw [if_neg h9]
  have h11 : ¬ r = 11 := by omega
  have hx : ¬ (r < 0x20 ∨ r = 0x7F) := by omega
  have h16 : r < 0x10000 := by omega
  rw [if_neg h11, if_neg hx]
  simp only [hv, Bool.not_true, Bool.false_eq_true, if_false, if_pos h16]
  exact jsonTail_u r hv h16 X

/-- What `appendEscapedRune` writes for any other character is not JSON. -/
theorem appendEscapedRune_not_json (env : Env) (r : Nat) (hv : ValidRune r = true)
    (hj : jsonRune env r = false) (X : List Byte) :
    jsonStringTail (appendEscapedRune env r ++ X) = false := by
  simp only [jsonRune, Bool.or_eq_false_iff, Bool.and_eq_false_iff, decide_eq_false_iff_not]
    at hj
  obtain ⟨⟨⟨⟨⟨⟨h2, h8⟩, h9⟩, h10⟩, h12⟩, h13⟩, hrange⟩ := hj
  have h2' : ¬ IsPrint env r = true := by rw [h2]; decide
  have hnp : r ≤ 0xFF → ¬ ((0x20 ≤ r ∧ r ≤ 0x7E) ∨ (0xA1 ≤ r ∧ r ≠ 0xAD)) := by
    intro hle h
    exact h2' ((IsPrint_ascii env r hle).2 h)
  have h1 : ¬ (r = 0x22 ∨ r = 0x5C) := by
    intro h
    exact hnp (by omega) (Or.inl (by omega))
  unfold appendEscapedRune
  rw [if_neg h1, if_neg h2']
  by_cases h7 : r = 7
  · rw [if_pos h7]; exact jsonTail_bad _ X (by decide)
  rw [if_neg h7, if_neg h8, if_neg h12, if_neg h10, if_neg h13, if_neg h9]
  by_cases h11 : r = 11
  · rw [if_pos h11]; exact jsonTail_bad _ X (by decide)
  rw [if_neg h11]
  by_cases hx : r < 0x20 ∨ r = 0x7F
  · rw [if_pos hx]; exact jsonTail_bad _ _ (by decide)
  rw [if_neg hx]
  have h80 : 0x80 ≤ r := by
    by_contra hlt
    exact hnp (by omega) (Or.inl (by omega))
  have h16 : ¬ r < 0x10000 := by
    rcases hrange with h | h <;> omega
  simp only [hv, Bool.not_true, Bool.false_eq_true, if_false, if_neg h16]
  exact jsonTail_bad _ _ (by decide)

/-- The loop of `appendQuotedWith` writes the rest of a JSON string literal exactly for
a name of characters that JSON reads the same way, and the literal then stands for
the name. -/
theorem quoteLoop_json (env : Env) (fuel : Nat) :
    ∀ s : GoString, s.length < fuel →
      jsonStringTail (quoteLoop env fuel s ++ [byte 0x22]) = jsonSafeLoop env fuel s
        ∧ (jsonSafeLoop env fuel s = true →
            jsonTailValue (quoteLoop env fuel s ++ [byte 0x22]) = some s) := by
  induction fuel with
  | zero => intro s h; omega
  | succ fuel ih =>
    intro s hlen
    cases s with
    | nil =>
      rw [quoteLoop, jsonSafeLoop]
      exact ⟨by decide, fun _ => by decide⟩
    | cons b rest =>
      have hd := DecodeRune_decoded b rest
      have hw := Decoded_width _ _ _ hd
      have hdd : (if b.val ≥ 0x80 then DecodeRune (b :: rest) else (b.val, 1))
          = DecodeRune (b :: rest) := by
        by_cases hb : b.val ≥ 0x80
        · rw [if_pos hb]
        · rw [if_neg hb, DecodeRune_one b rest (by omega)]
      rw [quoteLoop, jsonSafeLoop]
      simp only [hdd]
      by_cases hinv : (DecodeRune (b :: rest)).2 = 1 ∧ (DecodeRune (b :: rest)).1 = RuneError
      · have hinv' : (DecodeRune (b :: rest)).1 = RuneError ∧ (DecodeRune (b :: rest)).2 = 1 :=
          ⟨hinv.2, hinv.1⟩
        rw [if_pos hinv, if_pos hinv']
        refine ⟨?_, fun h => by cases h⟩
        exact jsonTail_bad _ _ (by decide)
      · have hinv' : ¬ ((DecodeRune (b :: rest)).1 = RuneError ∧ (DecodeRune (b :: rest)).2 = 1) :=
          fun h => hinv ⟨h.2, h.1⟩
        obtain ⟨he, hv⟩ := AppendRune_of_decoded _ _ _ hd hinv
        obtain ⟨ih1, ih2⟩ := ih ((b :: rest).drop (DecodeRune (b :: rest)).2)
          (by simp only [List.length_drop, List.length_cons] at hlen ⊢; omega)
        rw [if_neg hinv, if_neg hinv', List.append_assoc]
        cases hj : jsonRune env (DecodeRune (b :: rest)).1 with
        | false =>
          refine ⟨?_, fun h => by simp at h⟩
          rw [appendEscapedRune_not_json env _ hv hj]
          rfl
        | true =>
          obtain ⟨j1, j2⟩ := appendEscapedRune_json env _ hv hj
            (quoteLoop env fuel ((b :: rest).drop (DecodeRune (b :: rest)).2) ++ [byte 0x22])
            (by simp)
          rw [j1, j2, ih1, Bool.true_and]
          refine ⟨rfl, fun h => ?_⟩
          rw [ih2 h, Option.map_some', he, List.take_append_drop]

/-! ## The claims -/

/-- C1: failure atomicity.  For every receiver and every call of `loadString`,
`Scan`, `UnmarshalText` or `UnmarshalJSON` that returns an error, the receiver after
the call is the receiver before it. -/
theorem failure_leaves_receiver (env : Env) (z : TimeZone) (c : Call) (err : Error)
    (h : (c.run env z).2 = some err) : (c.run env z).1 = z := by
  cases c with
  | loadString s => exact loadString_error_fst env z s err h
  | UnmarshalText text => exact loadString_error_fst env z text err h
  | Scan value =>
    simp only [Call.run, TimeZone.Scan] at h ⊢
    cases hns : NullString.Scan value with
    | mk ns e =>
      rw [hns] at h
      cases e with
      | some e => rfl
      | none =>
        simp only at h ⊢
        split
        · rfl
        · rename_i hvalid
          rw [if_neg hvalid] at h
          exact loadString_error_fst env z _ err h
  | UnmarshalJSON data =>
    simp only [Call.run, TimeZone.UnmarshalJSON] at h ⊢
    split
    · rfl
    · rename_i hnull
      rw [if_neg hnull] at h
      cases hs : Fmt.Sscanf data with
      | error e => rfl
      | ok unquote =>
        rw [hs] at h
        exact loadString_error_fst env z _ err h

/-- Witness of C1: the `ErrName` case of the JSON test, on a receiver that holds
`America/New_York`. -/
theorem failure_leaves_receiver_witness :
    ((Call.UnmarshalJSON (str "\"ErrName\"")).run testEnv newYork).2
        = some (.location (str "unknown time zone ErrName"))
      ∧ ((Call.UnmarshalJSON (str "\"ErrName\"")).run testEnv newYork).1 = newYork :=
  ⟨by decide, failure_leaves_receiver testEnv newYork _
    (.location (str "unknown time zone ErrName")) (by decide)⟩

/-- C2: name round trip.  For every identifier `s` other than the name of the local
zone that the resolver accepts with a handle whose own name is `s`,
`LoadTimeZone(s)` returns no error and `String()` of the result is `s`. -/
theorem LoadTimeZone_String (env : Env) (s : GoString) (l : Time.Location)
    (hs : s ≠ str "Local") (h : Time.LoadLocation env s = .ok l)
    (hname : l.String env = s) :
    (LoadTimeZone env s).2 = none ∧ (LoadTimeZone env s).1.String env = s := by
  have hl : l ≠ .Local := by
    rintro rfl
    exact hs (LoadLocation_Local env s h)
  unfold LoadTimeZone
  rw [loadString_eq, h]
  cases l with
  | Local => exact absurd rfl hl
  | UTC => exact ⟨rfl, hname⟩
  | zone name => exact ⟨rfl, hname⟩

/-- Witness of C2: the first scenario of the specification, `America/New_York`. -/
theorem LoadTimeZone_String_witness :
    str "America/New_York" ≠ str "Local"
      ∧ Time.LoadLocation testEnv (str "America/New_York")
          = .ok (.zone (str "America/New_York"))
      ∧ (LoadTimeZone testEnv (str "America/New_York")).2 = none
      ∧ (LoadTimeZone testEnv (str "America/New_York")).1.String testEnv
          = str "America/New_York" :=
  ⟨by decide, by decide,
    LoadTimeZone_String testEnv (str "America/New_York")
      (.zone (str "America/New_York")) (by decide) (by decide) (by decide)⟩

/-- C3: UTC collapse.  `LoadTimeZone("UTC")` and `LoadTimeZone("")` return no error,
both results are the zero value `TimeZone{}`, which is `UTCTimeZone`, and all three
render as `UTC`. -/
theorem LoadTimeZone_UTC (env : Env) :
    LoadTimeZone env (str "UTC") = ({ loc := none }, none)
      ∧ LoadTimeZone env [] = ({ loc := none }, none)
      ∧ UTCTimeZone = { loc := none }
      ∧ (LoadTimeZone env (str "UTC")).1.String env = str "UTC"
      ∧ (LoadTimeZone env []).1.String env = str "UTC"
      ∧ UTCTimeZone.String env = str "UTC" := by
  have h1 : LoadTimeZone env (str "UTC") = ({ loc := none }, none) := by
    simp [LoadTimeZone, loadString_UTC]
  have h2 : LoadTimeZone env [] = ({ loc := none }, none) := by
    have h : Time.LoadLocation env [] = .ok .UTC := by simp [Time.LoadLocation]
    simp [LoadTimeZone, loadString_eq, h]
  refine ⟨h1, h2, rfl, ?_, ?_, rfl⟩
  · rw [h1]; rfl
  · rw [h2]; rfl

/-- C4: `Local` is rejected.  For every receiver, `loadString` of the name `Local`,
and of any name the resolver maps to the host-local zone, returns the error
`invalid TimeZone: Local` and leaves the receiver as it was. -/
theorem loadString_Local (env : Env) (z : TimeZone) :
    z.loadString env (str "Local") = (z, some .invalidLocal)
      ∧ ∀ s, Time.LoadLocation env s = .ok .Local →
          z.loadString env s = (z, some .invalidLocal) := by
  have key : ∀ s, Time.LoadLocation env s = .ok .Local →
      z.loadString env s = (z, some .invalidLocal) := by
    intro s h
    rw [loadString_eq, h]
  refine ⟨key _ ?_, key⟩
  have h1 : ¬ (str "Local" = [] ∨ str "Local" = str "UTC") := by decide
  simp [Time.LoadLocation, h1]

/-- Witness of C4: the `Local` case of `TestLoadTimeZone`, on a receiver that holds
`America/New_York`. -/
theorem loadString_Local_witness :
    Time.LoadLocation testEnv (str "Local") = .ok .Local
      ∧ newYork.loadString testEnv (str "Local") = (newYork, some .invalidLocal) :=
  ⟨by decide, (loadString_Local testEnv newYork).2 _ (by decide)⟩

/-- C5: JSON round trip.  For every valid value `v` and every receiver,
`UnmarshalJSON` of the bytes `v.MarshalJSON()` returns no error and leaves the
receiver equal to `v`. -/
theorem UnmarshalJSON_MarshalJSON (env : Env) (v z : TimeZone) (hv : Valid env v) :
    (v.MarshalJSON env).2 = none
      ∧ z.UnmarshalJSON env (v.MarshalJSON env).1 = (v, none) := by
  refine ⟨rfl, ?_⟩
  simp only [TimeZone.UnmarshalJSON, TimeZone.MarshalJSON, if_neg (Sprintf_ne_null env _),
    Sscanf_Sprintf]
  exact loadString_String env v z hv

/-- Witness of C5: `Asia/Tokyo`, loaded, decoded into a receiver that holds
`America/New_York`. -/
theorem UnmarshalJSON_MarshalJSON_witness :
    Valid testEnv tokyo
      ∧ (tokyo.MarshalJSON testEnv).2 = none
      ∧ newYork.UnmarshalJSON testEnv (tokyo.MarshalJSON testEnv).1 = (tokyo, none) :=
  have hv : Valid testEnv tokyo :=
    Or.inr ⟨{ loc := none }, str "Asia/Tokyo", by decide⟩
  ⟨hv, UnmarshalJSON_MarshalJSON testEnv tokyo newYork hv⟩

/-- C6: text round trip.  For every valid value `v` and every receiver,
`UnmarshalText` of the bytes `v.MarshalText()` returns no error and leaves the
receiver equal to `v`. -/
theorem UnmarshalText_MarshalText (env : Env) (v z : TimeZone) (hv : Valid env v) :
    (v.MarshalText env).2 = none
      ∧ z.UnmarshalText env (v.MarshalText env).1 = (v, none) :=
  ⟨rfl, loadString_String env v z hv⟩

/-- Witness of C6: `Asia/Tokyo`, loaded, decoded into a receiver that holds
`America/New_York`. -/
theorem UnmarshalText_MarshalText_witness :
    Valid testEnv tokyo
      ∧ (tokyo.MarshalText testEnv).2 = none
      ∧ newYork.UnmarshalText testEnv (tokyo.MarshalText testEnv).1 = (tokyo, none) :=
  have hv : Valid testEnv tokyo :=
    Or.inr ⟨{ loc := none }, str "Asia/Tokyo", by decide⟩
  ⟨hv, UnmarshalText_MarshalText testEnv tokyo newYork hv⟩

/-- C7: database round trip.  For every valid value `v` and every receiver, `Scan`
of the driver value `v.Value()` returns no error and leaves the receiver equal to
`v`. -/
theorem Scan_Value (env : Env) (v z : TimeZone) (hv : Valid env v) :
    (v.Value env).2 = none
      ∧ z.Scan env (.string (v.Value env).1) = (v, none) := by
  refine ⟨rfl, ?_⟩
  simp only [TimeZone.Scan, NullString.Scan, TimeZone.Value]
  exact loadString_String env v z hv

/-- Witness of C7: `Asia/Tokyo`, loaded, scanned into a receiver that holds
`America/New_York`. -/
theorem Scan_Value_witness :
    Valid testEnv tokyo
      ∧ (tokyo.Value testEnv).2 = none
      ∧ newYork.Scan testEnv (.string (tokyo.Value testEnv).1) = (tokyo, none) :=
  have hv : Valid testEnv tokyo :=
    Or.inr ⟨{ loc := none }, str "Asia/Tokyo", by decide⟩
  ⟨hv, Scan_Value testEnv tokyo newYork hv⟩

/-- C8: JSON `null` is a no-op.  For every receiver, `UnmarshalJSON` of exactly the
bytes `null` returns no error and leaves the receiver as it was. -/
theorem UnmarshalJSON_null (env : Env) (z : TimeZone) :
    z.UnmarshalJSON env (str "null") = (z, none) := by
  simp [TimeZone.UnmarshalJSON]

/-- C9: `Scan` of NULL is rejected.  For every receiver, `Scan(nil)` returns the
error `converting NULL to TimeZone is unsupported`, which is not an error of the
resolver, and leaves the receiver as it was. -/
theorem Scan_nil (env : Env) (z : TimeZone) :
    z.Scan env .null = (z, some .nullUnsupported)
      ∧ ∀ msg, Error.nullUnsupported ≠ .location msg := by
  refine ⟨?_, fun msg h => Error.noConfusion h⟩
  simp [TimeZone.Scan, NullString.Scan]

/-- Counterexample to C10 as stated: a back-quoted `UTC`, a quoted `UTC` followed by
a trailing character, a quoted `UTC` after a space, and a quoted `\x55TC` (an escape
sequence of Go that JSON does not have) are neither the literal `null` nor a JSON
string literal, and `UnmarshalJSON` returns no error for any of them and replaces the
`America/New_York` held by the receiver by the zero value. -/
theorem UnmarshalJSON_not_json_accepted :
    (str "`UTC`" ≠ str "null" ∧ isJSONString (str "`UTC`") = false
        ∧ newYork.UnmarshalJSON testEnv (str "`UTC`") = ({ loc := none }, none))
      ∧ (str "\"UTC\"x" ≠ str "null" ∧ isJSONString (str "\"UTC\"x") = false
        ∧ newYork.UnmarshalJSON testEnv (str "\"UTC\"x") = ({ loc := none }, none))
      ∧ (str " \"UTC\"" ≠ str "null" ∧ isJSONString (str " \"UTC\"") = false
        ∧ newYork.UnmarshalJSON testEnv (str " \"UTC\"") = ({ loc := none }, none))
      ∧ (str "\"\\x55TC\"" ≠ str "null" ∧ isJSONString (str "\"\\x55TC\"") = false
        ∧ newYork.UnmarshalJSON testEnv (str "\"\\x55TC\"") = ({ loc := none }, none))
      ∧ newYork ≠ { loc := none } := by
  decide

/-- C10, amended: for every input that is not the literal `null` and that, past the
leading space the scanner skips, does not start with a quoted string in Go syntax (a
back quote with a closing back quote after it, or a double quote followed by the rest
of a string literal as `strconv` reads it), `UnmarshalJSON` returns an error and
leaves the receiver as it was; such are an unquoted token, a string without its
closing quote, a string with a bad escape sequence and a string with a raw newline.
Every other input that is not `null` is scanned, whatever follows the quoted string,
and `UnmarshalJSON` does with the value of the string what `loadString` does: the
value of the literal for a double-quoted string, the bytes between the back quotes
for a back-quoted string of well-formed UTF-8.  Whenever `UnmarshalJSON` returns an
error the receiver is as it was. -/
theorem UnmarshalJSON_goQuoted (env : Env) (z : TimeZone) (data : List Byte)
    (hnull : data ≠ str "null") :
    ((∀ inp, SkipSpace data = .ok inp → goQuoted inp = false) →
        ∃ err, z.UnmarshalJSON env data = (z, some err))
      ∧ (∀ inp, SkipSpace data = .ok inp → goQuoted inp = true →
          ∃ name, z.UnmarshalJSON env data = z.loadString env name
            ∧ (∀ rest, inp = byte 0x22 :: rest → literalValue rest = some name)
            ∧ (∀ s rest, inp = byte 0x60 :: (s ++ byte 0x60 :: rest) →
                ValidString s = true → (∀ b ∈ s, b ≠ byte 0x60) → name = s))
      ∧ (∀ err, (z.UnmarshalJSON env data).2 = some err → (z.UnmarshalJSON env data).1 = z) := by
  refine ⟨?_, ?_, ?_⟩
  · intro h
    cases hs : SkipSpace data with
    | error e => exact ⟨e, by simp only [TimeZone.UnmarshalJSON, if_neg hnull, Sscanf, hs]⟩
    | ok inp =>
      obtain ⟨err, herr⟩ := (quotedString_goQuoted inp).2 (h inp hs)
      exact ⟨err, by
        simp only [TimeZone.UnmarshalJSON, if_neg hnull, Sscanf_SkipSpace data inp hs, herr]⟩
  · intro inp hs hg
    obtain ⟨name, hname⟩ := (quotedString_goQuoted inp).1 hg
    refine ⟨name, by
      simp only [TimeZone.UnmarshalJSON, if_neg hnull, Sscanf_SkipSpace data inp hs, hname],
      ?_, ?_⟩
    · intro rest e
      subst e
      rw [quotedString_double] at hname
      cases hl : literalValue rest with
      | none =>
        rw [hl] at hname
        simp only at hname
        cases hd : doubleQuotedLoop (rest.length + 1) rest with
        | error e => rw [hd] at hname; cases hname
        | ok _ => rw [hd] at hname; cases hname
      | some v =>
        rw [hl] at hname
        simp only [Except.ok.injEq] at hname
        rw [hname]
    · intro s rest e hv hb
      subst e
      rw [quotedString_back, backQuotedLoop_valid _ s rest (Nat.lt_succ_self _) hv hb _
        (Nat.lt_succ_self _)] at hname
      simp only [Except.ok.injEq] at hname
      exact hname.symm
  · intro err h
    simp only [TimeZone.UnmarshalJSON, if_neg hnull] at h ⊢
    cases hs : Sscanf data with
    | error e => rfl
    | ok name =>
      rw [hs] at h
      exact loadString_error_fst env z name err h

/-- Witness of C10, amended, on a receiver that holds `America/New_York`: the string
`"UTC` without its closing quote, the string `"U\qTC"` with a bad escape sequence and
the string `"U`, newline, `TC"` are rejected; the string `"UTC"` after a space and
before the trailing `x` is scanned, and its value `UTC` goes to `loadString`. -/
theorem UnmarshalJSON_goQuoted_witness :
    (str "\"UTC" ≠ str "null" ∧ SkipSpace (str "\"UTC") = .ok (str "\"UTC")
        ∧ goQuoted (str "\"UTC") = false
        ∧ ∃ err, newYork.UnmarshalJSON testEnv (str "\"UTC") = (newYork, some err))
      ∧ (str "\"U\\qTC\"" ≠ str "null" ∧ SkipSpace (str "\"U\\qTC\"") = .ok (str "\"U\\qTC\"")
        ∧ goQuoted (str "\"U\\qTC\"") = false
        ∧ ∃ err, newYork.UnmarshalJSON testEnv (str "\"U\\qTC\"") = (newYork, some err))
      ∧ (str "\"U\nTC\"" ≠ str "null" ∧ SkipSpace (str "\"U\nTC\"") = .ok (str "\"U\nTC\"")
        ∧ goQuoted (str "\"U\nTC\"") = false
        ∧ ∃ err, newYork.UnmarshalJSON testEnv (str "\"U\nTC\"") = (newYork, some err))
      ∧ (str " \"UTC\"x" ≠ str "null" ∧ SkipSpace (str " \"UTC\"x") = .ok (str "\"UTC\"x")
        ∧ goQuoted (str "\"UTC\"x") = true
        ∧ literalValue (str "UTC\"x") = some (str "UTC")
        ∧ newYork.UnmarshalJSON testEnv (str " \"UTC\"x")
            = newYork.loadString testEnv (str "UTC")) :=
  have h1 : SkipSpace (str "\"UTC") = .ok (str "\"UTC") := by decide
  have h2 : SkipSpace (str "\"U\\qTC\"") = .ok (str "\"U\\qTC\"") := by decide
  have h3 : SkipSpace (str "\"U\nTC\"") = .ok (str "\"U\nTC\"") := by decide
  have h4 : SkipSpace (str " \"UTC\"x") = .ok (str "\"UTC\"x") := by decide
  have hl : literalValue (str "UTC\"x") = some (str "UTC") := by decide
  ⟨⟨by decide, h1, by decide,
      (UnmarshalJSON_goQuoted testEnv newYork (str "\"UTC") (by decide)).1
        (fun inp hi => by rw [h1] at hi; cases hi; decide)⟩,
    ⟨by decide, h2, by decide,
      (UnmarshalJSON_goQuoted testEnv newYork (str "\"U\\qTC\"") (by decide)).1
        (fun inp hi => by rw [h2] at hi; cases hi; decide)⟩,
    ⟨by decide, h3, by decide,
      (UnmarshalJSON_goQuoted testEnv newYork (str "\"U\nTC\"") (by decide)).1
        (fun inp hi => by rw [h3] at hi; cases hi; decide)⟩,
    ⟨by decide, h4, by decide, hl, by
      obtain ⟨name, h, hv, -⟩ :=
        (UnmarshalJSON_goQuoted testEnv newYork (str " \"UTC\"x") (by decide)).2.1
          (str "\"UTC\"x") h4 (by decide)
      have hn := hv (str "UTC\"x") (by decide)
      rw [hl] at hn
      cases hn
      exact h⟩⟩

/-- Remark on C10: a double-quoted string without its closing quote is rejected, on
every receiver. -/
theorem UnmarshalJSON_unterminated (env : Env) (z : TimeZone) (rest : List Byte)
    (h : byte 0x22 ∉ rest) :
    ∃ err, z.UnmarshalJSON env (byte 0x22 :: rest) = (z, some err) := by
  have hnull : byte 0x22 :: rest ≠ str "null" := by
    intro e
    have := congrArg List.head? e
    rw [List.head?_cons] at this
    exact absurd this (by decide)
  have hq : quotedString (byte 0x22 :: rest) = _ := quotedString_double rest
  rw [literalValue_unterminated rest h] at hq
  simp only [TimeZone.UnmarshalJSON, if_neg hnull,
    Sscanf_SkipSpace _ _ (SkipSpace_quote rest), hq]
  cases doubleQuotedLoop (rest.length + 1) rest with
  | error e => exact ⟨e, rfl⟩
  | ok _ => exact ⟨_, rfl⟩

/-- Remark on C10: a name without characters that need escaping, enclosed in double
quotes, is read as the name whatever follows the closing quote. -/
theorem UnmarshalJSON_trailing (env : Env) (z : TimeZone) (s rest : List Byte)
    (h : NoEscape s) :
    z.UnmarshalJSON env (byte 0x22 :: (s ++ byte 0x22 :: rest)) = z.loadString env s := by
  have hnull : byte 0x22 :: (s ++ byte 0x22 :: rest) ≠ str "null" := by
    intro e
    have := congrArg List.head? e
    rw [List.head?_cons] at this
    exact absurd this (by decide)
  have hQ : Quoted s s := Quoted_self _ s (Nat.lt_succ_self _) h.1
    (fun b hb => ⟨(h.2 b hb).2.1, (h.2 b hb).2.2, by have := (h.2 b hb).1; omega⟩)
  have hq : quotedString (byte 0x22 :: (s ++ byte 0x22 :: rest)) = _ :=
    quotedString_double (s ++ byte 0x22 :: rest)
  rw [literalValue_quoted s s hQ rest] at hq
  simp only [TimeZone.UnmarshalJSON, if_neg hnull,
    Sscanf_SkipSpace _ _ (SkipSpace_quote _), hq]

/-- Remark on C10: a back-quoted string of well-formed UTF-8 is read as the bytes
between the back quotes, whatever follows the closing one. -/
theorem UnmarshalJSON_back_quoted (env : Env) (z : TimeZone) (s rest : List Byte)
    (hv : ValidString s = true) (hb : ∀ b ∈ s, b ≠ byte 0x60) :
    z.UnmarshalJSON env (byte 0x60 :: (s ++ byte 0x60 :: rest)) = z.loadString env s := by
  have hnull : byte 0x60 :: (s ++ byte 0x60 :: rest) ≠ str "null" := by
    intro e
    have := congrArg List.head? e
    rw [List.head?_cons] at this
    exact absurd this (by decide)
  have hs : SkipSpace (byte 0x60 :: (s ++ byte 0x60 :: rest))
      = .ok (byte 0x60 :: (s ++ byte 0x60 :: rest)) := by
    rw [SkipSpace, List.length_cons, SkipSpaceLoop, getRune_ascii _ _ (by decide)]
    have h1 : ¬ ((byte 0x60).val = 0x0D
        ∧ (getRune (s ++ byte 0x60 :: rest)).map Prod.fst = some 0x0A) := by
      rintro ⟨h, -⟩; revert h; decide
    have h2 : ¬ ((byte 0x60).val = 0x0A) := by decide
    have h3 : (!isSpace (byte 0x60).val) = true := by decide
    simp only [if_neg h1, if_neg h2, if_pos h3]
  simp only [TimeZone.UnmarshalJSON, if_neg hnull, Sscanf_SkipSpace _ _ hs,
    quotedString_back, backQuotedLoop_valid _ s rest (Nat.lt_succ_self _) hv hb _
      (Nat.lt_succ_self _)]

/-- Counterexample to C11 as stated: on a host whose zone database holds a zone under
the name `A` followed by the control character BEL, the loaded value is valid, and
`MarshalJSON` returns the name in Go syntax, with the escape `\a`, which is no JSON
string literal. -/
theorem MarshalJSON_not_json :
    Valid bellEnv bellZone
      ∧ bellZone.String bellEnv = [byte 0x41, byte 0x07]
      ∧ bellZone.MarshalJSON bellEnv = (str "\"A\\a\"", none)
      ∧ isJSONString (bellZone.MarshalJSON bellEnv).1 = false :=
  ⟨Or.inr ⟨{ loc := none }, [byte 0x41, byte 0x07], by decide⟩, by decide, by decide,
    by decide⟩

/-- C11, amended: for every value, `MarshalJSON` returns no error and returns the
canonical name quoted by `strconv.Quote` (the verb `%q`).  The result is a JSON string
literal exactly when the name is well-formed UTF-8 and holds no BEL, no VT, no other
control character below U+0020 than those with the escapes `\b`, `\t`, `\n`, `\f`,
`\r`, no DEL and no unprintable character above U+FFFF; it is then a JSON string
literal that stands for the name.  For a name of plain characters (printable ASCII
other than the double quote and the backslash) it is exactly the name enclosed in
double quotes. -/
theorem MarshalJSON_quoted (env : Env) (z : TimeZone) :
    z.MarshalJSON env = (Strconv.Quote env (z.String env), none)
      ∧ isJSONString (z.MarshalJSON env).1 = jsonSafe env (z.String env)
      ∧ (jsonSafe env (z.String env) = true →
          jsonValue (z.MarshalJSON env).1 = some (z.String env))
      ∧ ((∀ b ∈ z.String env, isPlain b = true) →
          jsonSafe env (z.String env) = true
            ∧ (z.MarshalJSON env).1 = byte 0x22 :: z.String env ++ [byte 0x22]) := by
  obtain ⟨j1, j2⟩ := quoteLoop_json env _ (z.String env) (Nat.lt_succ_self _)
  have hq : (byte 0x22).val = 0x22 := by decide
  have e1 : isJSONString (z.MarshalJSON env).1 = jsonSafe env (z.String env) := by
    simp only [TimeZone.MarshalJSON, Sprintf, Quote, List.cons_append, isJSONString, hq,
      decide_True, Bool.true_and, jsonSafe]
    exact j1
  refine ⟨rfl, e1, fun h => ?_, fun h => ?_⟩
  · simp only [TimeZone.MarshalJSON, Sprintf, Quote, List.cons_append, jsonValue, hq, if_true]
    exact j2 h
  · have e : (z.MarshalJSON env).1 = byte 0x22 :: z.String env ++ [byte 0x22] := by
      simp only [TimeZone.MarshalJSON, Sprintf, Quote]
      rw [quoteLoop_plain env _ _ (Nat.lt_succ_self _) h]
    refine ⟨?_, e⟩
    rw [← e1, e, List.cons_append, isJSONString, jsonStringTail_plain _ h]
    decide

set_option maxRecDepth 8192 in
/-- Witness of C11, amended: `Asia/Tokyo`, loaded, a name of plain characters; and
the zone of `oddEnv`, loaded, whose name holds a character above ASCII, a tab, a
double quote, a backslash and a newline. -/
theorem MarshalJSON_quoted_witness :
    ((∀ b ∈ tokyo.String testEnv, isPlain b = true)
        ∧ jsonSafe testEnv (tokyo.String testEnv) = true
        ∧ (tokyo.MarshalJSON testEnv).1 = byte 0x22 :: tokyo.String testEnv ++ [byte 0x22]
        ∧ jsonValue (tokyo.MarshalJSON testEnv).1 = some (tokyo.String testEnv))
      ∧ (Valid oddEnv oddZone
        ∧ oddZone.String oddEnv = str "Café\t\"A\\B\"\n"
        ∧ jsonSafe oddEnv (oddZone.String oddEnv) = true
        ∧ (oddZone.MarshalJSON oddEnv).1 = str "\"Café\\t\\\"A\\\\B\\\"\\n\""
        ∧ isJSONString (oddZone.MarshalJSON oddEnv).1 = true
        ∧ jsonValue (oddZone.MarshalJSON oddEnv).1 = some (oddZone.String oddEnv)) :=
  ⟨⟨by decide, ((MarshalJSON_quoted testEnv tokyo).2.2.2 (by decide)).1,
      ((MarshalJSON_quoted testEnv tokyo).2.2.2 (by decide)).2,
      (MarshalJSON_quoted testEnv tokyo).2.2.1 (by decide)⟩,
    ⟨Or.inr ⟨{ loc := none }, str "Café\t\"A\\B\"\n", by decide⟩, by decide, by decide,
      by decide, (MarshalJSON_quoted oddEnv oddZone).2.1.trans (by decide),
      (MarshalJSON_quoted oddEnv oddZone).2.2.1 (by decide)⟩⟩

/-- C12: the read adapters agree with the canonical name and never fail.  For every
value, `Value()` returns `String()` and a nil error, and `MarshalText()` returns the
bytes of `String()` and a nil error; the zero value yields `UTC`. -/
theorem read_adapters (env : Env) (z : TimeZone) :
    z.Value env = (z.String env, none)
      ∧ z.MarshalText env = (z.String env, none)
      ∧ TimeZone.Value env { loc := none } = (str "UTC", none)
      ∧ TimeZone.MarshalText env { loc := none } = (str "UTC", none) :=
  ⟨rfl, rfl, rfl, rfl⟩

/-- C13: `Location` is never nil.  For every value `Location()` returns a non-nil
pointer; for the zero value it is `time.UTC` itself, and for a value that holds a
zone it is that zone. -/
theorem Location_not_nil (z : TimeZone) :
    z.Location ≠ none
      ∧ TimeZone.Location { loc := none } = some .UTC
      ∧ ∀ l, TimeZone.Location { loc := some l } = some l := by
  refine ⟨?_, rfl, fun l => rfl⟩
  unfold TimeZone.Location
  cases z.loc <;> simp

/-- C14: never `Local`.  Starting from the zero value, after any sequence of
`LoadTimeZone`, `loadString`, `Scan`, `UnmarshalText` and `UnmarshalJSON` calls,
whether they fail or not, the variable does not hold `time.Local` and `Location()`
does not return it. -/
theorem never_Local (env : Env) (ops : List Op) :
    (runAll env { loc := none } ops).loc ≠ some .Local
      ∧ (runAll env { loc := none } ops).Location ≠ some .Local := by
  have h := runAll_held env ops { loc := none } (Or.inl rfl)
  rcases h with h | ⟨name, h, -⟩
  · simp [TimeZone.Location, h]
  · simp [TimeZone.Location, h]

/-- C15: a single representation of UTC.  Starting from the zero value, after any
sequence of `LoadTimeZone`, `loadString`, `Scan`, `UnmarshalText` and
`UnmarshalJSON` calls, the variable does not hold `time.UTC`; a `loadString` of a
name the resolver maps to `time.UTC` stores the unset state in any receiver; and a
variable that renders as `UTC` is the zero value. -/
theorem single_UTC (env : Env) (ops : List Op) (z : TimeZone) (s : GoString) :
    (runAll env { loc := none } ops).loc ≠ some .UTC
      ∧ (Time.LoadLocation env s = .ok .UTC → z.loadString env s = ({ loc := none }, none))
      ∧ ((runAll env { loc := none } ops).String env = str "UTC" →
          runAll env { loc := none } ops = { loc := none }) := by
  have h := runAll_held env ops { loc := none } (Or.inl rfl)
  refine ⟨?_, ?_, ?_⟩
  · rcases h with h | ⟨name, h, -⟩ <;> simp [h]
  · intro hl
    rw [loadString_eq, hl]
  · intro hs
    cases hz : runAll env { loc := none } ops with
    | mk loc =>
      rw [hz] at h hs
      rcases h with h | ⟨name, h, hl⟩
      · simp only at h; rw [h]
      · simp only at h
        subst h
        exfalso
        simp only [TimeZone.String, TimeZone.Location, Time.get, Time.Location.String] at hs
        subst hs
        have h2 : Time.LoadLocation env (str "UTC") = .ok .UTC := by simp [Time.LoadLocation]
        rw [h2] at hl
        cases hl

/-- Witness of C15: `Asia/Tokyo` is loaded and the JSON string `UTC` is then decoded
into the variable; it renders as `UTC` and is the zero value. -/
theorem single_UTC_witness :
    (runAll testEnv { loc := none }
        [.LoadTimeZone (str "Asia/Tokyo"), .call (.UnmarshalJSON (str "\"UTC\""))]).String
          testEnv = str "UTC"
      ∧ runAll testEnv { loc := none }
        [.LoadTimeZone (str "Asia/Tokyo"), .call (.UnmarshalJSON (str "\"UTC\""))]
          = { loc := none } :=
  ⟨by decide,
    (single_UTC testEnv
      [.LoadTimeZone (str "Asia/Tokyo"), .call (.UnmarshalJSON (str "\"UTC\""))]
      newYork (str "UTC")).2.2 (by decide)⟩

/-- C16: `loadString` fails exactly when the resolver rejects the name or returns
`time.Local`.  In the first case it returns the resolver's own error, in the second
the error `invalid TimeZone: Local`, which is none of the resolver's, and in both the
receiver stays as it was; in every other case it returns no error and stores the
unset state for `time.UTC` and the resolved zone otherwise. -/
theorem loadString_fails_iff (env : Env) (z : TimeZone) (s : GoString) :
    ((z.loadString env s).2 ≠ none ↔
        (∃ e, Time.LoadLocation env s = .error e) ∨ Time.LoadLocation env s = .ok .Local)
      ∧ (∀ e, Time.LoadLocation env s = .error e →
          z.loadString env s = (z, some e) ∧ ∃ msg, e = .location msg)
      ∧ (Time.LoadLocation env s = .ok .Local →
          z.loadString env s = (z, some .invalidLocal))
      ∧ (∀ msg, Error.invalidLocal ≠ .location msg)
      ∧ (∀ l, Time.LoadLocation env s = .ok l → l ≠ .Local →
          z.loadString env s = ({ loc := if l = .UTC then none else some l }, none)) := by
  refine ⟨?_, ?_, ?_, fun msg h => Error.noConfusion h, ?_⟩
  · rw [loadString_eq]
    cases hl : Time.LoadLocation env s with
    | error e => simp
    | ok loc => cases loc <;> simp
  · intro e h
    exact ⟨by rw [loadString_eq, h], LoadLocation_error env s e h⟩
  · intro h
    rw [loadString_eq, h]
  · intro l h hl
    rw [loadString_eq, h]
    cases l with
    | UTC => rfl
    | Local => exact absurd rfl hl
    | zone name => rfl

/-- Witness of C16: the name `ErrName`, on a receiver that holds
`America/New_York`. -/
theorem loadString_fails_iff_witness :
    Time.LoadLocation testEnv (str "ErrName")
        = .error (.location (str "unknown time zone ErrName"))
      ∧ newYork.loadString testEnv (str "ErrName")
        = (newYork, some (.location (str "unknown time zone ErrName")))
      ∧ ∃ msg, Error.location (str "unknown time zone ErrName") = .location msg :=
  ⟨by decide, (loadString_fails_iff testEnv newYork (str "ErrName")).2.1 _ (by decide)⟩

/-- C17: a single choke point.  For every receiver and every name `s`, `Scan` of `s`
as a string, `Scan` of `s` as bytes and `UnmarshalText` of the bytes of `s` return
what `loadString(s)` returns, error and receiver alike, and so does `UnmarshalJSON`
of `s` enclosed in double quotes when `s` has no characters that need escaping. -/
theorem single_choke_point (env : Env) (z : TimeZone) (s : GoString) :
    z.Scan env (.string s) = z.loadString env s
      ∧ z.Scan env (.bytes s) = z.loadString env s
      ∧ z.UnmarshalText env s = z.loadString env s
      ∧ (NoEscape s →
          z.UnmarshalJSON env (byte 0x22 :: s ++ [byte 0x22]) = z.loadString env s) := by
  refine ⟨rfl, rfl, rfl, fun h => ?_⟩
  have hn : byte 0x22 :: s ++ [byte 0x22] ≠ str "null" := by
    intro h
    have h1 := congrArg List.head? h
    rw [List.cons_append, List.head?_cons] at h1
    exact absurd h1 (by decide)
  simp only [TimeZone.UnmarshalJSON, if_neg hn, Sscanf_NoEscape s h]

set_option maxRecDepth 8192 in
/-- Witness of C17: `Asia/Tokyo` between double quotes, decoded into a receiver that
holds `America/New_York`. -/
theorem single_choke_point_witness :
    NoEscape (str "Asia/Tokyo")
      ∧ newYork.UnmarshalJSON testEnv (byte 0x22 :: str "Asia/Tokyo" ++ [byte 0x22])
          = newYork.loadString testEnv (str "Asia/Tokyo") :=
  have hn : NoEscape (str "Asia/Tokyo") := ⟨by decide, by decide⟩
  ⟨hn, (single_choke_point testEnv newYork (str "Asia/Tokyo")).2.2.2 hn⟩

/-- A remark on C17: a byte that is not well-formed UTF-8 is read by the scanner as
U+FFFD, so on a host with a zone under the name `0xFF` the name loads and its quoted
form does not. -/
theorem UnmarshalJSON_ill_formed :
    TimeZone.loadString rawEnv { loc := none } [byte 0xFF]
        = ({ loc := some (.zone [byte 0xFF]) }, none)
      ∧ TimeZone.UnmarshalJSON rawEnv { loc := none } [byte 0x22, byte 0xFF, byte 0x22]
        = ({ loc := none },
            some (.location (str "unknown time zone " ++ AppendRune 0xFFFD))) := by
  decide

/-- C18: `LoadTimeZone` returns the zero value on failure.  For every name on which
`loadString` into a zero receiver fails, `LoadTimeZone` returns the error with the
zero value `TimeZone{}`, which is `UTCTimeZone`; for every other name it returns a
nil error with the receiver `loadString` leaves. -/
theorem LoadTimeZone_result (env : Env) (s : GoString) :
    (∀ err, (TimeZone.loadString env { loc := none } s).2 = some err →
        LoadTimeZone env s = ({ loc := none }, some err))
      ∧ ((TimeZone.loadString env { loc := none } s).2 = none →
        LoadTimeZone env s = ((TimeZone.loadString env { loc := none } s).1, none))
      ∧ UTCTimeZone = { loc := none } := by
  refine ⟨?_, ?_, rfl⟩
  · intro err h
    unfold LoadTimeZone
    cases hr : TimeZone.loadString env { loc := none } s with
    | mk z e =>
      rw [hr] at h
      simp only at h
      subst h
      rfl
  · intro h
    unfold LoadTimeZone
    cases hr : TimeZone.loadString env { loc := none } s with
    | mk z e =>
      rw [hr] at h
      simp only at h
      subst h
      rfl

/-- Witness of C18: the name `Local`. -/
theorem LoadTimeZone_result_witness :
    (TimeZone.loadString testEnv { loc := none } (str "Local")).2 = some .invalidLocal
      ∧ LoadTimeZone testEnv (str "Local") = ({ loc := none }, some .invalidLocal) :=
  ⟨by decide, (LoadTimeZone_result testEnv (str "Local")).1 _ (by decide)⟩

end Tz
